import Mathlib

/-!
# Basecoin transaction executor: shallow embedding and verified properties

The development embeds the executor of `state/execution.go`, the transaction
model of `types/tx.go`, the plugin registry of `types/plugin.go`, the key
types of `crypto/pub_key.go` and the application of `app/app.go` as Lean
functions, and proves properties of them.

Conventions of the embedding:

* byte strings (`[]byte`) are lists of naturals; the executor only observes
  their length and equality;
* Go `int` and `int64` are the signed 64-bit word `GoInt`, with wrap-around
  addition; sequences and coin amounts are such words;
* a call that panics in Go (`PanicSanity`, method call on a nil interface)
  is the `Outcome.panic` outcome; a call that returns is `Outcome.ret`;
* `*Account` pointers held in the `accounts` map are account values: every
  address of a transaction owns its own freshly loaded record, and each
  in-place mutation of a record is written back into the map;
* functions of external libraries (hashing, signature verification, wire
  encoding) are fields of the parameter record `Ext`.
-/

namespace Basecoin

/-! ## Machine integers and byte strings -/

/-- Byte strings: Go `[]byte`, and `string(bytes)` map keys. -/
abbrev Bytes := List Nat

/-- Go `int` on the 64-bit targets of the node, and Go `int64`: a signed
64-bit word. -/
abbrev GoInt := { i : Int // -9223372036854775808 ≤ i ∧ i < 9223372036854775808 }

/-- Two's complement wrap-around of a mathematical integer into 64 bits. -/
def wrap64 (i : Int) : Int :=
  (i + 9223372036854775808) % 18446744073709551616 - 9223372036854775808

theorem wrap64_range (i : Int) :
    -9223372036854775808 ≤ wrap64 i ∧ wrap64 i < 9223372036854775808 := by
  unfold wrap64; omega

/-- The word holding (the wrap-around of) an integer. -/
def GoInt.ofInt (i : Int) : GoInt := ⟨wrap64 i, wrap64_range i⟩

/-- Go `a + b` on `int` and on `int64`. -/
def GoInt.add (a b : GoInt) : GoInt := GoInt.ofInt (a.val + b.val)

/-- Go `-a` on a signed 64-bit word (the least word is its own negation). -/
def GoInt.neg (a : GoInt) : GoInt := GoInt.ofInt (-a.val)

/-- Numerals denote the word they wrap to. -/
instance (n : Nat) : OfNat GoInt n := ⟨GoInt.ofInt n⟩

/-- The constant `0`. -/
def GoInt.zero : GoInt := ⟨0, by decide⟩

/-- The constant `1`. -/
def GoInt.one : GoInt := ⟨1, by decide⟩

/-- The outcome of a call: it returns a value, or it panics. -/
inductive Outcome (α : Type) where
  | ret (a : α)
  | panic (msg : String)
deriving DecidableEq, Repr

/-! ## Coins (`types/coin.go`) -/

/-- Modelled from the spec: `Coin` of types/coin.go (not among the sources),
"pair (denom: string, amount: signed 64-bit integer)". The amount is a
signed 64-bit word, Go `int64`. -/
structure Coin where
  Denom : String
  Amount : GoInt
deriving DecidableEq, Repr

/-- Modelled from the spec: `Coins` of types/coin.go, an "ordered sequence of
Coin". The nil slice is the empty list. -/
abbrev Coins := List Coin

/-- Lexicographic comparison of two denoms (`<` on Go strings). -/
abbrev denomLt (a b : String) : Prop := a.toList < b.toList

/-- Modelled from the spec: `Coins.IsValid` of types/coin.go: "denoms are
unique and appear in ascending lexicographic order; every amount is strictly
positive. IsValid enforces both." -/
def Coins.IsValid : Coins → Bool
  | [] => true
  | [c] => decide (0 < c.Amount.val)
  | c :: d :: rest =>
    decide (0 < c.Amount.val) && decide (denomLt c.Denom d.Denom) && Coins.IsValid (d :: rest)

/-- Modelled from the spec: `Coins.IsZero` of types/coin.go: "IsZero is true
iff the sequence is empty." -/
def Coins.IsZero (coins : Coins) : Bool := coins.isEmpty

/-- Modelled from the spec: one step of `Coins.Plus` of types/coin.go
("Addition merges by denom"): the coin is merged into a denom-ordered
sequence at the position of its denom; amounts of the same denom are added
and a denom whose amount cancels to zero leaves the sequence. The amounts are
signed 64-bit words and the sum is that of Go `int64`, which wraps around:
the spec has the operations "total and deterministic" and gives them no
failure value, overflow being ruled out by an assumption on the callers
("overflow is a hard error (the system assumes balances fit comfortably in
i64)"). -/
def Coins.addCoin (c : Coin) : Coins → Coins
  | [] => [c]
  | h :: t =>
    if denomLt c.Denom h.Denom then c :: h :: t
    else if c.Denom = h.Denom then
      (if (GoInt.add h.Amount c.Amount).val = 0 then t
       else { Denom := h.Denom, Amount := GoInt.add h.Amount c.Amount } :: t)
    else h :: Coins.addCoin c t

/-- Modelled from the spec: `Coins.Plus` of types/coin.go: "Addition merges
by denom": every coin of the right operand is merged into the left one. -/
def Coins.Plus (coinsA coinsB : Coins) : Coins :=
  coinsB.foldl (fun acc c => Coins.addCoin c acc) coinsA

/-- Modelled from the spec: the amounts negated as signed 64-bit words, denom
by denom (the subtrahend of `Coins.Minus`). -/
def Coins.Negative (coins : Coins) : Coins :=
  coins.map fun c => { Denom := c.Denom, Amount := GoInt.neg c.Amount }

/-- Modelled from the spec: `Coins.Minus` of types/coin.go: subtraction by
denom, the left side less the right side. -/
def Coins.Minus (coinsA coinsB : Coins) : Coins := coinsA.Plus coinsB.Negative

/-- Modelled from the spec: the amount a coin sequence holds of a denom,
"treating missing denoms as zero". -/
def Coins.amountOf : Coins → String → Int
  | [], _ => 0
  | c :: rest, d => if c.Denom = d then c.Amount.val else Coins.amountOf rest d

/-- Modelled from the spec: `Coins.IsGTE` of types/coin.go: "componentwise ≥
over the union of denoms treating missing denoms as zero". -/
def Coins.IsGTE (coinsA coinsB : Coins) : Bool :=
  (coinsA ++ coinsB).all fun c =>
    decide (coinsB.amountOf c.Denom ≤ coinsA.amountOf c.Denom)

/-- Modelled from the spec: `Coins.IsEqual` of types/coin.go: equality "as
Coins", coin by coin. -/
def Coins.IsEqual (coinsA coinsB : Coins) : Bool := decide (coinsA = coinsB)

/-! ## Keys and signatures (`crypto/pub_key.go`) -/

/-- The implementations of `crypto.PubKey`: `PubKeyEd25519` and
`PubKeySecp256k1`, each a fixed-length byte array. -/
inductive PubKey where
  | Ed25519 (key : Bytes)
  | Secp256k1 (key : Bytes)
deriving DecidableEq, Repr

/-- The implementations of `crypto.Signature`: `SignatureEd25519` and
`SignatureSecp256k1`. -/
inductive Signature where
  | Ed25519 (sig : Bytes)
  | Secp256k1 (sig : Bytes)
deriving DecidableEq, Repr

/-! ## Accounts and transactions (`types/tx.go`) -/

/-- Modelled from the spec: `Account` of types/account.go (not among the
sources): "(pub_key: optional typed public key, sequence: signed integer,
balance: Coins)". A nil `PubKey` is `none`. -/
structure Account where
  PubKey : Option PubKey
  Sequence : GoInt
  Balance : Coins
deriving DecidableEq, Repr

/-- Modelled from the spec: `Account.Copy` of types/account.go: a copy of the
record. -/
def Account.Copy (acc : Account) : Account := acc

/-- The struct `TxInput`; nil `Signature` and nil `PubKey` are `none`. -/
structure TxInput where
  Address : Bytes
  Coins : Coins
  Sequence : GoInt
  Signature : Option Signature
  PubKey : Option PubKey
deriving DecidableEq, Repr

/-- The struct `TxOutput`. -/
structure TxOutput where
  Address : Bytes
  Coins : Coins
deriving DecidableEq, Repr

/-- The struct `SendTx`. -/
structure SendTx where
  Gas : Int
  Fee : Coin
  Inputs : List TxInput
  Outputs : List TxOutput
deriving DecidableEq, Repr

/-- The struct `AppTx`. -/
structure AppTx where
  Gas : Int
  Fee : Coin
  Name : String
  Input : TxInput
  Data : Bytes
deriving DecidableEq, Repr

/-- The interface `Tx`: its two registered implementations, and the nil
interface value. -/
inductive Tx where
  | send (tx : SendTx)
  | app (tx : AppTx)
  | nil
deriving DecidableEq, Repr

/-! ## External library functions -/

/-- Functions of external libraries used by the sources: hashing and
signature verification (`ripemd160`, `sha256`, `ed25519`, `btcec`), the
go-wire binary encoders, and the key type byte. -/
structure Ext where
  ripemd160 : Bytes → Bytes
  sha256 : Bytes → Bytes
  ed25519Verify : Bytes → Bytes → Bytes → Bool
  secpParsePubKey : Bytes → Option Bytes
  secpParseDERSignature : Bytes → Option Bytes
  secpVerify : Bytes → Bytes → Bytes → Bool
  TypeEd25519 : Nat
  wireByteSlice : Bytes → Bytes
  wireString : String → Bytes
  wireSendTx : SendTx → Bytes
  wireAppTx : AppTx → Bytes

/-- The methods `PubKeyEd25519.Address` and `PubKeySecp256k1.Address`. -/
def PubKey.Address (E : Ext) : PubKey → Bytes
  | .Ed25519 key => E.ripemd160 (E.TypeEd25519 :: E.wireByteSlice key)
  | .Secp256k1 key => E.ripemd160 (E.sha256 key)

/-- The methods `PubKeyEd25519.VerifyBytes` and `PubKeySecp256k1.VerifyBytes`: a
signature of the other variant (or a nil signature) fails the type assertion
and the result is `false`. -/
def PubKey.VerifyBytes (E : Ext) (pubKey : PubKey) (msg : Bytes)
    (sig_ : Option Signature) : Bool :=
  match pubKey with
  | .Ed25519 key =>
    match sig_ with
    | some (.Ed25519 sig) => E.ed25519Verify key msg sig
    | _ => false
  | .Secp256k1 key =>
    match sig_ with
    | some (.Secp256k1 sig) =>
      match E.secpParsePubKey key with
      | none => false
      | some pub__ =>
        match E.secpParseDERSignature sig with
        | none => false
        | some sig__ => E.secpVerify sig__ (E.sha256 msg) pub__
    | _ => false

/-! ## Results (`wrsp.Result`) -/

/-- The result codes used by the sources. -/
inductive CodeType where
  | OK
  | InternalError
  | EncodingError
  | BaseDuplicateAddress
  | BaseEncodingError
  | BaseInsufficientFunds
  | BaseInvalidInput
  | BaseInvalidOutput
  | BaseInvalidSequence
  | BaseInvalidSignature
  | BaseUnknownAddress
deriving DecidableEq, Repr

/-- An argument of a `Fmt` call. -/
inductive FmtArg where
  | coins (c : Coins)
  | int (i : Int)
  | bytes (b : Bytes)
  | str (s : String)
deriving DecidableEq, Repr

/-- One segment of a result log: the message the library attaches to one of
its error constants, a literal text, or the text of a `Fmt` call. The log of
a result is the sequence of its segments, in the order in which the library
joins them. -/
inductive LogPart where
  | canned (c : CodeType)
  | text (s : String)
  | fmt (format : String) (args : List FmtArg)
deriving DecidableEq, Repr

/-- The struct `wrsp.Result`. -/
structure Result where
  Code : CodeType
  Data : Bytes
  Log : List LogPart
deriving DecidableEq, Repr

/-- The constant `wrsp.OK`. -/
def OK : Result := { Code := .OK, Data := [], Log := [] }

/-- The error constant of the library for a code (`wrsp.ErrBase...`). -/
def Err (c : CodeType) : Result := { Code := c, Data := [], Log := [.canned c] }

/-- The constant `wrsp.ErrBaseInvalidInput`. -/
def ErrBaseInvalidInput : Result := Err .BaseInvalidInput

/-- The constant `wrsp.ErrBaseInvalidOutput`. -/
def ErrBaseInvalidOutput : Result := Err .BaseInvalidOutput

/-- The constant `wrsp.ErrBaseInvalidSequence`. -/
def ErrBaseInvalidSequence : Result := Err .BaseInvalidSequence

/-- The constant `wrsp.ErrBaseInvalidSignature`. -/
def ErrBaseInvalidSignature : Result := Err .BaseInvalidSignature

/-- The constant `wrsp.ErrBaseInsufficientFunds`. -/
def ErrBaseInsufficientFunds : Result := Err .BaseInsufficientFunds

/-- The constant `wrsp.ErrBaseUnknownAddress`. -/
def ErrBaseUnknownAddress : Result := Err .BaseUnknownAddress

/-- The constant `wrsp.ErrBaseDuplicateAddress`. -/
def ErrBaseDuplicateAddress : Result := Err .BaseDuplicateAddress

/-- The constant `wrsp.ErrBaseEncodingError`. -/
def ErrBaseEncodingError : Result := Err .BaseEncodingError

/-- The method `Result.IsOK`. -/
def Result.IsOK (res : Result) : Bool := decide (res.Code = .OK)

/-- The method `Result.IsErr`. -/
def Result.IsErr (res : Result) : Bool := decide (res.Code ≠ .OK)

/-- The method `Result.AppendLog`: the text follows the log so far. -/
def Result.AppendLog (res : Result) (log : LogPart) : Result :=
  { Code := res.Code, Data := res.Data, Log := res.Log ++ [log] }

/-- The method `Result.PrependLog`: the text precedes the log so far. -/
def Result.PrependLog (res : Result) (log : LogPart) : Result :=
  { Code := res.Code, Data := res.Data, Log := log :: res.Log }

/-- The method `Result.SetLog`. -/
def Result.SetLog (res : Result) (log : LogPart) : Result :=
  { Code := res.Code, Data := res.Data, Log := [log] }

/-! ## Finite maps keyed by byte strings -/

/-- Lookup in an association list. -/
def assocGet {α : Type} : List (Bytes × α) → Bytes → Option α
  | [], _ => none
  | (k, v) :: t, a => if k = a then some v else assocGet t a

/-- Assignment in an association list: the entry of the key is replaced in
place, or a new entry is added at the end. -/
def assocSet {α : Type} : List (Bytes × α) → Bytes → α → List (Bytes × α)
  | [], a, v => [(a, v)]
  | (k, w) :: t, a, v => if k = a then (a, v) :: t else (k, w) :: assocSet t a v

theorem assocSet_keys {α : Type} (l : List (Bytes × α)) (a : Bytes) (v : α) :
    (assocSet l a v).map Prod.fst =
      if a ∈ l.map Prod.fst then l.map Prod.fst else l.map Prod.fst ++ [a] := by
  induction l with
  | nil => simp [assocSet]
  | cons h t ih =>
    obtain ⟨k, w⟩ := h
    by_cases hk : k = a
    · subst hk; simp [assocSet]
    · have hk2 : ¬ a = k := fun e => hk e.symm
      simp only [assocSet, hk, if_false, List.map_cons, ih, List.mem_cons, hk2, false_or]
      split <;> simp

theorem assocSet_nodup {α : Type} (l : List (Bytes × α)) (a : Bytes) (v : α)
    (h : (l.map Prod.fst).Nodup) : ((assocSet l a v).map Prod.fst).Nodup := by
  rw [assocSet_keys]
  split
  · exact h
  · rename_i hn
    exact List.Nodup.append h (by simp) (by simpa using hn)

/-- A finite map from byte strings: a Go `map[string]T`, or the records of
one kind in the key-value backend. -/
structure ByteMap (α : Type) where
  entries : List (Bytes × α)
  nodup : (entries.map Prod.fst).Nodup

theorem ByteMap.ext_entries {α : Type} {m₁ m₂ : ByteMap α}
    (h : m₁.entries = m₂.entries) : m₁ = m₂ := by
  cases m₁; cases m₂; cases h; rfl

instance {α : Type} [DecidableEq α] : DecidableEq (ByteMap α) := fun m₁ m₂ =>
  if h : m₁.entries = m₂.entries then isTrue (ByteMap.ext_entries h)
  else isFalse (fun e => h (by rw [e]))

/-- The empty map. -/
def ByteMap.empty {α : Type} : ByteMap α := ⟨[], List.nodup_nil⟩

/-- The value stored under a key, if any. -/
def ByteMap.get {α : Type} (m : ByteMap α) (k : Bytes) : Option α := assocGet m.entries k

/-- The map with a key (re)assigned. -/
def ByteMap.set {α : Type} (m : ByteMap α) (k : Bytes) (v : α) : ByteMap α :=
  ⟨assocSet m.entries k v, assocSet_nodup m.entries k v m.nodup⟩

/-- The keys of the map. -/
def ByteMap.keys {α : Type} (m : ByteMap α) : List Bytes := m.entries.map Prod.fst

/-! ## State (`state/state.go`) -/

/-- Modelled from the spec: the key-value backend as seen through the state
layer (types/kvstore.go and state/state.go are not among the sources):
"Accounts are stored under a key derived from the address (the derivation is
opaque to the executor; the state layer owns it)". The account records are
kept apart from the other records, which plugins own. -/
structure KVStore where
  accounts : ByteMap Account
  data : ByteMap Bytes
deriving DecidableEq

/-- Modelled from the spec: `State` of state/state.go: "wraps a KV backend
plus an in-memory chain-id". A cache-wrapped state is represented by its
view, the content of the parent overlaid with the buffered writes. -/
structure State where
  chainID : String
  store : KVStore
deriving DecidableEq

/-- Modelled from the spec: `State.GetChainID`. -/
def State.GetChainID (s : State) : String := s.chainID

/-- Modelled from the spec: `State.GetAccount`: the account decoded from the
record stored under the address, nil (`none`) when there is none. -/
def State.GetAccount (s : State) (addr : Bytes) : Option Account := s.store.accounts.get addr

/-- Modelled from the spec: `State.SetAccount`: the account is encoded and
stored under the address. -/
def State.SetAccount (s : State) (addr : Bytes) (acc : Account) : State :=
  { s with store := { s.store with accounts := s.store.accounts.set addr acc } }

/-- Modelled from the spec: `State.CacheWrap`: "a child State whose reads
fall through to the parent for keys it has not touched, and whose writes
remain buffered": the view of the new child is the content of the parent. -/
def State.CacheWrap (s : State) : State := s

/-- Modelled from the spec: `State.CacheSync` of a child wrapped from
`parent`: "cache_sync replays buffered writes onto the parent", after which
the content of the parent is the view of the child. -/
def State.CacheSync (parent cache : State) : State := { parent with store := cache.store }

/-! ## Plugins (`types/plugin.go`) -/

/-- The struct `CallContext`. -/
structure CallContext where
  CallerAddress : Bytes
  CallerAccount : Account
  Coins : Coins
deriving DecidableEq, Repr

/-- The constructor `NewCallContext`. -/
def NewCallContext (callerAddress : Bytes) (callerAccount : Account) (coins : Coins) :
    CallContext :=
  { CallerAddress := callerAddress, CallerAccount := callerAccount, Coins := coins }

/-- The struct `wrsp.Validator`. -/
structure Validator where
  PubKey : Bytes
  Power : Nat
deriving DecidableEq, Repr

/-- The interface `Plugin`: every handler is a function of the store it is
given, returning its result and the store as its writes leave it. -/
structure Plugin where
  Name : String
  RunTx : KVStore → CallContext → Bytes → Result × KVStore
  SetOption : KVStore → String → String → String × KVStore
  InitChain : KVStore → List Validator → KVStore
  BeginBlock : KVStore → Nat → KVStore
  EndBlock : KVStore → Nat → List Validator × KVStore

/-- The struct `Plugins`: the map by name and the registration-ordered list. -/
structure Plugins where
  byName : List (String × Plugin)
  plist : List Plugin

/-- The constructor `NewPlugins`. -/
def NewPlugins : Plugins := { byName := [], plist := [] }

/-- Lookup in the Go map `byName`. -/
def lookupName : List (String × Plugin) → String → Option Plugin
  | [], _ => none
  | (k, p) :: t, name => if k = name then some p else lookupName t name

/-- Assignment in the Go map `byName`. -/
def assignName : List (String × Plugin) → String → Plugin → List (String × Plugin)
  | [], name, p => [(name, p)]
  | (k, q) :: t, name, p =>
    if k = name then (name, p) :: t else (k, q) :: assignName t name p

/-- The method `Plugins.RegisterPlugin`: the registry as the call leaves it,
and the outcome of the call; a panic is the `panic` outcome. -/
def Plugins.RegisterPlugin (pgz : Plugins) (plugin : Plugin) : Plugins × Outcome Unit :=
  let name := plugin.Name
  if name = "" then (pgz, .panic "Plugin name cannot be blank")
  else if (lookupName pgz.byName name).isSome then
    (pgz, .panic ("Plugin already exists by the name of " ++ name))
  else
    ({ byName := assignName pgz.byName name plugin, plist := pgz.plist ++ [plugin] }, .ret ())

/-- The method `Plugins.GetByName`. -/
def Plugins.GetByName (pgz : Plugins) (name : String) : Option Plugin :=
  lookupName pgz.byName name

/-- The method `Plugins.GetList`. -/
def Plugins.GetList (pgz : Plugins) : List Plugin := pgz.plist

/-! ## Structural validation and sign-bytes (`types/tx.go`) -/

/-- The method `TxInput.ValidateBasic`. -/
def TxInput.ValidateBasic (txIn : TxInput) : Result :=
  if txIn.Address.length ≠ 20 then
    ErrBaseInvalidInput.AppendLog (.text "Invalid address length")
  else if !txIn.Coins.IsValid then
    ErrBaseInvalidInput.AppendLog (.fmt "Invalid coins %v" [.coins txIn.Coins])
  else if txIn.Coins.IsZero then
    ErrBaseInvalidInput.AppendLog (.text "Coins cannot be zero")
  else if txIn.Sequence.val ≤ 0 then
    ErrBaseInvalidInput.AppendLog (.text "Sequence must be greater than 0")
  else if txIn.Sequence.val = 1 ∧ txIn.PubKey = none then
    ErrBaseInvalidInput.AppendLog (.text "PubKey must be present when Sequence == 1")
  else if txIn.Sequence.val > 1 ∧ txIn.PubKey ≠ none then
    ErrBaseInvalidInput.AppendLog (.text "PubKey must be nil when Sequence > 1")
  else OK

/-- The constructor `NewTxInput`. -/
def NewTxInput (E : Ext) (pubKey : PubKey) (coins : Coins) (sequence : GoInt) : TxInput :=
  let input : TxInput :=
    { Address := pubKey.Address E, PubKey := some pubKey, Coins := coins,
      Sequence := sequence, Signature := none }
  if sequence.val > 1 then { input with PubKey := none } else input

/-- The method `TxOutput.ValidateBasic`. -/
def TxOutput.ValidateBasic (txOut : TxOutput) : Result :=
  if txOut.Address.length ≠ 20 then
    ErrBaseInvalidOutput.AppendLog (.text "Invalid address length")
  else if !txOut.Coins.IsValid then
    ErrBaseInvalidOutput.AppendLog (.fmt "Invalid coins %v" [.coins txOut.Coins])
  else if txOut.Coins.IsZero then
    ErrBaseInvalidOutput.AppendLog (.text "Coins cannot be zero")
  else OK

/-- The method `SendTx.SignBytes`: the signatures are saved and cleared in
place, the transaction is encoded after the chain id, and the signatures are
put back. Returns the sign-bytes and the transaction as the call leaves it. -/
def SendTx.SignBytes (E : Ext) (tx : SendTx) (chainID : String) : Bytes × SendTx :=
  let signBytes := E.wireString chainID
  let sigz := tx.Inputs.map fun input => input.Signature
  let tx : SendTx := { tx with Inputs := tx.Inputs.map fun input => { input with Signature := none } }
  let signBytes := signBytes ++ E.wireSendTx tx
  let tx : SendTx :=
    { tx with Inputs := List.zipWith (fun input sig => { input with Signature := sig }) tx.Inputs sigz }
  (signBytes, tx)

/-- The method `AppTx.SignBytes`. Returns the sign-bytes and the transaction
as the call leaves it. -/
def AppTx.SignBytes (E : Ext) (tx : AppTx) (chainID : String) : Bytes × AppTx :=
  let signBytes := E.wireString chainID
  let sig := tx.Input.Signature
  let tx : AppTx := { tx with Input := { tx.Input with Signature := none } }
  let signBytes := signBytes ++ E.wireAppTx tx
  let tx : AppTx := { tx with Input := { tx.Input with Signature := sig } }
  (signBytes, tx)

/-! ## The executor (`state/execution.go`) -/

/-- The loop of `getInputs` over the remaining inputs. -/
def getInputsLoop (state : State) :
    List TxInput → ByteMap Account → Option (ByteMap Account) × Result
  | [], accounts => (some accounts, OK)
  | in_ :: rest, accounts =>
    if (accounts.get in_.Address).isSome then (none, ErrBaseDuplicateAddress)
    else
      match state.GetAccount in_.Address with
      | none => (none, ErrBaseUnknownAddress)
      | some acc =>
        let acc := if in_.PubKey ≠ none then { acc with PubKey := in_.PubKey } else acc
        getInputsLoop state rest (accounts.set in_.Address acc)

/-- The function `getInputs`; a nil map is `none`. -/
def getInputs (state : State) (ins : List TxInput) : Option (ByteMap Account) × Result :=
  getInputsLoop state ins ByteMap.empty

/-- The loop of `getOrMakeOutputs` over the remaining outputs. -/
def getOrMakeOutputsLoop (state : State) :
    List TxOutput → ByteMap Account → Option (ByteMap Account) × Result
  | [], accounts => (some accounts, OK)
  | out :: rest, accounts =>
    if (accounts.get out.Address).isSome then (none, ErrBaseDuplicateAddress)
    else
      let acc :=
        match state.GetAccount out.Address with
        | none => { PubKey := none, Sequence := GoInt.zero, Balance := [] }
        | some acc => acc
      getOrMakeOutputsLoop state rest (accounts.set out.Address acc)

/-- The function `getOrMakeOutputs`; a nil map is `none`. -/
def getOrMakeOutputs (state : State) (accounts : Option (ByteMap Account))
    (outs : List TxOutput) : Option (ByteMap Account) × Result :=
  let accounts := match accounts with
    | none => ByteMap.empty
    | some accounts => accounts
  getOrMakeOutputsLoop state outs accounts

/-- The function `validateInputsBasic`. -/
def validateInputsBasic : List TxInput → Result
  | [] => OK
  | in_ :: rest =>
    if in_.ValidateBasic.IsErr then in_.ValidateBasic else validateInputsBasic rest

/-- The function `validateOutputsBasic`. -/
def validateOutputsBasic : List TxOutput → Result
  | [] => OK
  | out :: rest =>
    if out.ValidateBasic.IsErr then out.ValidateBasic else validateOutputsBasic rest

/-- The function `validateInputAdvanced`. Calling `VerifyBytes` on a nil
`PubKey` interface panics. -/
def validateInputAdvanced (E : Ext) (acc : Account) (signBytes : Bytes) (in_ : TxInput) :
    Outcome Result :=
  let seq := acc.Sequence
  let balance := acc.Balance
  if GoInt.add seq GoInt.one ≠ in_.Sequence then
    .ret (ErrBaseInvalidSequence.AppendLog
      (.fmt "Got %v, expected %v. (acc.seq=%v)"
        [.int in_.Sequence.val, .int (GoInt.add seq GoInt.one).val, .int acc.Sequence.val]))
  else if !balance.IsGTE in_.Coins then .ret ErrBaseInsufficientFunds
  else
    match acc.PubKey with
    | none => .panic "nil pointer dereference"
    | some pubKey =>
      if !pubKey.VerifyBytes E signBytes in_.Signature then
        .ret (ErrBaseInvalidSignature.AppendLog (.fmt "SignBytes: %X" [.bytes signBytes]))
      else .ret OK

/-- The loop of `validateInputsAdvanced` over the remaining inputs, from the
running total. -/
def validateInputsAdvancedLoop (E : Ext) (accounts : Option (ByteMap Account))
    (signBytes : Bytes) : List TxInput → Coins → Outcome (Coins × Result)
  | [], total => .ret (total, OK)
  | in_ :: rest, total =>
    match accounts.bind fun m => m.get in_.Address with
    | none => .panic "validateInputsAdvanced() expects account in accounts"
    | some acc =>
      match validateInputAdvanced E acc signBytes in_ with
      | .panic e => .panic e
      | .ret res =>
        if res.IsErr then .ret (total, res)
        else validateInputsAdvancedLoop E accounts signBytes rest (total.Plus in_.Coins)

/-- The function `validateInputsAdvanced`. -/
def validateInputsAdvanced (E : Ext) (accounts : Option (ByteMap Account))
    (signBytes : Bytes) (ins : List TxInput) : Outcome (Coins × Result) :=
  validateInputsAdvancedLoop E accounts signBytes ins []

/-- The function `sumOutputs`, from the running total. -/
def sumOutputsLoop : List TxOutput → Coins → Coins
  | [], total => total
  | out :: rest, total => sumOutputsLoop rest (total.Plus out.Coins)

/-- The function `sumOutputs`. -/
def sumOutputs (outs : List TxOutput) : Coins := sumOutputsLoop outs []

/-- The function `adjustByInputs`: returns the state and the map of accounts
as the call leaves them. -/
def adjustByInputs (state : State) (accounts : Option (ByteMap Account)) :
    List TxInput → Outcome (State × Option (ByteMap Account))
  | [] => .ret (state, accounts)
  | in_ :: rest =>
    match accounts.bind fun m => m.get in_.Address with
    | none => .panic "adjustByInputs() expects account in accounts"
    | some acc =>
      if !acc.Balance.IsGTE in_.Coins then .panic "adjustByInputs() expects sufficient funds"
      else
        let acc := { acc with Balance := acc.Balance.Minus in_.Coins }
        let acc := { acc with Sequence := GoInt.add acc.Sequence GoInt.one }
        adjustByInputs (state.SetAccount in_.Address acc)
          (accounts.map fun m => m.set in_.Address acc) rest

/-- The function `adjustByOutputs`: returns the state and the map of accounts
as the call leaves them. -/
def adjustByOutputs (state : State) (accounts : Option (ByteMap Account))
    (isCheckTx : Bool) : List TxOutput → Outcome (State × Option (ByteMap Account))
  | [] => .ret (state, accounts)
  | out :: rest =>
    match accounts.bind fun m => m.get out.Address with
    | none => .panic "adjustByOutputs() expects account in accounts"
    | some acc =>
      let acc := { acc with Balance := acc.Balance.Plus out.Coins }
      adjustByOutputs (if !isCheckTx then state.SetAccount out.Address acc else state)
        (accounts.map fun m => m.set out.Address acc) isCheckTx rest

/-- The `*types.SendTx` case of `ExecTx`: the result and the state as the
call leaves it. -/
def execSendTx (E : Ext) (state : State) (tx : SendTx) (isCheckTx : Bool) :
    Outcome (Result × State) :=
  let chainID := state.GetChainID
  let res := validateInputsBasic tx.Inputs
  if res.IsErr then .ret (res.PrependLog (.text "in validateInputsBasic()"), state)
  else
    let res := validateOutputsBasic tx.Outputs
    if res.IsErr then .ret (res.PrependLog (.text "in validateOutputsBasic()"), state)
    else
      let (accounts, res) := getInputs state tx.Inputs
      if res.IsErr then .ret (res.PrependLog (.text "in getInputs()"), state)
      else
        let (accounts, res) := getOrMakeOutputs state accounts tx.Outputs
        if res.IsErr then .ret (res.PrependLog (.text "in getOrMakeOutputs()"), state)
        else
          let (signBytes, tx) := tx.SignBytes E chainID
          match validateInputsAdvanced E accounts signBytes tx.Inputs with
          | .panic e => .panic e
          | .ret (inTotal, res) =>
            if res.IsErr then .ret (res.PrependLog (.text "in validateInputsAdvanced()"), state)
            else
              let outTotal := sumOutputs tx.Outputs
              if !inTotal.IsEqual (outTotal.Plus [tx.Fee]) then
                .ret (ErrBaseInvalidOutput.AppendLog
                  (.text "Input total != output total + fees"), state)
              else
                match adjustByInputs state accounts tx.Inputs with
                | .panic e => .panic e
                | .ret (state, accounts) =>
                  match adjustByOutputs state accounts isCheckTx tx.Outputs with
                  | .panic e => .panic e
                  | .ret (state, _) => .ret (OK, state)

/-- The `*types.AppTx` case of `ExecTx`: the result and the state as the call
leaves it. -/
def execAppTx (E : Ext) (state : State) (pgz : Plugins) (tx : AppTx) (isCheckTx : Bool) :
    Outcome (Result × State) :=
  let chainID := state.GetChainID
  let res := tx.Input.ValidateBasic
  if res.IsErr then .ret (res, state)
  else
    match state.GetAccount tx.Input.Address with
    | none => .ret (ErrBaseUnknownAddress, state)
    | some inAcc =>
      let inAcc := if tx.Input.PubKey ≠ none then { inAcc with PubKey := tx.Input.PubKey } else inAcc
      let (signBytes, tx) := tx.SignBytes E chainID
      match validateInputAdvanced E inAcc signBytes tx.Input with
      | .panic e => .panic e
      | .ret res =>
        if res.IsErr then .ret (res.PrependLog (.text "in validateInputAdvanced()"), state)
        else if !tx.Input.Coins.IsGTE [tx.Fee] then .ret (ErrBaseInsufficientFunds, state)
        else
          match pgz.GetByName tx.Name with
          | none =>
            .ret (ErrBaseUnknownAddress.AppendLog
              (.fmt "Unrecognized plugin name%v" [.str tx.Name]), state)
          | some plugin =>
            let coins := tx.Input.Coins.Minus [tx.Fee]
            let inAcc := { inAcc with Sequence := GoInt.add inAcc.Sequence GoInt.one }
            let inAcc := { inAcc with Balance := inAcc.Balance.Minus tx.Input.Coins }
            if isCheckTx then .ret (OK, state.SetAccount tx.Input.Address inAcc)
            else
              let inAccCopy := inAcc.Copy
              let cache := state.CacheWrap
              let cache := cache.SetAccount tx.Input.Address inAcc
              let ctx := NewCallContext tx.Input.Address inAcc coins
              let (res, store) := plugin.RunTx cache.store ctx tx.Data
              let cache : State := { cache with store := store }
              if res.IsOK then .ret (res, state.CacheSync cache)
              else
                let inAccCopy := { inAccCopy with Balance := inAccCopy.Balance.Plus coins }
                .ret (res, state.SetAccount tx.Input.Address inAccCopy)

/-- The function `ExecTx`: the result and the state as the call leaves it;
a panic is the `panic` outcome. -/
def ExecTx (E : Ext) (state : State) (pgz : Plugins) (tx : Tx) (isCheckTx : Bool) :
    Outcome (Result × State) :=
  match tx with
  | .send tx => execSendTx E state tx isCheckTx
  | .app tx => execAppTx E state pgz tx isCheckTx
  | .nil => .ret (ErrBaseEncodingError.SetLog (.text "Unknown tx type"), state)

/-! ## Notions used in the statements -/

/-- The account `getInputs` holds for an input, from the record loaded from
the state: the pub_key of the input replaces that of the record when the
input carries one. -/
def installPubKey (in_ : TxInput) (acc : Account) : Account :=
  if in_.PubKey ≠ none then { acc with PubKey := in_.PubKey } else acc

/-- The inputs `getInputs` accepts: pairwise distinct addresses, each with an
account in the state. -/
def goodInputs (state : State) (ins : List TxInput) : Prop :=
  (ins.map fun i => i.Address).Nodup ∧
    ∀ i ∈ ins, (state.GetAccount i.Address).isSome = true

/-- The account `getOrMakeOutputs` makes for an address without one. -/
def freshAccount : Account := { PubKey := none, Sequence := GoInt.zero, Balance := [] }

/-- The record `adjustByInputs` stores for an input, from the record held in
the map of accounts. -/
def inputAdjusted (in_ : TxInput) (acc : Account) : Account :=
  { PubKey := acc.PubKey, Sequence := GoInt.add acc.Sequence GoInt.one,
    Balance := acc.Balance.Minus in_.Coins }

/-- The record `adjustByOutputs` holds for an output, from the record held in
the map of accounts. -/
def outputAdjusted (out : TxOutput) (acc : Account) : Account :=
  { PubKey := acc.PubKey, Sequence := acc.Sequence, Balance := acc.Balance.Plus out.Coins }

/-- The Coins sum of the balances of all accounts of the state, folded with
`Plus` over the account records. -/
def State.sumBalances (s : State) : Coins :=
  s.store.accounts.entries.foldl (fun t e => Coins.Plus t e.2.Balance) []

/-- Every balance stored in the state is a valid coin sequence, as the data
model requires of `Coins`. -/
def State.balancesValid (s : State) : Prop :=
  ∀ e ∈ s.store.accounts.entries, e.2.Balance.IsValid = true

/-- The amount of a denom held by all account records together. -/
def entriesAmount (l : List (Bytes × Account)) (d : String) : Int :=
  (l.map fun e => Coins.amountOf e.2.Balance d).sum

/-- The total of every denom that an account holds, over all account records
together, lies within the signed 64-bit range: the sum of the balances does
not overflow ("the system assumes balances fit comfortably in i64"). -/
def State.totalsFit (s : State) : Prop :=
  ∀ e ∈ s.store.accounts.entries, ∀ c ∈ e.2.Balance,
    entriesAmount s.store.accounts.entries c.Denom < 9223372036854775808

/-- A sequence of account writes applied to the state, in order. -/
def applyUpdates (state : State) (ups : List (Bytes × Account)) : State :=
  ups.foldl (fun s u => s.SetAccount u.1 u.2) state

/-- The account writes of an accepted send transaction in deliver mode: one
per input, then one per output. -/
def sendUpdates (state : State) (tx : SendTx) : List (Bytes × Account) :=
  (tx.Inputs.map fun i =>
    (i.Address, inputAdjusted i (installPubKey i ((state.GetAccount i.Address).getD freshAccount))))
  ++ tx.Outputs.map fun o =>
    (o.Address, outputAdjusted o ((state.GetAccount o.Address).getD freshAccount))

/-- Denoms in strictly ascending order. -/
def Coins.Sorted (coins : Coins) : Prop := coins.Pairwise fun a b => a.Denom < b.Denom

/-- No coin of amount zero. -/
def Coins.NonZero (coins : Coins) : Prop := ∀ c ∈ coins, c.Amount.val ≠ 0

/-- The facts established by the stages of an accepted send transaction. -/
structure SendAccepted (E : Ext) (state : State) (tx : SendTx) (isCheckTx : Bool)
    (state' : State) : Prop where
  inputsBasic : ∀ i ∈ tx.Inputs, i.ValidateBasic = OK
  outputsBasic : ∀ o ∈ tx.Outputs, o.ValidateBasic = OK
  inputsGood : goodInputs state tx.Inputs
  outputsNodup : (tx.Outputs.map fun o => o.Address).Nodup
  disjoint : ∀ o ∈ tx.Outputs, o.Address ∉ (tx.Inputs.map fun i => i.Address)
  advanced : ∀ i ∈ tx.Inputs, ∃ acc, state.GetAccount i.Address = some acc ∧
    GoInt.add acc.Sequence GoInt.one = i.Sequence ∧ acc.Balance.IsGTE i.Coins = true ∧
    ∃ pubKey, (installPubKey i acc).PubKey = some pubKey ∧
      pubKey.VerifyBytes E (tx.SignBytes E state.chainID).1 i.Signature = true
  totals : (tx.Inputs.foldl (fun t i => Coins.Plus t i.Coins) []).IsEqual
    ((tx.Outputs.foldl (fun t o => Coins.Plus t o.Coins) []).Plus [tx.Fee]) = true
  atInputs : ∀ i ∈ tx.Inputs, ∀ acc, state.GetAccount i.Address = some acc →
    state'.GetAccount i.Address = some (inputAdjusted i (installPubKey i acc))
  atOutputs : ∀ o ∈ tx.Outputs, state'.GetAccount o.Address =
    if isCheckTx = true then state.GetAccount o.Address
    else some (outputAdjusted o ((state.GetAccount o.Address).getD freshAccount))
  elsewhere : ∀ a, a ∉ (tx.Inputs.map fun i => i.Address) →
    a ∉ (tx.Outputs.map fun o => o.Address) → state'.GetAccount a = state.GetAccount a
  chainID : state'.chainID = state.chainID
  data : state'.store.data = state.store.data
  writes : isCheckTx = false → state' = applyUpdates state (sendUpdates state tx)

/-! ## Notions used in the statements on application transactions -/

/-- The record of the caller as an application transaction holds it when the
plugin is reached: the pub_key of the input installed, the sequence
increased by one, the balance less the whole of the input coins. -/
def appDebited (tx : AppTx) (acc : Account) : Account :=
  { PubKey := (installPubKey tx.Input acc).PubKey
    Sequence := GoInt.add acc.Sequence GoInt.one
    Balance := acc.Balance.Minus tx.Input.Coins }

/-- The coins an application transaction forwards to the plugin: the input
coins less the one-coin vector of the fee. -/
def appForwarded (tx : AppTx) : Coins := tx.Input.Coins.Minus [tx.Fee]

/-- The cache handed to the plugin: a cache of the state in which the debited
record of the caller is written under the input address. -/
def appCache (state : State) (tx : AppTx) (acc : Account) : State :=
  state.CacheWrap.SetAccount tx.Input.Address (appDebited tx acc)

/-- The call context handed to the plugin. -/
def appContext (tx : AppTx) (acc : Account) : CallContext :=
  NewCallContext tx.Input.Address (appDebited tx acc) (appForwarded tx)

/-- The record stored for the caller when the plugin fails: the debited
record with the forwarded coins added back. -/
def appRefunded (tx : AppTx) (acc : Account) : Account :=
  { PubKey := (appDebited tx acc).PubKey
    Sequence := (appDebited tx acc).Sequence
    Balance := (appDebited tx acc).Balance.Plus (appForwarded tx) }

/-- The conditions under which `ExecTx` gets to the plugin of an application
transaction: the input passes `ValidateBasic`, the account `acc` is stored
under the input address, the input passes `validateInputAdvanced` on it, the
input coins cover the fee, and `plugin` is registered under the name. -/
structure AppReaches (E : Ext) (state : State) (pgz : Plugins) (tx : AppTx) (acc : Account)
    (plugin : Plugin) : Prop where
  basic : tx.Input.ValidateBasic.IsErr = false
  account : state.GetAccount tx.Input.Address = some acc
  advanced : ∃ res, validateInputAdvanced E (installPubKey tx.Input acc)
    (tx.SignBytes E state.GetChainID).1 tx.Input = .ret res ∧ res.IsErr = false
  fee : tx.Input.Coins.IsGTE [tx.Fee] = true
  registered : pgz.GetByName tx.Name = some plugin

/-- The call returns a result of code OK. -/
def accepts (E : Ext) (state : State) (pgz : Plugins) (tx : Tx) (isCheckTx : Bool) : Prop :=
  ∃ res state', ExecTx E state pgz tx isCheckTx = .ret (res, state') ∧ res.IsOK = true

/-- A coin of the sequence has the denom. -/
def Coins.hasDenom (coins : Coins) (d : String) : Prop := ∃ c ∈ coins, c.Denom = d

/-! ## Notions used in the statements on panics -/

/-- Every stored account of sequence at least 1 has a pub_key. -/
def State.keysKnown (s : State) : Prop :=
  ∀ e ∈ s.store.accounts.entries, 1 ≤ e.2.Sequence.val → e.2.PubKey.isSome = true

/-! ## Transaction identifiers (`types/tx.go`) -/

/-- The method `SignBytes` of the interface `Tx`: the sign-bytes and the
transaction as the call leaves it; the call on the nil interface panics. -/
def Tx.SignBytes (E : Ext) (tx : Tx) (chainID : String) : Outcome (Bytes × Tx) :=
  match tx with
  | .send tx => .ret ((tx.SignBytes E chainID).1, .send (tx.SignBytes E chainID).2)
  | .app tx => .ret ((tx.SignBytes E chainID).1, .app (tx.SignBytes E chainID).2)
  | .nil => .panic "nil pointer dereference"

/-- The function `TxID`: the identifier and the transaction as the call
leaves it. `wire.BinaryRipemd160` hashes the binary encoding of the byte
slice it is given. -/
def TxID (E : Ext) (chainID : String) (tx : Tx) : Outcome (Bytes × Tx) :=
  match tx.SignBytes E chainID with
  | .panic e => .panic e
  | .ret (signBytes, tx) => .ret (E.ripemd160 (E.wireByteSlice signBytes), tx)

/-- An input with its signature set to nil. -/
def TxInput.clearSignature (txIn : TxInput) : TxInput := { txIn with Signature := none }

/-- A send transaction with the signature of every input set to nil. -/
def SendTx.clearSignatures (tx : SendTx) : SendTx :=
  { tx with Inputs := tx.Inputs.map TxInput.clearSignature }

/-- An application transaction with the signature of its input set to nil. -/
def AppTx.clearSignature (tx : AppTx) : AppTx :=
  { tx with Input := tx.Input.clearSignature }

/-! ## Sequences of registrations -/

/-- The calls `RegisterPlugin` for the plugins of a list, in order, up to the
first call that panics: the registry as the calls leave it and the outcome. -/
def Plugins.registerAll (pgz : Plugins) : List Plugin → Plugins × Outcome Unit
  | [] => (pgz, .ret ())
  | plugin :: rest =>
    match pgz.RegisterPlugin plugin with
    | (pgz, .ret _) => Plugins.registerAll pgz rest
    | (pgz, .panic e) => (pgz, .panic e)

/-- The plugin of a list that has a name, the first one if there are several,
nil (`none`) if there is none. -/
def pluginNamed (plugins : List Plugin) (name : String) : Option Plugin :=
  plugins.find? fun p => decide (p.Name = name)

/-- What holds of a registry in which the plugins of a list are registered,
in this order. -/
structure Registered (pgz : Plugins) (plugins : List Plugin) : Prop where
  list : pgz.GetList = plugins
  named : ∀ p ∈ plugins, p.Name ≠ ""
  distinct : (plugins.map fun p => p.Name).Nodup
  lookup : ∀ n, pgz.GetByName n = pluginNamed plugins n

/-! ## The application (`app/app.go`) -/

set_option linter.dupNamespace false

/-- The constant `maxTxSize`. -/
def maxTxSize : Nat := 10240

/-- The constant `PluginNameBase`. -/
def PluginNameBase : String := "base"

/-- The decoders of the go-wire library the application calls:
`wire.ReadBinaryBytes` into a `Tx` and `wire.ReadJSONPtr` into an `*Account`
(the nil pointer is `none`); each gives the decoded value or the text of its
error. -/
structure Wire where
  ReadBinaryTx : Bytes → Except String Tx
  ReadJSONAccount : String → Except String (Option Account)

/-- Modelled from the spec: `State.SetChainID` of state/state.go: "`chainID`
sets the chain id", the in-memory chain id of the state. -/
def State.SetChainID (s : State) (chainID : String) : State := { s with chainID := chainID }

/-- The struct `Basecoin`. The client `eyesCli` of the key-value backend is
represented by the store of `state`; `cacheState` is nil (`none`) until
`Commit` sets it. -/
structure Basecoin where
  state : State
  cacheState : Option State
  plugins : Plugins

/-- The function `splitKey`: "Splits the string at the first '/'. if there
are none, the second string is nil." `strings.SplitN(key, "/", 2)` gives the
part before the first '/' and the part after it. -/
def splitKey (key : String) : String × String :=
  if '/' ∈ key.toList then
    (String.mk (key.toList.takeWhile fun c => c ≠ '/'),
      String.mk ((key.toList.dropWhile fun c => c ≠ '/').drop 1))
  else (key, "")

/-- The method `Basecoin.SetOption`: the log and the application as the call
leaves it. A plugin is handed the state as its store. In the case "account",
`acc.PubKey.Address()` on a nil account or a nil `PubKey` panics. -/
def Basecoin.SetOption (E : Ext) (W : Wire) (app : Basecoin) (key value : String) :
    Outcome (String × Basecoin) :=
  let (PluginName, key) := splitKey key
  if PluginName ≠ PluginNameBase then
    match app.plugins.GetByName PluginName with
    | none => .ret ("Invalid plugin name: " ++ PluginName, app)
    | some plugin =>
      let (log, store) := plugin.SetOption app.state.store key value
      .ret (log, { app with state := { app.state with store := store } })
  else
    if key = "chainID" then
      .ret ("Success", { app with state := app.state.SetChainID value })
    else if key = "account" then
      match W.ReadJSONAccount value with
      | .error err => .ret ("Error decoding acc message: " ++ err, app)
      | .ok none => .panic "nil pointer dereference"
      | .ok (some acc) =>
        match acc.PubKey with
        | none => .panic "nil pointer dereference"
        | some pubKey =>
          .ret ("Success", { app with state := app.state.SetAccount (pubKey.Address E) acc })
    else .ret ("Unrecognized option key " ++ key, app)

/-- Modelled from the spec: the call `storeAccounts(app.eyesCli, accs)` of
`DeliverTx`, whose function and argument are defined nowhere in the sources:
"`deliver_tx(bytes)` — size check (≤ 10240), decode, `exec_tx` against the
live state with `isCheckTx=false`. Success → OK": the state is as `ExecTx`
left it. -/
def storeAccounts (state : State) : State := state

/-- The method `Basecoin.DeliverTx`: the result and the application as the
call leaves it; a panic of `ExecTx` is a panic of the call. -/
def Basecoin.DeliverTx (E : Ext) (W : Wire) (app : Basecoin) (txBytes : Bytes) :
    Outcome (Result × Basecoin) :=
  if txBytes.length > maxTxSize then
    .ret ({ Code := .BaseEncodingError, Data := [],
            Log := [.text "Tx size exceeds maximum"] }, app)
  else
    match W.ReadBinaryTx txBytes with
    | .error err =>
      .ret ({ Code := .BaseEncodingError, Data := [],
              Log := [.text ("Error decoding tx: " ++ err)] }, app)
    | .ok tx =>
      match ExecTx E app.state app.plugins tx false with
      | .panic e => .panic e
      | .ret (res, state) =>
        if res.IsErr then
          .ret (res.PrependLog (.text "Error in DeliverTx"), { app with state := state })
        else
          .ret ({ Code := .OK, Data := [], Log := [.text "Success"] },
            { app with state := storeAccounts state })

/-- The method `Basecoin.CheckTx`: the result and the application as the call
leaves it. The bytes printed to the standard output are left out. `ExecTx` is
run on `cacheState`; on the nil `cacheState` its first statement,
`state.GetChainID()`, dereferences the nil state. -/
def Basecoin.CheckTx (E : Ext) (W : Wire) (app : Basecoin) (txBytes : Bytes) :
    Outcome (Result × Basecoin) :=
  if txBytes.length > maxTxSize then
    .ret ({ Code := .BaseEncodingError, Data := [],
            Log := [.text "Tx size exceeds maximum"] }, app)
  else
    match W.ReadBinaryTx txBytes with
    | .error err =>
      .ret ({ Code := .BaseEncodingError, Data := [],
              Log := [.text ("Error decoding tx: " ++ err)] }, app)
    | .ok tx =>
      match app.cacheState with
      | none => .panic "nil pointer dereference"
      | some cacheState =>
        match ExecTx E cacheState app.plugins tx true with
        | .panic e => .panic e
        | .ret (res, cacheState) =>
          if res.IsErr then
            .ret (res.PrependLog (.text "Error in CheckTx"),
              { app with cacheState := some cacheState })
          else
            .ret ({ Code := .OK, Data := [], Log := [.text "Success"] },
              { app with cacheState := some cacheState })

/-! ## Reference instances for evaluation -/

/-- Stand-in primitives for evaluating the executor on concrete inputs: the
address of a key is its first twenty bytes (after hashing conventions that
are the identity), and a signature verifies when it is the key followed by
the message. -/
def refExt : Ext :=
  { ripemd160 := fun b => b.take 20
    sha256 := fun b => b
    ed25519Verify := fun key msg sig => decide (sig = key ++ msg)
    secpParsePubKey := fun b => some b
    secpParseDERSignature := fun b => some b
    secpVerify := fun sig hash pub => decide (sig = pub ++ hash)
    TypeEd25519 := 1
    wireByteSlice := fun b => b
    wireString := fun s => s.toList.map Char.toNat
    wireSendTx := fun tx => [tx.Inputs.length, tx.Outputs.length]
    wireAppTx := fun tx => tx.Data }

/-- An address for evaluation. -/
def exAddrA : Bytes := List.replicate 20 1

/-- A second address for evaluation. -/
def exAddrB : Bytes := List.replicate 20 2

/-- A key for evaluation; under `refExt` its address is not `exAddrA`. -/
def exKey : PubKey := .Ed25519 (List.replicate 32 7)

/-- The signature of `exKey` under `refExt` over the sign-bytes of a send
transaction with one input and one output, for the empty chain id. -/
def exSig : Signature := .Ed25519 (List.replicate 32 7 ++ [1, 1])

/-- A state with one account: no pub_key, sequence 0, 1000 of the denom ""
and 1000 of the denom "gold", stored under `exAddrA`. -/
def exState : State :=
  { chainID := ""
    store :=
      { accounts := ByteMap.empty.set exAddrA
          { PubKey := none, Sequence := GoInt.zero,
            Balance := [⟨"", 1000⟩, ⟨"gold", 1000⟩] }
        data := ByteMap.empty } }

/-- A send transaction of 10 of the denom "" from `exAddrA` to `exAddrB` with
fee 1, signed by `exKey`, with the given input sequence and input pub_key. -/
def exSendTx (sequence : GoInt) (pubKey : Option PubKey) : SendTx :=
  { Gas := 0
    Fee := ⟨"", 1⟩
    Inputs := [{ Address := exAddrA, Coins := [⟨"", 11⟩], Sequence := sequence,
                 Signature := some exSig, PubKey := pubKey }]
    Outputs := [{ Address := exAddrB, Coins := [⟨"", 10⟩] }] }

/-- A send transaction with one input and one output. -/
def transferTx (gas : Int) (fee : Coin) (sender recipient : Bytes) (coinsIn coinsOut : Coins)
    (sequence : GoInt) (sig : Option Signature) (pubKey : Option PubKey) : SendTx :=
  { Gas := gas
    Fee := fee
    Inputs := [{ Address := sender, Coins := coinsIn, Sequence := sequence,
                 Signature := sig, PubKey := pubKey }]
    Outputs := [{ Address := recipient, Coins := coinsOut }] }

/-- The state `exState` after the transfer `exSendTx` is delivered: the
sender keeps 989 of the denom "" at sequence 1, with the key of the input;
the recipient is new and holds 10. -/
def exStateAfter : State :=
  { chainID := ""
    store :=
      { accounts := (ByteMap.empty.set exAddrA
          { PubKey := some exKey, Sequence := GoInt.one,
            Balance := [⟨"", 989⟩, ⟨"gold", 1000⟩] }).set exAddrB
          { PubKey := none, Sequence := GoInt.zero, Balance := [⟨"", 10⟩] }
        data := ByteMap.empty } }

/-- A plugin for evaluation, named "ok": it accepts every transaction and
records the transaction data under the key `[0]` of its store. -/
def exPluginOK : Plugin :=
  { Name := "ok"
    RunTx := fun store _ data => (OK, { store with data := store.data.set [0] data })
    SetOption := fun store _ _ => ("", store)
    InitChain := fun store _ => store
    BeginBlock := fun store _ => store
    EndBlock := fun store _ => ([], store) }

/-- A plugin for evaluation, named "fail": it records the transaction data
under the key `[0]` of its store and then rejects the transaction. -/
def exPluginFail : Plugin :=
  { Name := "fail"
    RunTx := fun store _ data =>
      (ErrBaseInvalidInput, { store with data := store.data.set [0] data })
    SetOption := fun store _ _ => ("", store)
    InitChain := fun store _ => store
    BeginBlock := fun store _ => store
    EndBlock := fun store _ => ([], store) }

/-- The registry with `exPluginOK` and `exPluginFail` registered, in this
order. -/
def exPlugins : Plugins :=
  ((NewPlugins.RegisterPlugin exPluginOK).1.RegisterPlugin exPluginFail).1

/-- An application transaction from `exAddrA` for the named plugin, carrying
the given coins with the given fee and the data `[1, 1]`, at sequence 1 with
the key `exKey` and its signature under `refExt` for the empty chain id. -/
def exAppTx (name : String) (coins : Coins) (fee : Coin) : AppTx :=
  { Gas := 0
    Fee := fee
    Name := name
    Input := { Address := exAddrA, Coins := coins, Sequence := GoInt.one,
               Signature := some exSig, PubKey := some exKey }
    Data := [1, 1] }

/-- The account of `exAddrA` in `exState`. -/
def exAccount : Account :=
  { PubKey := none, Sequence := GoInt.zero, Balance := [⟨"", 1000⟩, ⟨"gold", 1000⟩] }

/-- Stand-in decoders for evaluating the application on concrete inputs: the
byte string `[1]` decodes to the transfer `exSendTx`, `[2]` to the
transaction `exAppTx` for the plugin "fail", and nothing else decodes. -/
def refWire : Wire :=
  { ReadBinaryTx := fun b =>
      if b = [1] then .ok (.send (exSendTx GoInt.one (some exKey)))
      else if b = [2] then .ok (.app (exAppTx "fail" [⟨"", 11⟩] ⟨"", 1⟩))
      else .error "unknown type byte"
    ReadJSONAccount := fun _ => .error "invalid character" }

/-- An application for evaluation: the state `exState`, a shadow state with
the same content, and the registry `exPlugins`. -/
def exApp : Basecoin := { state := exState, cacheState := some exState, plugins := exPlugins }

/-- A third address for evaluation. -/
def exAddrC : Bytes := List.replicate 20 3

/-- A state with a balance that is not a valid coin sequence: `exAddrA`
holds 5 of the denom "a" and `exAddrB` holds -5 of it. -/
def exStateNegative : State :=
  { chainID := ""
    store :=
      { accounts := (ByteMap.empty.set exAddrA
          { PubKey := none, Sequence := GoInt.zero, Balance := [⟨"a", 5⟩] }).set exAddrB
          { PubKey := none, Sequence := GoInt.zero, Balance := [⟨"a", GoInt.neg 5⟩] }
        data := ByteMap.empty } }

/-- The state `exStateNegative` after `exAddrA` has sent its 5 of the denom
"a" to `exAddrC`. -/
def exStateNegativeAfter : State :=
  { chainID := ""
    store :=
      { accounts := ((ByteMap.empty.set exAddrA
          { PubKey := some exKey, Sequence := GoInt.one, Balance := [] }).set exAddrB
          { PubKey := none, Sequence := GoInt.zero, Balance := [⟨"a", GoInt.neg 5⟩] }).set
          exAddrC { PubKey := none, Sequence := GoInt.zero, Balance := [⟨"a", 5⟩] }
        data := ByteMap.empty } }

/-- A state of valid balances whose total does not fit in 64 bits: four
accounts hold 2^62 of the denom "a" each. -/
def exStateFull : State :=
  { chainID := ""
    store :=
      { accounts := (((ByteMap.empty.set exAddrA
          { PubKey := none, Sequence := GoInt.zero,
            Balance := [⟨"a", 4611686018427387904⟩] }).set exAddrB
          { PubKey := none, Sequence := GoInt.zero,
            Balance := [⟨"a", 4611686018427387904⟩] }).set exAddrC
          { PubKey := none, Sequence := GoInt.zero,
            Balance := [⟨"a", 4611686018427387904⟩] }).set (List.replicate 20 4)
          { PubKey := none, Sequence := GoInt.zero,
            Balance := [⟨"a", 4611686018427387904⟩] }
        data := ByteMap.empty } }

/-- The state `exStateFull` after `exAddrA` has sent 1 of the denom "a" to
a new address. -/
def exStateFullAfter : State :=
  { chainID := ""
    store :=
      { accounts := ((((ByteMap.empty.set exAddrA
          { PubKey := some exKey, Sequence := GoInt.one,
            Balance := [⟨"a", 4611686018427387903⟩] }).set exAddrB
          { PubKey := none, Sequence := GoInt.zero,
            Balance := [⟨"a", 4611686018427387904⟩] }).set exAddrC
          { PubKey := none, Sequence := GoInt.zero,
            Balance := [⟨"a", 4611686018427387904⟩] }).set (List.replicate 20 4)
          { PubKey := none, Sequence := GoInt.zero,
            Balance := [⟨"a", 4611686018427387904⟩] }).set (List.replicate 20 5)
          { PubKey := none, Sequence := GoInt.zero, Balance := [⟨"a", 1⟩] }
        data := ByteMap.empty } }

/-- A state whose one account, stored under `exAddrA`, holds a balance that
is not in ascending order of denom: 5 of "b", then 5 of "a". -/
def exStateUnsorted : State :=
  { chainID := ""
    store :=
      { accounts := ByteMap.empty.set exAddrA
          { PubKey := none, Sequence := GoInt.zero, Balance := [⟨"b", 5⟩, ⟨"a", 5⟩] }
        data := ByteMap.empty } }

/-! # Theorems -/

/-! ## Results -/

theorem Result.AppendLog_Code (r : Result) (l : LogPart) : (r.AppendLog l).Code = r.Code := rfl

theorem Result.PrependLog_Code (r : Result) (l : LogPart) : (r.PrependLog l).Code = r.Code := rfl

theorem Result.AppendLog_ne_OK (r : Result) (l : LogPart) : r.AppendLog l ≠ OK := by
  intro h
  have := congrArg Result.Log h
  simp [Result.AppendLog, OK] at this

theorem Result.IsErr_OK : OK.IsErr = false := rfl

theorem Result.IsErr_Err (c : CodeType) (h : c ≠ .OK) : (Err c).IsErr = true := by
  simp [Result.IsErr, Err, h]

theorem Result.IsErr_AppendLog (r : Result) (l : LogPart) : (r.AppendLog l).IsErr = r.IsErr := rfl

theorem Result.IsErr_PrependLog (r : Result) (l : LogPart) :
    (r.PrependLog l).IsErr = r.IsErr := rfl

theorem Result.IsErr_iff (r : Result) : r.IsErr = true ↔ r.Code ≠ .OK := by
  simp [Result.IsErr]

theorem Result.IsErr_false_iff (r : Result) : r.IsErr = false ↔ r.Code = .OK := by
  simp [Result.IsErr]

/-! ## Structural validation -/

theorem TxInput.ValidateBasic_input_OK_iff (txIn : TxInput) :
    txIn.ValidateBasic = OK ↔
      txIn.Address.length = 20 ∧ txIn.Coins.IsValid = true ∧ txIn.Coins.IsZero = false ∧
        1 ≤ txIn.Sequence.val ∧ (txIn.PubKey.isSome = true ↔ txIn.Sequence.val = 1) := by
  unfold TxInput.ValidateBasic
  split_ifs with h1 h2 h3 h4 h5 h6 <;>
    simp only [Result.AppendLog_ne_OK, false_iff, true_iff, not_and] <;>
    simp_all <;> first | omega | skip
  all_goals (cases hp : txIn.PubKey <;> simp_all <;> omega)

theorem TxInput.ValidateBasic_input_code (txIn : TxInput) :
    txIn.ValidateBasic = OK ∨ txIn.ValidateBasic.Code = .BaseInvalidInput := by
  unfold TxInput.ValidateBasic
  split_ifs <;> simp [Result.AppendLog_Code, ErrBaseInvalidInput, Err]

theorem TxInput.ValidateBasic_input_not_err (txIn : TxInput) (h : txIn.ValidateBasic.IsErr = false) :
    txIn.ValidateBasic = OK := by
  rcases TxInput.ValidateBasic_input_code txIn with h1 | h1
  · exact h1
  · rw [Result.IsErr_false_iff, h1] at h
    cases h

theorem TxOutput.ValidateBasic_output_OK_iff (txOut : TxOutput) :
    txOut.ValidateBasic = OK ↔
      txOut.Address.length = 20 ∧ txOut.Coins.IsValid = true ∧ txOut.Coins.IsZero = false := by
  unfold TxOutput.ValidateBasic
  split_ifs with h1 h2 h3 <;>
    simp only [Result.AppendLog_ne_OK, false_iff, true_iff, not_and] <;>
    simp_all

theorem TxOutput.ValidateBasic_output_code (txOut : TxOutput) :
    txOut.ValidateBasic = OK ∨ txOut.ValidateBasic.Code = .BaseInvalidOutput := by
  unfold TxOutput.ValidateBasic
  split_ifs <;> simp [Result.AppendLog_Code, ErrBaseInvalidOutput, Err]

theorem TxOutput.ValidateBasic_output_not_err (txOut : TxOutput)
    (h : txOut.ValidateBasic.IsErr = false) : txOut.ValidateBasic = OK := by
  rcases TxOutput.ValidateBasic_output_code txOut with h1 | h1
  · exact h1
  · rw [Result.IsErr_false_iff, h1] at h
    cases h

/-- C7. `TxInput.ValidateBasic` returns `OK` exactly when the address has
length 20, the coins are valid and not zero, the sequence is at least 1 and
the pub_key is present exactly when the sequence is 1; every other result has
code `BaseInvalidInput`. -/
theorem TxInput_ValidateBasic_spec (txIn : TxInput) :
    (txIn.ValidateBasic = OK ↔
      txIn.Address.length = 20 ∧ txIn.Coins.IsValid = true ∧ txIn.Coins.IsZero = false ∧
        1 ≤ txIn.Sequence.val ∧ (txIn.PubKey.isSome = true ↔ txIn.Sequence.val = 1)) ∧
    (txIn.ValidateBasic = OK ∨ txIn.ValidateBasic.Code = .BaseInvalidInput) :=
  ⟨TxInput.ValidateBasic_input_OK_iff txIn, TxInput.ValidateBasic_input_code txIn⟩

/-- C8. `TxOutput.ValidateBasic` returns `OK` exactly when the address has
length 20 and the coins are valid and not zero; every other result has code
`BaseInvalidOutput`. -/
theorem TxOutput_ValidateBasic_spec (txOut : TxOutput) :
    (txOut.ValidateBasic = OK ↔
      txOut.Address.length = 20 ∧ txOut.Coins.IsValid = true ∧ txOut.Coins.IsZero = false) ∧
    (txOut.ValidateBasic = OK ∨ txOut.ValidateBasic.Code = .BaseInvalidOutput) :=
  ⟨TxOutput.ValidateBasic_output_OK_iff txOut, TxOutput.ValidateBasic_output_code txOut⟩

/-! ## Advanced validation of one input -/

theorem validateInputAdvanced_eq (E : Ext) (acc : Account) (signBytes : Bytes)
    (in_ : TxInput) (pubKey : PubKey) (hkey : acc.PubKey = some pubKey) :
    validateInputAdvanced E acc signBytes in_ = .ret
      (if GoInt.add acc.Sequence GoInt.one ≠ in_.Sequence then
        ErrBaseInvalidSequence.AppendLog
          (.fmt "Got %v, expected %v. (acc.seq=%v)"
            [.int in_.Sequence.val, .int (GoInt.add acc.Sequence GoInt.one).val,
              .int acc.Sequence.val])
      else if !acc.Balance.IsGTE in_.Coins then ErrBaseInsufficientFunds
      else if !pubKey.VerifyBytes E signBytes in_.Signature then
        ErrBaseInvalidSignature.AppendLog (.fmt "SignBytes: %X" [.bytes signBytes])
      else OK) := by
  unfold validateInputAdvanced
  simp only [hkey]
  split_ifs <;> rfl

theorem validateInputAdvanced_not_err (E : Ext) (acc : Account) (signBytes : Bytes)
    (in_ : TxInput) (res : Result) (h : validateInputAdvanced E acc signBytes in_ = .ret res)
    (hr : res.IsErr = false) :
    GoInt.add acc.Sequence GoInt.one = in_.Sequence ∧ acc.Balance.IsGTE in_.Coins = true ∧
      ∃ pubKey, acc.PubKey = some pubKey ∧
        pubKey.VerifyBytes E signBytes in_.Signature = true := by
  unfold validateInputAdvanced at h
  by_cases h1 : GoInt.add acc.Sequence GoInt.one = in_.Sequence
  · simp only [ne_eq, h1, not_true_eq_false, if_false] at h
    cases h2 : acc.Balance.IsGTE in_.Coins
    · simp only [h2, Bool.not_false, if_true] at h
      cases h
      simp [Result.IsErr, ErrBaseInsufficientFunds, Err] at hr
    · simp only [h2, Bool.not_true, Bool.false_eq_true, if_false] at h
      cases hk : acc.PubKey with
      | none => simp [hk] at h
      | some pubKey =>
        simp only [hk] at h
        cases h3 : pubKey.VerifyBytes E signBytes in_.Signature
        · simp only [h3, Bool.not_false, if_true] at h
          cases h
          simp [Result.IsErr, Result.AppendLog, ErrBaseInvalidSignature, Err] at hr
        · exact ⟨h1, rfl, pubKey, rfl, h3⟩
  · simp only [ne_eq, h1, not_false_eq_true, if_true] at h
    cases h
    simp [Result.IsErr, Result.AppendLog, ErrBaseInvalidSequence, Err] at hr

/-- C6, on an account without pub_key: with a matching sequence and
sufficient funds, `validateInputAdvanced` does not return
`BaseInvalidSignature`, nor any result: the call of `VerifyBytes` on the nil
key panics. -/
theorem validateInputAdvanced_nil_pubkey_panics :
    GoInt.add GoInt.zero GoInt.one = GoInt.one ∧
    Coins.IsGTE [⟨"coin", 5⟩] [⟨"coin", 5⟩] = true ∧
    ¬ ∃ res, validateInputAdvanced refExt
        { PubKey := none, Sequence := GoInt.zero, Balance := [⟨"coin", 5⟩] } []
        { Address := List.replicate 20 1, Coins := [⟨"coin", 5⟩], Sequence := GoInt.one,
          Signature := none, PubKey := none } = .ret res := by
  refine ⟨by decide, by decide, ?_⟩
  rintro ⟨res, h⟩
  have hp : validateInputAdvanced refExt
      { PubKey := none, Sequence := GoInt.zero, Balance := [⟨"coin", 5⟩] } []
      { Address := List.replicate 20 1, Coins := [⟨"coin", 5⟩], Sequence := GoInt.one,
        Signature := none, PubKey := none } = .panic "nil pointer dereference" := by decide
  rw [hp] at h
  cases h

/-- C6, amended. On every account, with or without a pub_key,
`validateInputAdvanced` returns `BaseInvalidSequence` when
`account.sequence + 1` (addition of Go `int`) differs from the input
sequence, and else `BaseInsufficientFunds` when the balance is not `IsGTE`
the input coins. When both checks pass and the account has a pub_key, it
returns `OK` if the pub_key verifies the signature over the sign-bytes and
`BaseInvalidSignature` if not. When both checks pass and the account has no
pub_key, the call panics on the nil key and returns nothing. So it returns
`OK` exactly when the three checks pass. -/
theorem validateInputAdvanced_spec (E : Ext) (acc : Account) (signBytes : Bytes)
    (in_ : TxInput) :
    (GoInt.add acc.Sequence GoInt.one ≠ in_.Sequence →
      ∃ res, validateInputAdvanced E acc signBytes in_ = .ret res ∧
        res.Code = .BaseInvalidSequence) ∧
    (GoInt.add acc.Sequence GoInt.one = in_.Sequence →
      acc.Balance.IsGTE in_.Coins = false →
      validateInputAdvanced E acc signBytes in_ = .ret ErrBaseInsufficientFunds) ∧
    (∀ pubKey, acc.PubKey = some pubKey →
      GoInt.add acc.Sequence GoInt.one = in_.Sequence →
      acc.Balance.IsGTE in_.Coins = true →
      (pubKey.VerifyBytes E signBytes in_.Signature = true →
        validateInputAdvanced E acc signBytes in_ = .ret OK) ∧
      (pubKey.VerifyBytes E signBytes in_.Signature = false →
        ∃ res, validateInputAdvanced E acc signBytes in_ = .ret res ∧
          res.Code = .BaseInvalidSignature)) ∧
    (acc.PubKey = none →
      GoInt.add acc.Sequence GoInt.one = in_.Sequence →
      acc.Balance.IsGTE in_.Coins = true →
      validateInputAdvanced E acc signBytes in_ = .panic "nil pointer dereference") ∧
    (validateInputAdvanced E acc signBytes in_ = .ret OK ↔
      GoInt.add acc.Sequence GoInt.one = in_.Sequence ∧
        acc.Balance.IsGTE in_.Coins = true ∧
        ∃ pubKey, acc.PubKey = some pubKey ∧
          pubKey.VerifyBytes E signBytes in_.Signature = true) := by
  refine ⟨?_, ?_, ?_, ?_, ?_⟩
  · intro h1
    have hret : validateInputAdvanced E acc signBytes in_ = .ret
        (ErrBaseInvalidSequence.AppendLog
          (.fmt "Got %v, expected %v. (acc.seq=%v)"
            [.int in_.Sequence.val, .int (GoInt.add acc.Sequence GoInt.one).val,
              .int acc.Sequence.val])) := by
      unfold validateInputAdvanced
      simp only [ne_eq, h1, not_false_eq_true, if_true]
    exact ⟨_, hret, by simp [Result.AppendLog_Code, ErrBaseInvalidSequence, Err]⟩
  · intro h1 h2
    unfold validateInputAdvanced
    simp only [ne_eq, h1, not_true_eq_false, if_false, h2, Bool.not_false, if_true]
  · intro pubKey hkey h1 h2
    have key := validateInputAdvanced_eq E acc signBytes in_ pubKey hkey
    simp only [ne_eq, h1, not_true_eq_false, if_false, h2, Bool.not_true,
      Bool.false_eq_true] at key
    constructor
    · intro h3
      rw [key]
      simp only [h3, Bool.not_true, Bool.false_eq_true, if_false]
    · intro h3
      refine ⟨_, key, ?_⟩
      simp [h3, Result.AppendLog_Code, ErrBaseInvalidSignature, Err]
  · intro hkey h1 h2
    unfold validateInputAdvanced
    simp only [ne_eq, h1, not_true_eq_false, if_false, h2, Bool.not_true,
      Bool.false_eq_true, hkey]
  · constructor
    · intro h
      exact validateInputAdvanced_not_err E acc signBytes in_ OK h (by decide)
    · rintro ⟨h1, h2, pubKey, hkey, h3⟩
      rw [validateInputAdvanced_eq E acc signBytes in_ pubKey hkey]
      simp only [ne_eq, h1, not_true_eq_false, if_false, h2, Bool.not_true,
        Bool.false_eq_true, h3]

/-- C6, amended: the statement applied to an account with a pub_key on which
the three checks pass, and to an account without pub_key whose sequence does
not match. -/
theorem validateInputAdvanced_spec_witness :
    validateInputAdvanced refExt
        { PubKey := some (.Ed25519 [7]), Sequence := GoInt.zero, Balance := [⟨"coin", 5⟩] } [9]
        { Address := List.replicate 20 1, Coins := [⟨"coin", 5⟩], Sequence := GoInt.one,
          Signature := some (.Ed25519 [7, 9]), PubKey := none } = .ret OK ∧
    ∃ res, validateInputAdvanced refExt
        { PubKey := none, Sequence := GoInt.one, Balance := [⟨"coin", 5⟩] } [9]
        { Address := List.replicate 20 1, Coins := [⟨"coin", 5⟩], Sequence := GoInt.one,
          Signature := none, PubKey := none } = .ret res ∧
      res.Code = .BaseInvalidSequence :=
  ⟨((validateInputAdvanced_spec refExt
      { PubKey := some (.Ed25519 [7]), Sequence := GoInt.zero, Balance := [⟨"coin", 5⟩] } [9]
      { Address := List.replicate 20 1, Coins := [⟨"coin", 5⟩], Sequence := GoInt.one,
        Signature := some (.Ed25519 [7, 9]), PubKey := none }).2.2.1
        (.Ed25519 [7]) rfl (by decide) (by decide)).1 (by decide),
   (validateInputAdvanced_spec refExt
      { PubKey := none, Sequence := GoInt.one, Balance := [⟨"coin", 5⟩] } [9]
      { Address := List.replicate 20 1, Coins := [⟨"coin", 5⟩], Sequence := GoInt.one,
        Signature := none, PubKey := none }).1 (by decide)⟩

/-! ## Finite maps -/

theorem assocGet_assocSet {α : Type} (l : List (Bytes × α)) (a b : Bytes) (v : α) :
    assocGet (assocSet l a v) b = if a = b then some v else assocGet l b := by
  induction l with
  | nil => simp [assocSet, assocGet]
  | cons h t ih =>
    obtain ⟨k, w⟩ := h
    by_cases hk : k = a
    · subst hk
      by_cases hb : k = b <;> simp [assocSet, assocGet, hb]
    · by_cases hb : k = b
      · subst hb
        have : ¬ a = k := fun e => hk e.symm
        simp [assocSet, assocGet, hk, this]
      · simp [assocSet, assocGet, hk, hb, ih]

theorem assocGet_eq_none_iff {α : Type} (l : List (Bytes × α)) (a : Bytes) :
    assocGet l a = none ↔ a ∉ l.map Prod.fst := by
  induction l with
  | nil => simp [assocGet]
  | cons h t ih =>
    obtain ⟨k, w⟩ := h
    by_cases hk : k = a
    · subst hk; simp [assocGet]
    · have : ¬ a = k := fun e => hk e.symm
      simp [assocGet, hk, ih, this]

theorem ByteMap.get_set {α : Type} (m : ByteMap α) (a b : Bytes) (v : α) :
    (m.set a v).get b = if a = b then some v else m.get b :=
  assocGet_assocSet m.entries a b v

theorem ByteMap.get_set_self {α : Type} (m : ByteMap α) (a : Bytes) (v : α) :
    (m.set a v).get a = some v := by
  simp [ByteMap.get_set]

theorem ByteMap.get_set_ne {α : Type} (m : ByteMap α) {a b : Bytes} (v : α) (h : a ≠ b) :
    (m.set a v).get b = m.get b := by
  simp [ByteMap.get_set, h]

theorem ByteMap.get_empty {α : Type} (a : Bytes) : (ByteMap.empty : ByteMap α).get a = none :=
  rfl

theorem ByteMap.get_eq_none_iff {α : Type} (m : ByteMap α) (a : Bytes) :
    m.get a = none ↔ a ∉ m.keys :=
  assocGet_eq_none_iff m.entries a

theorem ByteMap.keys_set_of_get_none {α : Type} (m : ByteMap α) (a : Bytes) (v : α)
    (h : m.get a = none) : (m.set a v).keys = m.keys ++ [a] := by
  have hn : a ∉ m.entries.map Prod.fst := (assocGet_eq_none_iff m.entries a).mp h
  simp only [ByteMap.keys, ByteMap.set, assocSet_keys, hn, if_false]

theorem State.GetAccount_SetAccount (s : State) (a b : Bytes) (acc : Account) :
    (s.SetAccount a acc).GetAccount b = if a = b then some acc else s.GetAccount b :=
  ByteMap.get_set s.store.accounts a b acc

theorem State.GetChainID_SetAccount (s : State) (a : Bytes) (acc : Account) :
    (s.SetAccount a acc).chainID = s.chainID := rfl

theorem State.data_SetAccount (s : State) (a : Bytes) (acc : Account) :
    (s.SetAccount a acc).store.data = s.store.data := rfl

/-! ## Loading the input accounts -/

theorem getInputsLoop_cons (state : State) (i : TxInput) (t : List TxInput)
    (m0 : ByteMap Account) :
    getInputsLoop state (i :: t) m0 =
      if (m0.get i.Address).isSome = true then (none, ErrBaseDuplicateAddress)
      else
        match state.GetAccount i.Address with
        | none => (none, ErrBaseUnknownAddress)
        | some acc => getInputsLoop state t (m0.set i.Address (installPubKey i acc)) := rfl

theorem getInputsLoop_append (state : State) (pre rest : List TxInput)
    (m0 : ByteMap Account) :
    getInputsLoop state (pre ++ rest) m0 =
      match getInputsLoop state pre m0 with
      | (some m, _) => getInputsLoop state rest m
      | (none, r) => (none, r) := by
  induction pre generalizing m0 with
  | nil => simp [getInputsLoop]
  | cons i t ih =>
    rw [List.cons_append, getInputsLoop_cons, getInputsLoop_cons]
    by_cases h1 : (m0.get i.Address).isSome = true
    · simp only [h1, if_true]
    · simp only [h1, if_false]
      cases hacc : state.GetAccount i.Address with
      | none => rfl
      | some acc => exact ih _

theorem getInputsLoop_good (state : State) (ins : List TxInput) (m0 : ByteMap Account)
    (hn : (ins.map fun i => i.Address).Nodup)
    (hd : ∀ i ∈ ins, m0.get i.Address = none)
    (ha : ∀ i ∈ ins, (state.GetAccount i.Address).isSome = true) :
    ∃ m, getInputsLoop state ins m0 = (some m, OK) ∧
      m.keys = m0.keys ++ (ins.map fun i => i.Address) ∧
      (∀ i ∈ ins, m.get i.Address = (state.GetAccount i.Address).map (installPubKey i)) ∧
      (∀ a, a ∉ (ins.map fun i => i.Address) → m.get a = m0.get a) := by
  induction ins generalizing m0 with
  | nil => exact ⟨m0, rfl, by simp, by simp, by simp⟩
  | cons i t ih =>
    have hi := hd i (List.mem_cons_self _ _)
    obtain ⟨acc, hacc⟩ := Option.isSome_iff_exists.mp (ha i (List.mem_cons_self _ _))
    rw [List.map_cons, List.nodup_cons] at hn
    obtain ⟨hnot, hn'⟩ := hn
    have hd' : ∀ j ∈ t, (m0.set i.Address (installPubKey i acc)).get j.Address = none := by
      intro j hj
      have hne : i.Address ≠ j.Address := by
        intro e
        exact hnot (List.mem_map.mpr ⟨j, hj, e.symm⟩)
      rw [ByteMap.get_set_ne _ _ hne]
      exact hd j (List.mem_cons_of_mem _ hj)
    obtain ⟨m, hm, hk, hin, hout⟩ := ih (m0.set i.Address (installPubKey i acc)) hn' hd'
      (fun j hj => ha j (List.mem_cons_of_mem _ hj))
    refine ⟨m, ?_, ?_, ?_, ?_⟩
    · rw [getInputsLoop_cons]
      simp only [hi, hacc, Option.isSome_none, Bool.false_eq_true, if_false]
      exact hm
    · rw [hk, ByteMap.keys_set_of_get_none _ _ _ hi]
      simp
    · intro j hj
      rcases List.mem_cons.mp hj with rfl | hj
      · rw [hout _ hnot, ByteMap.get_set_self, hacc]
        rfl
      · exact hin j hj
    · intro a ha'
      simp only [List.map_cons, List.mem_cons, not_or] at ha'
      rw [hout a ha'.2, ByteMap.get_set_ne _ _ (fun e => ha'.1 e.symm)]

theorem getInputsLoop_some (state : State) (ins : List TxInput) (m0 m : ByteMap Account)
    (r : Result) (h : getInputsLoop state ins m0 = (some m, r)) :
    (ins.map fun i => i.Address).Nodup ∧ (∀ i ∈ ins, m0.get i.Address = none) ∧
      ∀ i ∈ ins, (state.GetAccount i.Address).isSome = true := by
  induction ins generalizing m0 with
  | nil => simp
  | cons i t ih =>
    rw [getInputsLoop_cons] at h
    by_cases h1 : (m0.get i.Address).isSome = true
    · simp [h1] at h
    simp only [h1, if_false] at h
    cases hacc : state.GetAccount i.Address with
    | none => simp [hacc] at h
    | some acc =>
      simp only [hacc] at h
      obtain ⟨hn, hd, ha⟩ := ih _ h
      have h1' : m0.get i.Address = none := by
        cases hg : m0.get i.Address with
        | none => rfl
        | some x => simp [hg] at h1
      have hnot : i.Address ∉ t.map fun i => i.Address := by
        intro hmem
        obtain ⟨j, hj, e⟩ := List.mem_map.mp hmem
        have := hd j hj
        rw [e, ByteMap.get_set_self] at this
        cases this
      refine ⟨?_, ?_, ?_⟩
      · rw [List.map_cons, List.nodup_cons]
        exact ⟨hnot, hn⟩
      · intro j hj
        rcases List.mem_cons.mp hj with rfl | hj
        · exact h1'
        · have := hd j hj
          have hne : i.Address ≠ j.Address := by
            intro e
            exact hnot (List.mem_map.mpr ⟨j, hj, e.symm⟩)
          rwa [ByteMap.get_set_ne _ _ hne] at this
      · intro j hj
        rcases List.mem_cons.mp hj with rfl | hj
        · simp [hacc]
        · exact ha j hj

theorem getInputsLoop_none (state : State) (ins : List TxInput) (m0 : ByteMap Account)
    (r : Result) (h : getInputsLoop state ins m0 = (none, r)) :
    r = ErrBaseDuplicateAddress ∨ r = ErrBaseUnknownAddress := by
  induction ins generalizing m0 with
  | nil => simp [getInputsLoop] at h
  | cons i t ih =>
    rw [getInputsLoop_cons] at h
    by_cases h1 : (m0.get i.Address).isSome = true
    · simp only [h1, if_true] at h
      left; exact (Prod.mk.inj h).2.symm
    · simp only [h1, if_false] at h
      cases hacc : state.GetAccount i.Address with
      | none =>
        simp only [hacc] at h
        right; exact (Prod.mk.inj h).2.symm
      | some acc =>
        simp only [hacc] at h
        exact ih _ h

theorem getInputs_cases (state : State) (ins : List TxInput) :
    (goodInputs state ins ∧ ∃ m, getInputs state ins = (some m, OK)) ∨
    (¬ goodInputs state ins ∧
      (getInputs state ins = (none, ErrBaseDuplicateAddress) ∨
        getInputs state ins = (none, ErrBaseUnknownAddress))) := by
  by_cases hg : goodInputs state ins
  · left
    obtain ⟨m, hm, -⟩ := getInputsLoop_good state ins ByteMap.empty hg.1
      (fun _ _ => ByteMap.get_empty _) hg.2
    exact ⟨hg, m, hm⟩
  · right
    refine ⟨hg, ?_⟩
    cases hr : getInputs state ins with
    | mk om r =>
      cases om with
      | none =>
        rcases getInputsLoop_none state ins ByteMap.empty r hr with rfl | rfl
        · left; rfl
        · right; rfl
      | some m =>
        obtain ⟨hn, -, ha⟩ := getInputsLoop_some state ins ByteMap.empty m r hr
        exact absurd ⟨hn, ha⟩ hg

/-- C9. `getInputs` returns `OK` exactly when the input addresses are
pairwise distinct and each has an account in the state; the map returned
then has exactly the input addresses as keys, each holding the stored account
with its pub_key replaced by that of the input when the input carries one;
otherwise the first offending input in list order decides the result:
`BaseDuplicateAddress` when its address is that of an earlier input, else
`BaseUnknownAddress` when the state has no account for it. -/
theorem getInputs_spec (state : State) (ins : List TxInput) :
    ((getInputs state ins).2 = OK ↔ goodInputs state ins) ∧
    (goodInputs state ins →
      ∃ m, getInputs state ins = (some m, OK) ∧
        m.keys = (ins.map fun i => i.Address) ∧
        ∀ i ∈ ins, ∃ acc, state.GetAccount i.Address = some acc ∧
          m.get i.Address = some (installPubKey i acc)) ∧
    (∀ pre i post, ins = pre ++ i :: post → goodInputs state pre →
      (i.Address ∈ (pre.map fun j => j.Address) →
        getInputs state ins = (none, ErrBaseDuplicateAddress)) ∧
      (i.Address ∉ (pre.map fun j => j.Address) → state.GetAccount i.Address = none →
        getInputs state ins = (none, ErrBaseUnknownAddress))) := by
  refine ⟨?_, ?_, ?_⟩
  · rcases getInputs_cases state ins with ⟨hg, m, hm⟩ | ⟨hg, hm | hm⟩
    · simp [hm, hg]
    · simp only [hm, hg, iff_false]; decide
    · simp only [hm, hg, iff_false]; decide
  · intro hg
    obtain ⟨m, hm, hk, hin, -⟩ := getInputsLoop_good state ins ByteMap.empty hg.1
      (fun _ _ => ByteMap.get_empty _) hg.2
    refine ⟨m, hm, by simpa [ByteMap.keys, ByteMap.empty] using hk, ?_⟩
    intro i hi
    obtain ⟨acc, hacc⟩ := Option.isSome_iff_exists.mp (hg.2 i hi)
    exact ⟨acc, hacc, by rw [hin i hi, hacc]; rfl⟩
  · intro pre i post hins hg
    obtain ⟨m, hm, hk, hin, hout⟩ := getInputsLoop_good state pre ByteMap.empty hg.1
      (fun _ _ => ByteMap.get_empty _) hg.2
    have hstep : getInputs state ins = getInputsLoop state (i :: post) m := by
      unfold getInputs
      rw [hins, getInputsLoop_append, hm]
    constructor
    · intro hmem
      have hsome : (m.get i.Address).isSome = true := by
        obtain ⟨j, hj, e⟩ := List.mem_map.mp hmem
        obtain ⟨acc, hacc⟩ := Option.isSome_iff_exists.mp (hg.2 j hj)
        have := hin j hj
        rw [e, ← e, hacc] at this
        rw [← e, this]; rfl
      rw [hstep, getInputsLoop_cons]
      simp [hsome]
    · intro hnot hnone
      have hget : m.get i.Address = none := by
        rw [hout _ hnot]; rfl
      rw [hstep, getInputsLoop_cons]
      simp [hget, hnone]

/-- C9, on two inputs with accounts and distinct addresses, and on a
repeated address. -/
theorem getInputs_spec_witness :
    (∃ m, getInputs
        { chainID := "", store :=
          { accounts := (ByteMap.empty.set [1] freshAccount).set [2] freshAccount,
            data := ByteMap.empty } }
        [{ Address := [1], Coins := [], Sequence := GoInt.one, Signature := none,
           PubKey := none },
         { Address := [2], Coins := [], Sequence := GoInt.one, Signature := none,
           PubKey := none }] = (some m, OK) ∧ m.keys = [[1], [2]]) ∧
    getInputs { chainID := "", store :=
          { accounts := (ByteMap.empty.set [1] freshAccount).set [2] freshAccount,
            data := ByteMap.empty } }
        [{ Address := [1], Coins := [], Sequence := GoInt.one, Signature := none,
           PubKey := none },
         { Address := [1], Coins := [], Sequence := GoInt.one, Signature := none,
           PubKey := none }] = (none, ErrBaseDuplicateAddress) := by
  constructor
  · obtain ⟨m, hm, hk, -⟩ := (getInputs_spec _ _).2.1
      (show goodInputs
        { chainID := "", store :=
          { accounts := (ByteMap.empty.set [1] freshAccount).set [2] freshAccount,
            data := ByteMap.empty } }
        [{ Address := [1], Coins := [], Sequence := GoInt.one, Signature := none,
           PubKey := none },
         { Address := [2], Coins := [], Sequence := GoInt.one, Signature := none,
           PubKey := none }] from ⟨by decide, by decide⟩)
    exact ⟨m, hm, hk⟩
  · exact ((getInputs_spec _ _).2.2
      [{ Address := [1], Coins := [], Sequence := GoInt.one, Signature := none,
         PubKey := none }]
      { Address := [1], Coins := [], Sequence := GoInt.one, Signature := none,
        PubKey := none } [] rfl ⟨by decide, by decide⟩).1 (by decide)

/-! ## Sign-bytes leave the transaction as it was -/

theorem zipWith_restore_signatures (ins : List TxInput) :
    List.zipWith (fun (input : TxInput) sig => { input with Signature := sig })
      (ins.map fun input => { input with Signature := none })
      (ins.map fun input => input.Signature) = ins := by
  induction ins with
  | nil => rfl
  | cons i t ih => simp only [List.map_cons, List.zipWith_cons_cons, ih]

theorem SendTx.SignBytes_restores (E : Ext) (tx : SendTx) (chainID : String) :
    (tx.SignBytes E chainID).2 = tx := by
  simp only [SendTx.SignBytes, zipWith_restore_signatures]

theorem AppTx.SignBytes_keeps (E : Ext) (tx : AppTx) (chainID : String) :
    (tx.SignBytes E chainID).2 = tx := rfl

/-! ## The stages of a send transaction -/

theorem execSendTx_eq (E : Ext) (state : State) (tx : SendTx) (isCheckTx : Bool) :
    execSendTx E state tx isCheckTx =
      if (validateInputsBasic tx.Inputs).IsErr = true then
        .ret ((validateInputsBasic tx.Inputs).PrependLog (.text "in validateInputsBasic()"), state)
      else if (validateOutputsBasic tx.Outputs).IsErr = true then
        .ret ((validateOutputsBasic tx.Outputs).PrependLog (.text "in validateOutputsBasic()"),
          state)
      else if (getInputs state tx.Inputs).2.IsErr = true then
        .ret ((getInputs state tx.Inputs).2.PrependLog (.text "in getInputs()"), state)
      else if (getOrMakeOutputs state (getInputs state tx.Inputs).1 tx.Outputs).2.IsErr = true then
        .ret ((getOrMakeOutputs state (getInputs state tx.Inputs).1 tx.Outputs).2.PrependLog
          (.text "in getOrMakeOutputs()"), state)
      else
        match validateInputsAdvanced E
            (getOrMakeOutputs state (getInputs state tx.Inputs).1 tx.Outputs).1
            (tx.SignBytes E state.chainID).1 tx.Inputs with
        | .panic e => .panic e
        | .ret p =>
          if p.2.IsErr = true then
            .ret (p.2.PrependLog (.text "in validateInputsAdvanced()"), state)
          else if p.1.IsEqual ((sumOutputs tx.Outputs).Plus [tx.Fee]) = false then
            .ret (ErrBaseInvalidOutput.AppendLog (.text "Input total != output total + fees"),
              state)
          else
            match adjustByInputs state
                (getOrMakeOutputs state (getInputs state tx.Inputs).1 tx.Outputs).1
                tx.Inputs with
            | .panic e => .panic e
            | .ret q =>
              match adjustByOutputs q.1 q.2 isCheckTx tx.Outputs with
              | .panic e => .panic e
              | .ret z => .ret (OK, z.1) := by
  unfold execSendTx
  simp only [State.GetChainID]
  by_cases h1 : (validateInputsBasic tx.Inputs).IsErr = true
  · simp only [h1, if_true]
  simp only [h1, if_false]
  by_cases h2 : (validateOutputsBasic tx.Outputs).IsErr = true
  · simp only [h2, if_true]
  simp only [h2, if_false]
  by_cases h3 : (getInputs state tx.Inputs).2.IsErr = true
  · simp only [h3, if_true]
  simp only [h3, if_false]
  by_cases h4 : (getOrMakeOutputs state (getInputs state tx.Inputs).1 tx.Outputs).2.IsErr = true
  · simp only [h4, if_true]
  simp only [h4, if_false]
  have hs : tx.SignBytes E state.chainID = ((tx.SignBytes E state.chainID).1, tx) :=
    Prod.ext rfl (SendTx.SignBytes_restores E tx state.chainID)
  rw [hs]
  simp only []
  cases hv : validateInputsAdvanced E
      (getOrMakeOutputs state (getInputs state tx.Inputs).1 tx.Outputs).1
      (tx.SignBytes E state.chainID).1 tx.Inputs with
  | panic e => rfl
  | ret p =>
    obtain ⟨inTotal, res⟩ := p
    simp only []
    by_cases h5 : res.IsErr = true
    · simp only [h5, if_true]
    simp only [h5, if_false]
    cases h6 : inTotal.IsEqual ((sumOutputs tx.Outputs).Plus [tx.Fee])
    · simp
    simp only [Bool.not_true, Bool.false_eq_true, if_false]
    cases ha : adjustByInputs state
        (getOrMakeOutputs state (getInputs state tx.Inputs).1 tx.Outputs).1 tx.Inputs with
    | panic e => rfl
    | ret q =>
      obtain ⟨st1, m1⟩ := q
      simp only []
      cases hb : adjustByOutputs st1 m1 isCheckTx tx.Outputs with
      | panic e => rfl
      | ret z =>
        obtain ⟨st2, m2⟩ := z
        rfl

/-! ## Loading or making the output accounts -/

theorem getOrMakeOutputsLoop_cons (state : State) (o : TxOutput) (t : List TxOutput)
    (m0 : ByteMap Account) :
    getOrMakeOutputsLoop state (o :: t) m0 =
      if (m0.get o.Address).isSome = true then (none, ErrBaseDuplicateAddress)
      else getOrMakeOutputsLoop state t
        (m0.set o.Address ((state.GetAccount o.Address).getD freshAccount)) := by
  simp only [getOrMakeOutputsLoop]
  cases state.GetAccount o.Address <;> rfl

theorem getOrMakeOutputsLoop_some (state : State) (outs : List TxOutput)
    (m0 m : ByteMap Account) (r : Result)
    (h : getOrMakeOutputsLoop state outs m0 = (some m, r)) :
    r = OK ∧ (outs.map fun o => o.Address).Nodup ∧
      (∀ o ∈ outs, m0.get o.Address = none) ∧
      (∀ o ∈ outs, m.get o.Address = some ((state.GetAccount o.Address).getD freshAccount)) ∧
      (∀ a, a ∉ (outs.map fun o => o.Address) → m.get a = m0.get a) := by
  induction outs generalizing m0 with
  | nil =>
    simp only [getOrMakeOutputsLoop, Prod.mk.injEq, Option.some.injEq] at h
    obtain ⟨rfl, rfl⟩ := h
    simp
  | cons o t ih =>
    rw [getOrMakeOutputsLoop_cons] at h
    by_cases h1 : (m0.get o.Address).isSome = true
    · simp [h1] at h
    simp only [h1, if_false] at h
    obtain ⟨hr, hn, hd, hin, hout⟩ := ih _ h
    have h1' : m0.get o.Address = none := by
      cases hg : m0.get o.Address with
      | none => rfl
      | some x => simp [hg] at h1
    have hnot : o.Address ∉ t.map fun o => o.Address := by
      intro hmem
      obtain ⟨j, hj, e⟩ := List.mem_map.mp hmem
      have := hd j hj
      rw [e, ByteMap.get_set_self] at this
      cases this
    refine ⟨hr, ?_, ?_, ?_, ?_⟩
    · rw [List.map_cons, List.nodup_cons]
      exact ⟨hnot, hn⟩
    · intro j hj
      rcases List.mem_cons.mp hj with rfl | hj
      · exact h1'
      · have := hd j hj
        have hne : o.Address ≠ j.Address := by
          intro e
          exact hnot (List.mem_map.mpr ⟨j, hj, e.symm⟩)
        rwa [ByteMap.get_set_ne _ _ hne] at this
    · intro j hj
      rcases List.mem_cons.mp hj with rfl | hj
      · rw [hout _ hnot, ByteMap.get_set_self]
      · exact hin j hj
    · intro a ha
      simp only [List.map_cons, List.mem_cons, not_or] at ha
      rw [hout a ha.2, ByteMap.get_set_ne _ _ (fun e => ha.1 e.symm)]

theorem getOrMakeOutputsLoop_none (state : State) (outs : List TxOutput)
    (m0 : ByteMap Account) (r : Result)
    (h : getOrMakeOutputsLoop state outs m0 = (none, r)) : r = ErrBaseDuplicateAddress := by
  induction outs generalizing m0 with
  | nil => simp [getOrMakeOutputsLoop] at h
  | cons o t ih =>
    rw [getOrMakeOutputsLoop_cons] at h
    by_cases h1 : (m0.get o.Address).isSome = true
    · simp only [h1, if_true] at h
      exact (Prod.mk.inj h).2.symm
    · simp only [h1, if_false] at h
      exact ih _ h

theorem getOrMakeOutputs_some_eq (state : State) (m1 : ByteMap Account)
    (outs : List TxOutput) :
    getOrMakeOutputs state (some m1) outs = getOrMakeOutputsLoop state outs m1 := rfl

theorem getOrMakeOutputsLoop_dup (state : State) (m0 : ByteMap Account)
    (outs : List TxOutput) (hdup : ¬ (outs.map fun o => o.Address).Nodup) :
    getOrMakeOutputsLoop state outs m0 = (none, ErrBaseDuplicateAddress) := by
  cases hr : getOrMakeOutputsLoop state outs m0 with
  | mk om r =>
    cases om with
    | none => rw [getOrMakeOutputsLoop_none state outs m0 r hr]
    | some m => exact absurd (getOrMakeOutputsLoop_some state outs m0 m r hr).2.1 hdup

theorem getOrMakeOutputs_dup (state : State) (accounts : Option (ByteMap Account))
    (outs : List TxOutput) (hdup : ¬ (outs.map fun o => o.Address).Nodup) :
    getOrMakeOutputs state accounts outs = (none, ErrBaseDuplicateAddress) := by
  cases accounts with
  | none => exact getOrMakeOutputsLoop_dup state ByteMap.empty outs hdup
  | some m => exact getOrMakeOutputsLoop_dup state m outs hdup

/-! ## Validation loops -/

theorem validateInputsBasic_not_err (ins : List TxInput)
    (h : (validateInputsBasic ins).IsErr = false) : ∀ i ∈ ins, i.ValidateBasic = OK := by
  induction ins with
  | nil => simp
  | cons i t ih =>
    simp only [validateInputsBasic] at h
    by_cases h1 : i.ValidateBasic.IsErr = true
    · simp only [h1, if_true] at h
      cases h
    · simp only [h1, if_false] at h
      intro j hj
      rcases List.mem_cons.mp hj with rfl | hj
      · exact TxInput.ValidateBasic_input_not_err _ (by simpa using h1)
      · exact ih h j hj

theorem validateOutputsBasic_not_err (outs : List TxOutput)
    (h : (validateOutputsBasic outs).IsErr = false) : ∀ o ∈ outs, o.ValidateBasic = OK := by
  induction outs with
  | nil => simp
  | cons o t ih =>
    simp only [validateOutputsBasic] at h
    by_cases h1 : o.ValidateBasic.IsErr = true
    · simp only [h1, if_true] at h
      cases h
    · simp only [h1, if_false] at h
      intro j hj
      rcases List.mem_cons.mp hj with rfl | hj
      · exact TxOutput.ValidateBasic_output_not_err _ (by simpa using h1)
      · exact ih h j hj

theorem validateInputsAdvancedLoop_not_err (E : Ext) (accounts : Option (ByteMap Account))
    (signBytes : Bytes) (ins : List TxInput) (total t : Coins) (r : Result)
    (h : validateInputsAdvancedLoop E accounts signBytes ins total = .ret (t, r))
    (hr : r.IsErr = false) :
    t = ins.foldl (fun t i => Coins.Plus t i.Coins) total ∧
      ∀ i ∈ ins, ∃ acc, (accounts.bind fun m => m.get i.Address) = some acc ∧
        GoInt.add acc.Sequence GoInt.one = i.Sequence ∧ acc.Balance.IsGTE i.Coins = true ∧
        ∃ pubKey, acc.PubKey = some pubKey ∧
          pubKey.VerifyBytes E signBytes i.Signature = true := by
  induction ins generalizing total with
  | nil =>
    simp only [validateInputsAdvancedLoop, Outcome.ret.injEq, Prod.mk.injEq] at h
    simp [h.1]
  | cons i rest ih =>
    simp only [validateInputsAdvancedLoop] at h
    cases hacc : (accounts.bind fun m => m.get i.Address) with
    | none => simp [hacc] at h
    | some acc =>
      simp only [hacc] at h
      cases hv : validateInputAdvanced E acc signBytes i with
      | panic e => simp [hv] at h
      | ret res =>
        simp only [hv] at h
        by_cases he : res.IsErr = true
        · simp only [he, if_true, Outcome.ret.injEq, Prod.mk.injEq] at h
          rw [← h.2, he] at hr; cases hr
        · simp only [he, if_false] at h
          obtain ⟨ht, hall⟩ := ih _ h
          refine ⟨by simpa using ht, ?_⟩
          intro j hj
          rcases List.mem_cons.mp hj with rfl | hj
          · exact ⟨acc, hacc, validateInputAdvanced_not_err E acc signBytes _ res hv
              (by simpa using he)⟩
          · exact hall j hj

theorem sumOutputsLoop_eq (outs : List TxOutput) (total : Coins) :
    sumOutputsLoop outs total = outs.foldl (fun t o => Coins.Plus t o.Coins) total := by
  induction outs generalizing total with
  | nil => rfl
  | cons o t ih => simp only [sumOutputsLoop, List.foldl_cons, ih]

/-! ## The adjustments -/

theorem adjustByInputs_cons (state : State) (m : ByteMap Account) (i : TxInput)
    (t : List TxInput) :
    adjustByInputs state (some m) (i :: t) =
      match m.get i.Address with
      | none => .panic "adjustByInputs() expects account in accounts"
      | some acc =>
        if (!acc.Balance.IsGTE i.Coins) = true then
          .panic "adjustByInputs() expects sufficient funds"
        else adjustByInputs (state.SetAccount i.Address (inputAdjusted i acc))
          (some (m.set i.Address (inputAdjusted i acc))) t := rfl

theorem adjustByOutputs_cons (state : State) (m : ByteMap Account) (isCheckTx : Bool)
    (o : TxOutput) (t : List TxOutput) :
    adjustByOutputs state (some m) isCheckTx (o :: t) =
      match m.get o.Address with
      | none => .panic "adjustByOutputs() expects account in accounts"
      | some acc =>
        adjustByOutputs
          (if (!isCheckTx) = true then state.SetAccount o.Address (outputAdjusted o acc)
           else state)
          (some (m.set o.Address (outputAdjusted o acc))) isCheckTx t := rfl

theorem adjustByInputs_ret (state : State) (m : ByteMap Account) (ins : List TxInput)
    (hn : (ins.map fun i => i.Address).Nodup)
    (hp : ∀ i ∈ ins, ∃ acc, m.get i.Address = some acc ∧ acc.Balance.IsGTE i.Coins = true) :
    ∃ st1 m1, adjustByInputs state (some m) ins = .ret (st1, some m1) ∧
      (∀ i ∈ ins, ∀ acc, m.get i.Address = some acc →
        st1.GetAccount i.Address = some (inputAdjusted i acc) ∧
          m1.get i.Address = some (inputAdjusted i acc)) ∧
      (∀ a, a ∉ (ins.map fun i => i.Address) →
        st1.GetAccount a = state.GetAccount a ∧ m1.get a = m.get a) ∧
      st1.chainID = state.chainID ∧ st1.store.data = state.store.data := by
  induction ins generalizing state m with
  | nil => exact ⟨state, m, rfl, by simp, by simp, rfl, rfl⟩
  | cons i t ih =>
    obtain ⟨acc, hacc, hgte⟩ := hp i (List.mem_cons_self _ _)
    rw [List.map_cons, List.nodup_cons] at hn
    obtain ⟨hnot, hn'⟩ := hn
    have hne : ∀ j ∈ t, i.Address ≠ j.Address := by
      intro j hj e
      exact hnot (List.mem_map.mpr ⟨j, hj, e.symm⟩)
    have hp' : ∀ j ∈ t, ∃ acc', (m.set i.Address (inputAdjusted i acc)).get j.Address =
        some acc' ∧ acc'.Balance.IsGTE j.Coins = true := by
      intro j hj
      obtain ⟨acc', h1, h2⟩ := hp j (List.mem_cons_of_mem _ hj)
      exact ⟨acc', by rw [ByteMap.get_set_ne _ _ (hne j hj)]; exact h1, h2⟩
    obtain ⟨st1, m1, hret, hin, hout, hc, hd⟩ :=
      ih (state.SetAccount i.Address (inputAdjusted i acc))
        (m.set i.Address (inputAdjusted i acc)) hn' hp'
    refine ⟨st1, m1, ?_, ?_, ?_, ?_, ?_⟩
    · rw [adjustByInputs_cons]
      simp only [hacc, hgte, Bool.not_true, Bool.false_eq_true, if_false]
      exact hret
    · intro j hj acc' hacc'
      rcases List.mem_cons.mp hj with rfl | hj
      · rw [hacc] at hacc'
        cases hacc'
        obtain ⟨h1, h2⟩ := hout _ hnot
        rw [h1, h2, State.GetAccount_SetAccount, ByteMap.get_set_self]
        simp
      · exact hin j hj acc' (by rw [ByteMap.get_set_ne _ _ (hne j hj)]; exact hacc')
    · intro a ha
      simp only [List.map_cons, List.mem_cons, not_or] at ha
      obtain ⟨h1, h2⟩ := hout a ha.2
      have hia : i.Address ≠ a := fun e => ha.1 e.symm
      rw [h1, h2, State.GetAccount_SetAccount, ByteMap.get_set_ne _ _ hia]
      simp [hia]
    · rw [hc]; rfl
    · rw [hd]; rfl

theorem adjustByOutputs_ret (state : State) (m : ByteMap Account) (isCheckTx : Bool)
    (outs : List TxOutput) (hn : (outs.map fun o => o.Address).Nodup)
    (hp : ∀ o ∈ outs, (m.get o.Address).isSome = true) :
    ∃ st1 m1, adjustByOutputs state (some m) isCheckTx outs = .ret (st1, some m1) ∧
      (∀ o ∈ outs, ∀ acc, m.get o.Address = some acc →
        st1.GetAccount o.Address =
          (if isCheckTx = true then state.GetAccount o.Address
           else some (outputAdjusted o acc)) ∧
          m1.get o.Address = some (outputAdjusted o acc)) ∧
      (∀ a, a ∉ (outs.map fun o => o.Address) →
        st1.GetAccount a = state.GetAccount a ∧ m1.get a = m.get a) ∧
      st1.chainID = state.chainID ∧ st1.store.data = state.store.data := by
  induction outs generalizing state m with
  | nil => exact ⟨state, m, rfl, by simp, by simp, rfl, rfl⟩
  | cons o t ih =>
    obtain ⟨acc, hacc⟩ := Option.isSome_iff_exists.mp (hp o (List.mem_cons_self _ _))
    rw [List.map_cons, List.nodup_cons] at hn
    obtain ⟨hnot, hn'⟩ := hn
    have hne : ∀ j ∈ t, o.Address ≠ j.Address := by
      intro j hj e
      exact hnot (List.mem_map.mpr ⟨j, hj, e.symm⟩)
    have hp' : ∀ j ∈ t, ((m.set o.Address (outputAdjusted o acc)).get j.Address).isSome =
        true := by
      intro j hj
      rw [ByteMap.get_set_ne _ _ (hne j hj)]
      exact hp j (List.mem_cons_of_mem _ hj)
    obtain ⟨st1, m1, hret, hin, hout, hc, hd⟩ :=
      ih (if !isCheckTx then state.SetAccount o.Address (outputAdjusted o acc) else state)
        (m.set o.Address (outputAdjusted o acc)) hn' hp'
    refine ⟨st1, m1, ?_, ?_, ?_, ?_, ?_⟩
    · rw [adjustByOutputs_cons]
      simp only [hacc]
      exact hret
    · intro j hj acc' hacc'
      rcases List.mem_cons.mp hj with rfl | hj
      · rw [hacc] at hacc'
        cases hacc'
        obtain ⟨h1, h2⟩ := hout _ hnot
        rw [h1, h2, ByteMap.get_set_self]
        cases isCheckTx <;> simp [State.GetAccount_SetAccount]
      · obtain ⟨h1, h2⟩ := hin j hj acc'
          (by rw [ByteMap.get_set_ne _ _ (hne j hj)]; exact hacc')
        refine ⟨?_, h2⟩
        rw [h1]
        cases isCheckTx <;> simp [State.GetAccount_SetAccount, hne j hj]
    · intro a ha
      simp only [List.map_cons, List.mem_cons, not_or] at ha
      obtain ⟨h1, h2⟩ := hout a ha.2
      have hoa : o.Address ≠ a := fun e => ha.1 e.symm
      rw [h1, h2, ByteMap.get_set_ne _ _ hoa]
      cases isCheckTx <;> simp [State.GetAccount_SetAccount, hoa]
    · rw [hc]; cases isCheckTx <;> rfl
    · rw [hd]; cases isCheckTx <;> rfl

theorem adjustByInputs_fold (state : State) (m : ByteMap Account) (ins : List TxInput)
    (st1 : State) (m1 : Option (ByteMap Account))
    (hn : (ins.map fun i => i.Address).Nodup)
    (h : adjustByInputs state (some m) ins = .ret (st1, m1)) :
    st1 = ins.foldl (fun s i => s.SetAccount i.Address
      (inputAdjusted i ((m.get i.Address).getD freshAccount))) state := by
  induction ins generalizing state m with
  | nil =>
    simp only [adjustByInputs, Outcome.ret.injEq, Prod.mk.injEq] at h
    exact h.1.symm
  | cons i t ih =>
    rw [List.map_cons, List.nodup_cons] at hn
    rw [adjustByInputs_cons] at h
    cases hacc : m.get i.Address with
    | none => simp [hacc] at h
    | some acc =>
      simp only [hacc] at h
      split_ifs at h
      rw [ih _ _ hn.2 h]
      simp only [List.foldl_cons, hacc, Option.getD_some]
      apply List.foldl_ext
      intro s j hj
      have hne : i.Address ≠ j.Address := by
        intro e
        exact hn.1 (List.mem_map.mpr ⟨j, hj, e.symm⟩)
      rw [ByteMap.get_set_ne _ _ hne]

theorem adjustByOutputs_fold (state : State) (m : ByteMap Account) (outs : List TxOutput)
    (st1 : State) (m1 : Option (ByteMap Account))
    (hn : (outs.map fun o => o.Address).Nodup)
    (h : adjustByOutputs state (some m) false outs = .ret (st1, m1)) :
    st1 = outs.foldl (fun s o => s.SetAccount o.Address
      (outputAdjusted o ((m.get o.Address).getD freshAccount))) state := by
  induction outs generalizing state m with
  | nil =>
    simp only [adjustByOutputs, Outcome.ret.injEq, Prod.mk.injEq] at h
    exact h.1.symm
  | cons o t ih =>
    rw [List.map_cons, List.nodup_cons] at hn
    rw [adjustByOutputs_cons] at h
    cases hacc : m.get o.Address with
    | none => simp [hacc] at h
    | some acc =>
      simp only [hacc] at h
      rw [ih _ _ hn.2 h]
      simp only [List.foldl_cons, hacc, Option.getD_some, Bool.not_false, if_true]
      apply List.foldl_ext
      intro s j hj
      have hne : o.Address ≠ j.Address := by
        intro e
        exact hn.1 (List.mem_map.mpr ⟨j, hj, e.symm⟩)
      rw [ByteMap.get_set_ne _ _ hne]

/-! ## A send transaction that is accepted -/

theorem getInputs_not_err (state : State) (ins : List TxInput)
    (h : (getInputs state ins).2.IsErr = false) :
    goodInputs state ins ∧ ∃ m, getInputs state ins = (some m, OK) ∧
      (∀ i ∈ ins, m.get i.Address = (state.GetAccount i.Address).map (installPubKey i)) ∧
      (∀ a, a ∉ (ins.map fun i => i.Address) → m.get a = none) := by
  rcases getInputs_cases state ins with ⟨hg, -⟩ | ⟨-, hm | hm⟩
  · obtain ⟨m, hm, -, hin, hout⟩ := getInputsLoop_good state ins ByteMap.empty hg.1
      (fun _ _ => ByteMap.get_empty _) hg.2
    exact ⟨hg, m, hm, hin, fun a ha => by rw [hout a ha]; rfl⟩
  · rw [hm] at h; cases h
  · rw [hm] at h; cases h

theorem getOrMakeOutputs_not_err (state : State) (m1 : ByteMap Account)
    (outs : List TxOutput)
    (h : (getOrMakeOutputs state (some m1) outs).2.IsErr = false) :
    ∃ m2, getOrMakeOutputs state (some m1) outs = (some m2, OK) ∧
      (outs.map fun o => o.Address).Nodup ∧
      (∀ o ∈ outs, m1.get o.Address = none) ∧
      (∀ o ∈ outs, m2.get o.Address = some ((state.GetAccount o.Address).getD freshAccount)) ∧
      (∀ a, a ∉ (outs.map fun o => o.Address) → m2.get a = m1.get a) := by
  rw [getOrMakeOutputs_some_eq] at h ⊢
  cases hr : getOrMakeOutputsLoop state outs m1 with
  | mk om r =>
    cases om with
    | none =>
      rw [hr, getOrMakeOutputsLoop_none state outs m1 r hr] at h
      cases h
    | some m2 =>
      obtain ⟨rfl, h2, h3, h4, h5⟩ := getOrMakeOutputsLoop_some state outs m1 m2 r hr
      exact ⟨m2, rfl, h2, h3, h4, h5⟩

theorem installPubKey_Balance (i : TxInput) (acc : Account) :
    (installPubKey i acc).Balance = acc.Balance := by
  unfold installPubKey; split_ifs <;> rfl

theorem installPubKey_Sequence (i : TxInput) (acc : Account) :
    (installPubKey i acc).Sequence = acc.Sequence := by
  unfold installPubKey; split_ifs <;> rfl

/-- The stages of a send transaction, when the first five pass: the totals
check decides the result, and the adjustments return. -/
theorem execSendTx_stages (E : Ext) (state : State) (tx : SendTx) (isCheckTx : Bool)
    (h1 : (validateInputsBasic tx.Inputs).IsErr = false)
    (h2 : (validateOutputsBasic tx.Outputs).IsErr = false)
    (h3 : (getInputs state tx.Inputs).2.IsErr = false)
    (h4 : (getOrMakeOutputs state (getInputs state tx.Inputs).1 tx.Outputs).2.IsErr = false)
    (inTotal : Coins) (r : Result)
    (h5 : validateInputsAdvanced E
      (getOrMakeOutputs state (getInputs state tx.Inputs).1 tx.Outputs).1
      (tx.SignBytes E state.chainID).1 tx.Inputs = .ret (inTotal, r))
    (h6 : r.IsErr = false) :
    inTotal = tx.Inputs.foldl (fun t i => Coins.Plus t i.Coins) [] ∧
    (inTotal.IsEqual ((sumOutputs tx.Outputs).Plus [tx.Fee]) = false →
      execSendTx E state tx isCheckTx =
        .ret (ErrBaseInvalidOutput.AppendLog (.text "Input total != output total + fees"),
          state)) ∧
    (inTotal.IsEqual ((sumOutputs tx.Outputs).Plus [tx.Fee]) = true →
      ∃ state', execSendTx E state tx isCheckTx = .ret (OK, state') ∧
        SendAccepted E state tx isCheckTx state') := by
  obtain ⟨hgood, m1, hm1, hm1in, hm1out⟩ := getInputs_not_err state tx.Inputs h3
  rw [hm1] at h4 h5
  dsimp only at h4 h5
  obtain ⟨m2, hm2, honodup, hodisj, hm2in, hm2out⟩ :=
    getOrMakeOutputs_not_err state m1 tx.Outputs h4
  rw [hm2] at h5
  dsimp only at h5
  obtain ⟨htot, hadv⟩ := validateInputsAdvancedLoop_not_err E (some m2) _ tx.Inputs [] inTotal
    r h5 h6
  have hdisj : ∀ o ∈ tx.Outputs, o.Address ∉ (tx.Inputs.map fun i => i.Address) := by
    intro o ho hmem
    obtain ⟨i, hi, e⟩ := List.mem_map.mp hmem
    have h := hm1in i hi
    obtain ⟨acc, hacc⟩ := Option.isSome_iff_exists.mp (hgood.2 i hi)
    rw [e, hodisj o ho, ← e, hacc] at h
    cases h
  have hinot : ∀ i ∈ tx.Inputs, i.Address ∉ (tx.Outputs.map fun o => o.Address) := by
    intro i hi hmem
    obtain ⟨o, ho, e⟩ := List.mem_map.mp hmem
    exact hdisj o ho (List.mem_map.mpr ⟨i, hi, e.symm⟩)
  have hm2i : ∀ i ∈ tx.Inputs, ∀ acc, state.GetAccount i.Address = some acc →
      m2.get i.Address = some (installPubKey i acc) := by
    intro i hi acc hacc
    rw [hm2out _ (hinot i hi), hm1in i hi, hacc]; rfl
  refine ⟨htot, ?_, ?_⟩
  · intro hne
    rw [execSendTx_eq]
    simp only [h1, h2, Bool.false_eq_true, if_false, hm1, hm2, h5, h6, hne, if_true,
      Result.IsErr_OK]
  · intro heq
    have hp : ∀ i ∈ tx.Inputs, ∃ acc, m2.get i.Address = some acc ∧
        acc.Balance.IsGTE i.Coins = true := by
      intro i hi
      obtain ⟨acc, hacc, -, hgte, -⟩ := hadv i hi
      exact ⟨acc, hacc, hgte⟩
    obtain ⟨st1, m3, hret1, hin1, hout1, hc1, hd1⟩ :=
      adjustByInputs_ret state m2 tx.Inputs hgood.1 hp
    have hp3 : ∀ o ∈ tx.Outputs, (m3.get o.Address).isSome = true := by
      intro o ho
      rw [(hout1 _ (hdisj o ho)).2, hm2in o ho]; rfl
    obtain ⟨st2, m4, hret2, hin2, hout2, hc2, hd2⟩ :=
      adjustByOutputs_ret st1 m3 isCheckTx tx.Outputs honodup hp3
    refine ⟨st2, ?_, ?_⟩
    · rw [execSendTx_eq]
      simp only [h1, h2, Bool.false_eq_true, if_false, hm1, hm2, h5, h6, heq, hret1,
        hret2, Result.IsErr_OK, Bool.true_eq_false]
    · refine
        { inputsBasic := validateInputsBasic_not_err _ h1
          outputsBasic := validateOutputsBasic_not_err _ h2
          inputsGood := hgood
          outputsNodup := honodup
          disjoint := hdisj
          advanced := ?_
          totals := ?_
          atInputs := ?_
          atOutputs := ?_
          elsewhere := ?_
          chainID := by rw [hc2, hc1]
          data := by rw [hd2, hd1]
          writes := ?_ }
      · intro i hi
        obtain ⟨acc, hacc⟩ := Option.isSome_iff_exists.mp (hgood.2 i hi)
        obtain ⟨acc', hacc', hs, hg, pk, hpk, hv⟩ := hadv i hi
        have : acc' = installPubKey i acc := by
          have := hm2i i hi acc hacc
          simp only [Option.some_bind] at hacc'
          rw [this] at hacc'
          exact (Option.some.inj hacc').symm
        subst this
        rw [installPubKey_Sequence] at hs
        rw [installPubKey_Balance] at hg
        exact ⟨acc, hacc, hs, hg, pk, hpk, hv⟩
      · rw [← htot, ← sumOutputsLoop_eq]
        exact heq
      · intro i hi acc hacc
        rw [(hout2 _ (hinot i hi)).1]
        exact (hin1 i hi _ (hm2i i hi acc hacc)).1
      · intro o ho
        have hm3 : m3.get o.Address = some ((state.GetAccount o.Address).getD freshAccount) := by
          rw [(hout1 _ (hdisj o ho)).2, hm2in o ho]
        rw [(hin2 o ho _ hm3).1, (hout1 _ (hdisj o ho)).1]
      · intro a ha1 ha2
        rw [(hout2 a ha2).1, (hout1 a ha1).1]
      · intro hc
        subst hc
        have e1 := adjustByInputs_fold state m2 tx.Inputs st1 (some m3) hgood.1 hret1
        have e2 := adjustByOutputs_fold st1 m3 tx.Outputs st2 (some m4) honodup hret2
        have hinner : st1 = tx.Inputs.foldl (fun s i => s.SetAccount i.Address
            (inputAdjusted i (installPubKey i ((state.GetAccount i.Address).getD freshAccount))))
            state := by
          rw [e1]
          apply List.foldl_ext
          intro s i hi
          obtain ⟨acc, hacc⟩ := Option.isSome_iff_exists.mp (hgood.2 i hi)
          rw [hm2i i hi acc hacc, hacc]
          rfl
        have houter : st2 = tx.Outputs.foldl (fun s o => s.SetAccount o.Address
            (outputAdjusted o ((state.GetAccount o.Address).getD freshAccount))) st1 := by
          rw [e2]
          apply List.foldl_ext
          intro s o ho
          rw [(hout1 _ (hdisj o ho)).2, hm2in o ho]
          rfl
        rw [houter, hinner]
        simp only [sendUpdates, applyUpdates, List.foldl_append, List.foldl_map]

/-- An accepted send transaction passed every stage. -/
theorem execSendTx_accepted (E : Ext) (state : State) (tx : SendTx) (isCheckTx : Bool)
    (res : Result) (state' : State)
    (h : execSendTx E state tx isCheckTx = .ret (res, state')) (hok : res.IsErr = false) :
    res = OK ∧ SendAccepted E state tx isCheckTx state' := by
  have heq := execSendTx_eq E state tx isCheckTx
  rw [h] at heq
  cases h1 : (validateInputsBasic tx.Inputs).IsErr
  swap
  · simp only [h1, if_true, Outcome.ret.injEq, Prod.mk.injEq] at heq
    rw [heq.1, Result.IsErr_PrependLog, h1] at hok; cases hok
  cases h2 : (validateOutputsBasic tx.Outputs).IsErr
  swap
  · simp only [h1, h2, Bool.false_eq_true, if_false, if_true, Outcome.ret.injEq,
      Prod.mk.injEq] at heq
    rw [heq.1, Result.IsErr_PrependLog, h2] at hok; cases hok
  cases h3 : (getInputs state tx.Inputs).2.IsErr
  swap
  · simp only [h1, h2, h3, Bool.false_eq_true, if_false, if_true, Outcome.ret.injEq,
      Prod.mk.injEq] at heq
    rw [heq.1, Result.IsErr_PrependLog, h3] at hok; cases hok
  cases h4 : (getOrMakeOutputs state (getInputs state tx.Inputs).1 tx.Outputs).2.IsErr
  swap
  · simp only [h1, h2, h3, h4, Bool.false_eq_true, if_false, if_true, Outcome.ret.injEq,
      Prod.mk.injEq] at heq
    rw [heq.1, Result.IsErr_PrependLog, h4] at hok; cases hok
  simp only [h1, h2, h3, h4, Bool.false_eq_true, if_false] at heq
  cases hv : validateInputsAdvanced E
      (getOrMakeOutputs state (getInputs state tx.Inputs).1 tx.Outputs).1
      (tx.SignBytes E state.chainID).1 tx.Inputs with
  | panic e => simp [hv] at heq
  | ret p =>
    obtain ⟨inTotal, r⟩ := p
    simp only [hv] at heq
    cases h5 : r.IsErr
    swap
    · simp only [h5, if_true, Outcome.ret.injEq, Prod.mk.injEq] at heq
      rw [heq.1, Result.IsErr_PrependLog, h5] at hok; cases hok
    obtain ⟨-, hne, heq'⟩ := execSendTx_stages E state tx isCheckTx h1 h2 h3 h4 inTotal r hv h5
    cases h6 : inTotal.IsEqual ((sumOutputs tx.Outputs).Plus [tx.Fee])
    · rw [hne h6] at h
      simp only [Outcome.ret.injEq, Prod.mk.injEq] at h
      rw [← h.1] at hok
      cases hok
    · obtain ⟨st2, hret, hacc⟩ := heq' h6
      rw [hret] at h
      simp only [Outcome.ret.injEq, Prod.mk.injEq] at h
      rw [← h.1, ← h.2]
      exact ⟨rfl, hacc⟩

/-! ## Coin arithmetic -/

theorem wrap64_of_range {i : Int}
    (h : -9223372036854775808 ≤ i ∧ i < 9223372036854775808) : wrap64 i = i := by
  unfold wrap64; omega

theorem GoInt.add_val (a b : GoInt) : (GoInt.add a b).val = wrap64 (a.val + b.val) := rfl

theorem GoInt.neg_val (a : GoInt) : (GoInt.neg a).val = wrap64 (-a.val) := rfl

theorem wrap64_val (a : GoInt) : wrap64 a.val = a.val := wrap64_of_range a.property

theorem GoInt.add_neg_val (a : GoInt) : (GoInt.add a (GoInt.neg a)).val = 0 := by
  have h := a.property
  simp only [GoInt.add, GoInt.neg, GoInt.ofInt, wrap64]
  omega

theorem Coins.Minus_self_singleton (c : Coin) : Coins.Minus [c] [c] = [] := by
  have h1 : ¬ denomLt c.Denom c.Denom := lt_irrefl _
  simp [Coins.Minus, Coins.Plus, Coins.Negative, Coins.addCoin, GoInt.add_neg_val, h1]

theorem Coins.amountOf_range (l : Coins) (d : String) :
    -9223372036854775808 ≤ Coins.amountOf l d ∧ Coins.amountOf l d < 9223372036854775808 := by
  induction l with
  | nil => simp [Coins.amountOf]
  | cons c t ih =>
    simp only [Coins.amountOf]
    by_cases h : c.Denom = d
    · simp only [h, if_true]; exact c.Amount.property
    · simp only [h, if_false]; exact ih

theorem Coins.wrap64_amountOf (l : Coins) (d : String) :
    wrap64 (Coins.amountOf l d) = Coins.amountOf l d :=
  wrap64_of_range (Coins.amountOf_range l d)

theorem denomLt_iff (a b : String) : denomLt a b ↔ a < b := String.lt_iff_toList_lt.symm

theorem Coins.amountOf_eq_zero_of_lt (l : Coins) (d : String)
    (h : ∀ c ∈ l, d < c.Denom) : Coins.amountOf l d = 0 := by
  induction l with
  | nil => rfl
  | cons c t ih =>
    have hc := h c (List.mem_cons_self _ _)
    have hne : ¬ c.Denom = d := fun e => by rw [e] at hc; exact lt_irrefl _ hc
    simp only [Coins.amountOf, hne, if_false]
    exact ih fun x hx => h x (List.mem_cons_of_mem _ hx)

theorem Coins.amountOf_eq_zero_of_not_mem (l : Coins) (d : String)
    (h : ∀ c ∈ l, c.Denom ≠ d) : Coins.amountOf l d = 0 := by
  induction l with
  | nil => rfl
  | cons c t ih =>
    have hne : ¬ c.Denom = d := h c (List.mem_cons_self _ _)
    simp only [Coins.amountOf, hne, if_false]
    exact ih fun x hx => h x (List.mem_cons_of_mem _ hx)

theorem Coins.Sorted.tail {c : Coin} {t : Coins} (h : Coins.Sorted (c :: t)) :
    Coins.Sorted t := (List.pairwise_cons.mp h).2

theorem Coins.Sorted.head_lt {c : Coin} {t : Coins} (h : Coins.Sorted (c :: t)) :
    ∀ x ∈ t, c.Denom < x.Denom := (List.pairwise_cons.mp h).1

theorem Coins.amountOf_tail_head {c : Coin} {t : Coins} (h : Coins.Sorted (c :: t)) :
    Coins.amountOf t c.Denom = 0 :=
  Coins.amountOf_eq_zero_of_lt t c.Denom h.head_lt

theorem Coins.amountOf_mem {l : Coins} (h : Coins.Sorted l) {c : Coin} (hc : c ∈ l) :
    Coins.amountOf l c.Denom = c.Amount.val := by
  induction l with
  | nil => cases hc
  | cons x t ih =>
    rcases List.mem_cons.mp hc with rfl | hc'
    · simp [Coins.amountOf]
    · have hlt := h.head_lt c hc'
      have hne : ¬ x.Denom = c.Denom := fun e => by rw [e] at hlt; exact lt_irrefl _ hlt
      simp only [Coins.amountOf, hne, if_false]
      exact ih h.tail hc'

theorem Coins.mem_of_amountOf_ne_zero (l : Coins) (d : String)
    (h : Coins.amountOf l d ≠ 0) : ∃ c ∈ l, c.Denom = d := by
  by_contra hn
  push_neg at hn
  exact h (Coins.amountOf_eq_zero_of_not_mem l d hn)

theorem Coins.denom_addCoin (c : Coin) (l : Coins) :
    ∀ x ∈ Coins.addCoin c l, x.Denom = c.Denom ∨ ∃ y ∈ l, y.Denom = x.Denom := by
  induction l with
  | nil =>
    intro x hx
    simp only [Coins.addCoin, List.mem_singleton] at hx
    left; rw [hx]
  | cons h t ih =>
    intro x hx
    simp only [Coins.addCoin] at hx
    split_ifs at hx with h1 h2 h3
    · rcases List.mem_cons.mp hx with rfl | hx
      · left; rfl
      · right; exact ⟨x, hx, rfl⟩
    · right; exact ⟨x, List.mem_cons_of_mem _ hx, rfl⟩
    · rcases List.mem_cons.mp hx with rfl | hx
      · right; exact ⟨h, List.mem_cons_self _ _, rfl⟩
      · right; exact ⟨x, List.mem_cons_of_mem _ hx, rfl⟩
    · rcases List.mem_cons.mp hx with rfl | hx
      · right; exact ⟨x, List.mem_cons_self _ _, rfl⟩
      · rcases ih x hx with h4 | ⟨y, hy, h4⟩
        · left; exact h4
        · right; exact ⟨y, List.mem_cons_of_mem _ hy, h4⟩

theorem Coins.Sorted.addCoinSorted (c : Coin) {l : Coins} (h : Coins.Sorted l) :
    Coins.Sorted (Coins.addCoin c l) := by
  induction l with
  | nil => simp [Coins.addCoin, Coins.Sorted]
  | cons x t ih =>
    simp only [Coins.addCoin]
    split_ifs with h1 h2 h3
    · rw [denomLt_iff] at h1
      refine List.pairwise_cons.mpr ⟨?_, h⟩
      intro y hy
      rcases List.mem_cons.mp hy with rfl | hy
      · exact h1
      · exact lt_trans h1 (h.head_lt y hy)
    · exact h.tail
    · exact List.pairwise_cons.mpr ⟨fun y hy => h.head_lt y hy, h.tail⟩
    · have hlt : x.Denom < c.Denom := by
        rw [denomLt_iff] at h1
        rcases lt_trichotomy c.Denom x.Denom with h4 | h4 | h4
        · exact absurd h4 h1
        · exact absurd h4 h2
        · exact h4
      refine List.pairwise_cons.mpr ⟨?_, ih h.tail⟩
      intro y hy
      rcases Coins.denom_addCoin c t y hy with h4 | ⟨z, hz, h4⟩
      · rw [h4]; exact hlt
      · rw [← h4]; exact h.head_lt z hz

theorem Coins.amountOf_addCoin (c : Coin) {l : Coins} (h : Coins.Sorted l) (d : String) :
    Coins.amountOf (Coins.addCoin c l) d =
      wrap64 (Coins.amountOf l d + (if c.Denom = d then c.Amount.val else 0)) := by
  induction l with
  | nil =>
    by_cases h2 : c.Denom = d
    · simp only [Coins.addCoin, Coins.amountOf, h2, if_true, zero_add, wrap64_val]
    · simp only [Coins.addCoin, Coins.amountOf, h2, if_false, zero_add]
      rfl
  | cons x t ih =>
    simp only [Coins.addCoin]
    by_cases h1 : denomLt c.Denom x.Denom
    · simp only [h1, if_true]
      by_cases h2 : c.Denom = d
      · subst h2
        rw [denomLt_iff] at h1
        have hz : Coins.amountOf (x :: t) c.Denom = 0 :=
          Coins.amountOf_eq_zero_of_lt _ _ (fun y hy => by
            rcases List.mem_cons.mp hy with rfl | hy
            · exact h1
            · exact lt_trans h1 (h.head_lt y hy))
        rw [hz]
        simp only [Coins.amountOf, if_true, zero_add, wrap64_val]
      · simp only [h2, if_false, add_zero, Coins.wrap64_amountOf]
        rw [Coins.amountOf]
        simp only [h2, if_false]
    · simp only [h1, if_false]
      by_cases h2 : c.Denom = x.Denom
      · simp only [h2, if_true]
        have hz := Coins.amountOf_tail_head h
        by_cases h3 : (GoInt.add x.Amount c.Amount).val = 0
        · simp only [h3, if_true]
          by_cases h4 : x.Denom = d
          · subst h4
            simp only [Coins.amountOf, if_true, hz]
            rw [← GoInt.add_val, h3]
          · simp only [Coins.amountOf, h4, if_false, add_zero, Coins.wrap64_amountOf]
        · simp only [h3, if_false]
          by_cases h4 : x.Denom = d
          · simp only [Coins.amountOf, h4, if_true]
            rfl
          · simp only [Coins.amountOf, h4, if_false, add_zero, Coins.wrap64_amountOf]
      · simp only [h2, if_false]
        by_cases h4 : x.Denom = d
        · have hcd : ¬ c.Denom = d := fun e => h2 (e.trans h4.symm)
          simp only [Coins.amountOf, h4, if_true, hcd, if_false, add_zero, wrap64_val]
        · simp only [Coins.amountOf, h4, if_false, ih h.tail]

theorem Coins.NonZero.addCoinNonZero {c : Coin} {l : Coins} (h : Coins.NonZero l)
    (hc : c.Amount.val ≠ 0) : Coins.NonZero (Coins.addCoin c l) := by
  induction l with
  | nil =>
    intro x hx
    simp only [Coins.addCoin, List.mem_singleton] at hx
    rw [hx]; exact hc
  | cons y t ih =>
    have ht : Coins.NonZero t := fun x hx => h x (List.mem_cons_of_mem _ hx)
    intro x hx
    simp only [Coins.addCoin] at hx
    split_ifs at hx with h1 h2 h3
    · rcases List.mem_cons.mp hx with rfl | hx
      · exact hc
      · exact h x hx
    · exact ht x hx
    · rcases List.mem_cons.mp hx with rfl | hx
      · exact h3
      · exact ht x hx
    · rcases List.mem_cons.mp hx with rfl | hx
      · exact h x (List.mem_cons_self _ _)
      · exact ih ht x hx

theorem Coins.NonZero.addCoin_of_mem {c : Coin} {l : Coins} (h : Coins.NonZero l)
    (hs : Coins.Sorted l) (hm : ∃ y ∈ l, y.Denom = c.Denom) (hc : c.Amount.val = 0) :
    Coins.addCoin c l = l := by
  induction l with
  | nil => obtain ⟨y, hy, -⟩ := hm; cases hy
  | cons x t ih =>
    obtain ⟨y, hy, hyd⟩ := hm
    simp only [Coins.addCoin]
    split_ifs with h1 h2 h3
    · rw [denomLt_iff] at h1
      rcases List.mem_cons.mp hy with rfl | hy
      · rw [hyd] at h1; exact absurd h1 (lt_irrefl _)
      · have := hs.head_lt y hy
        rw [hyd] at this
        exact absurd (lt_trans h1 this) (lt_irrefl _)
    · rw [GoInt.add_val, hc, add_zero, wrap64_val] at h3
      exact absurd h3 (h x (List.mem_cons_self _ _))
    · have hadd : GoInt.add x.Amount c.Amount = x.Amount :=
        Subtype.ext (by rw [GoInt.add_val, hc, add_zero, wrap64_val])
      rw [hadd]
    · rcases List.mem_cons.mp hy with rfl | hy
      · exact absurd hyd.symm h2
      · rw [ih (fun z hz => h z (List.mem_cons_of_mem _ hz)) hs.tail ⟨y, hy, hyd⟩]

theorem Coins.mem_addCoin_of_not_mem (c : Coin) (l : Coins)
    (hm : ∀ y ∈ l, y.Denom ≠ c.Denom) : c ∈ Coins.addCoin c l := by
  induction l with
  | nil => simp [Coins.addCoin]
  | cons x t ih =>
    have hx : ¬ c.Denom = x.Denom := fun e => hm x (List.mem_cons_self _ _) e.symm
    simp only [Coins.addCoin, hx, if_false]
    split_ifs
    · exact List.mem_cons_self _ _
    · exact List.mem_cons_of_mem _ (ih fun y hy => hm y (List.mem_cons_of_mem _ hy))

theorem Coins.ext_of_amountOf {a b : Coins} (ha : Coins.Sorted a) (hb : Coins.Sorted b)
    (hza : Coins.NonZero a) (hzb : Coins.NonZero b)
    (h : ∀ d, Coins.amountOf a d = Coins.amountOf b d) : a = b := by
  induction a generalizing b with
  | nil =>
    cases b with
    | nil => rfl
    | cons y tb =>
      have := h y.Denom
      simp only [Coins.amountOf, if_true] at this
      exact absurd this.symm (hzb y (List.mem_cons_self _ _))
  | cons x ta ih =>
    cases b with
    | nil =>
      have := h x.Denom
      simp only [Coins.amountOf, if_true] at this
      exact absurd this (hza x (List.mem_cons_self _ _))
    | cons y tb =>
      have hxa : x.Amount.val ≠ 0 := hza x (List.mem_cons_self _ _)
      have hyb : y.Amount.val ≠ 0 := hzb y (List.mem_cons_self _ _)
      have hd : x.Denom = y.Denom := by
        rcases lt_trichotomy x.Denom y.Denom with h1 | h1 | h1
        · have hz : Coins.amountOf (y :: tb) x.Denom = 0 :=
            Coins.amountOf_eq_zero_of_lt _ _ (fun z hz => by
              rcases List.mem_cons.mp hz with rfl | hz
              · exact h1
              · exact lt_trans h1 (hb.head_lt z hz))
          have := h x.Denom
          rw [hz] at this
          simp only [Coins.amountOf, if_true] at this
          exact absurd this hxa
        · exact h1
        · have hz : Coins.amountOf (x :: ta) y.Denom = 0 :=
            Coins.amountOf_eq_zero_of_lt _ _ (fun z hz => by
              rcases List.mem_cons.mp hz with rfl | hz
              · exact h1
              · exact lt_trans h1 (ha.head_lt z hz))
          have := h y.Denom
          rw [hz] at this
          simp only [Coins.amountOf, if_true] at this
          exact absurd this.symm hyb
      have hamt : x.Amount = y.Amount := by
        have := h x.Denom
        exact Subtype.ext (by simpa [Coins.amountOf, hd] using this)
      have hxy : x = y := by
        cases x; cases y
        simp only [Coin.mk.injEq]
        exact ⟨hd, hamt⟩
      subst hxy
      have htail : ∀ d, Coins.amountOf ta d = Coins.amountOf tb d := by
        intro d
        by_cases hdx : x.Denom = d
        · subst hdx
          rw [Coins.amountOf_tail_head ha, Coins.amountOf_tail_head hb]
        · have := h d
          simpa [Coins.amountOf, hdx] using this
      rw [ih ha.tail hb.tail (fun z hz => hza z (List.mem_cons_of_mem _ hz))
        (fun z hz => hzb z (List.mem_cons_of_mem _ hz)) htail]

theorem Coins.Sorted.plusSorted {a : Coins} (b : Coins) (h : Coins.Sorted a) :
    Coins.Sorted (Coins.Plus a b) := by
  induction b generalizing a with
  | nil => exact h
  | cons c t ih => exact ih (Coins.Sorted.addCoinSorted c h)

theorem Coins.NonZero.plusNonZero {a b : Coins} (ha : Coins.NonZero a) (hb : Coins.NonZero b) :
    Coins.NonZero (Coins.Plus a b) := by
  induction b generalizing a with
  | nil => exact ha
  | cons c t ih =>
    exact ih (Coins.NonZero.addCoinNonZero ha (hb c (List.mem_cons_self _ _)))
      (fun x hx => hb x (List.mem_cons_of_mem _ hx))

theorem Coins.amountOf_Plus {a b : Coins} (ha : Coins.Sorted a) (hb : Coins.Sorted b)
    (d : String) :
    Coins.amountOf (Coins.Plus a b) d =
      wrap64 (Coins.amountOf a d + Coins.amountOf b d) := by
  induction b generalizing a with
  | nil => simp [Coins.Plus, Coins.amountOf, Coins.wrap64_amountOf]
  | cons c t ih =>
    have hstep : Coins.Plus a (c :: t) = Coins.Plus (Coins.addCoin c a) t := rfl
    rw [hstep, ih (Coins.Sorted.addCoinSorted c ha) hb.tail, Coins.amountOf_addCoin c ha]
    by_cases hc : c.Denom = d
    · subst hc
      simp only [if_true, Coins.amountOf, Coins.amountOf_tail_head hb]
      unfold wrap64
      omega
    · simp only [hc, if_false, Coins.amountOf]
      unfold wrap64
      omega

theorem Coins.Sorted.negSorted {b : Coins} (h : Coins.Sorted b) :
    Coins.Sorted (Coins.Negative b) := by
  unfold Coins.Sorted Coins.Negative
  rw [List.pairwise_map]
  exact h

theorem Coins.NonZero.negNonZero {b : Coins} (h : Coins.NonZero b) :
    Coins.NonZero (Coins.Negative b) := by
  intro x hx
  obtain ⟨y, hy, rfl⟩ := List.mem_map.mp hx
  have := h y hy
  have hr := y.Amount.property
  show (GoInt.neg y.Amount).val ≠ 0
  rw [GoInt.neg_val]
  unfold wrap64
  omega

theorem Coins.amountOf_Negative (b : Coins) (d : String) :
    Coins.amountOf (Coins.Negative b) d = wrap64 (- Coins.amountOf b d) := by
  induction b with
  | nil => simp [Coins.Negative, Coins.amountOf, wrap64]
  | cons c t ih =>
    have hstep : Coins.Negative (c :: t) =
        { Denom := c.Denom, Amount := GoInt.neg c.Amount } :: Coins.Negative t := rfl
    rw [hstep]
    by_cases hc : c.Denom = d
    · simp only [Coins.amountOf, hc, if_true, GoInt.neg_val]
    · simp only [Coins.amountOf, hc, if_false, ih]

theorem Coins.amountOf_Minus {a b : Coins} (ha : Coins.Sorted a) (hb : Coins.Sorted b)
    (d : String) :
    Coins.amountOf (Coins.Minus a b) d =
      wrap64 (Coins.amountOf a d - Coins.amountOf b d) := by
  unfold Coins.Minus
  rw [Coins.amountOf_Plus ha hb.negSorted, Coins.amountOf_Negative]
  unfold wrap64
  omega

theorem Coins.IsValid_iff (l : Coins) :
    Coins.IsValid l = true ↔ Coins.Sorted l ∧ ∀ c ∈ l, 0 < c.Amount.val := by
  induction l with
  | nil => simp [Coins.IsValid, Coins.Sorted]
  | cons c t ih =>
    cases t with
    | nil => simp [Coins.IsValid, Coins.Sorted]
    | cons d rest =>
      simp only [Coins.IsValid, Bool.and_eq_true, decide_eq_true_eq, ih, denomLt_iff]
      constructor
      · rintro ⟨⟨h1, h2⟩, h3, h4⟩
        refine ⟨List.pairwise_cons.mpr ⟨?_, h3⟩, ?_⟩
        · intro y hy
          rcases List.mem_cons.mp hy with rfl | hy
          · exact h2
          · exact lt_trans h2 (h3.head_lt y hy)
        · intro y hy
          rcases List.mem_cons.mp hy with rfl | hy
          · exact h1
          · exact h4 y hy
      · rintro ⟨h1, h2⟩
        exact ⟨⟨h2 c (List.mem_cons_self _ _), h1.head_lt d (List.mem_cons_self _ _)⟩,
          h1.tail, fun y hy => h2 y (List.mem_cons_of_mem _ hy)⟩

theorem Coins.sorted_of_IsValid {l : Coins} (h : Coins.IsValid l = true) : Coins.Sorted l :=
  ((Coins.IsValid_iff l).mp h).1

theorem Coins.nonZero_of_IsValid {l : Coins} (h : Coins.IsValid l = true) : Coins.NonZero l :=
  fun c hc => ne_of_gt (((Coins.IsValid_iff l).mp h).2 c hc)

theorem Coins.amountOf_nonneg {l : Coins} (h : ∀ c ∈ l, 0 < c.Amount.val) (d : String) :
    0 ≤ Coins.amountOf l d := by
  induction l with
  | nil => simp [Coins.amountOf]
  | cons c t ih =>
    simp only [Coins.amountOf]
    split_ifs
    · exact le_of_lt (h c (List.mem_cons_self _ _))
    · exact ih fun x hx => h x (List.mem_cons_of_mem _ hx)

theorem Coins.amountOf_nonneg_of_IsValid {l : Coins} (h : Coins.IsValid l = true) (d : String) :
    0 ≤ Coins.amountOf l d :=
  Coins.amountOf_nonneg ((Coins.IsValid_iff l).mp h).2 d

theorem Coins.IsGTE_amountOf {a b : Coins} (h : Coins.IsGTE a b = true) (d : String) :
    Coins.amountOf b d ≤ Coins.amountOf a d := by
  by_cases hm : ∃ c ∈ a ++ b, c.Denom = d
  · obtain ⟨c, hc, rfl⟩ := hm
    simp only [Coins.IsGTE, List.all_eq_true, decide_eq_true_eq] at h
    exact h c hc
  · push_neg at hm
    rw [Coins.amountOf_eq_zero_of_not_mem a d (fun c hc => hm c (List.mem_append_left _ hc)),
      Coins.amountOf_eq_zero_of_not_mem b d (fun c hc => hm c (List.mem_append_right _ hc))]

theorem Coins.IsValid_Minus {a b : Coins} (ha : Coins.IsValid a = true)
    (hb : Coins.IsValid b = true) (hgte : Coins.IsGTE a b = true) :
    Coins.IsValid (Coins.Minus a b) = true := by
  rw [Coins.IsValid_iff]
  have hs : Coins.Sorted (Coins.Minus a b) := Coins.Sorted.plusSorted _ (Coins.sorted_of_IsValid ha)
  have hz : Coins.NonZero (Coins.Minus a b) := Coins.NonZero.plusNonZero (Coins.nonZero_of_IsValid ha) (Coins.nonZero_of_IsValid hb).negNonZero
  refine ⟨hs, fun c hc => ?_⟩
  have h1 := Coins.amountOf_mem hs hc
  rw [Coins.amountOf_Minus (Coins.sorted_of_IsValid ha) (Coins.sorted_of_IsValid hb)] at h1
  have h2 := Coins.IsGTE_amountOf hgte c.Denom
  have h3 := hz c hc
  have h4 := Coins.amountOf_nonneg_of_IsValid hb c.Denom
  have h5 := Coins.amountOf_range a c.Denom
  unfold wrap64 at h1
  omega

theorem Coins.NonZero.of_Plus_valid {a b : Coins} (ha : Coins.IsValid a = true)
    (hb : Coins.IsValid b = true) : Coins.NonZero (Coins.Plus a b) :=
  Coins.NonZero.plusNonZero (Coins.nonZero_of_IsValid ha) (Coins.nonZero_of_IsValid hb)

/-! ## Sums of coin sequences -/

theorem Coins.foldl_Plus_sorted (L : List Coins) {t0 : Coins} (h0 : Coins.Sorted t0) :
    Coins.Sorted (L.foldl Coins.Plus t0) := by
  induction L generalizing t0 with
  | nil => exact h0
  | cons b t ih => exact ih (Coins.Sorted.plusSorted b h0)

theorem Coins.foldl_Plus_nonZero (L : List Coins) {t0 : Coins} (h0 : Coins.NonZero t0)
    (hL : ∀ b ∈ L, Coins.NonZero b) : Coins.NonZero (L.foldl Coins.Plus t0) := by
  induction L generalizing t0 with
  | nil => exact h0
  | cons b t ih =>
    exact ih (Coins.NonZero.plusNonZero h0 (hL b (List.mem_cons_self _ _)))
      (fun x hx => hL x (List.mem_cons_of_mem _ hx))

theorem Coins.amountOf_foldl_Plus (L : List Coins) {t0 : Coins} (h0 : Coins.Sorted t0)
    (hL : ∀ b ∈ L, Coins.Sorted b) (d : String) :
    Coins.amountOf (L.foldl Coins.Plus t0) d =
      wrap64 (Coins.amountOf t0 d + (L.map fun b => Coins.amountOf b d).sum) := by
  induction L generalizing t0 with
  | nil => simp [Coins.wrap64_amountOf]
  | cons b t ih =>
    rw [List.foldl_cons, ih (Coins.Sorted.plusSorted b h0) (fun x hx => hL x (List.mem_cons_of_mem _ hx)),
      Coins.amountOf_Plus h0 (hL b (List.mem_cons_self _ _))]
    simp only [List.map_cons, List.sum_cons]
    unfold wrap64
    omega

theorem Coins.sorted_nil : Coins.Sorted [] := List.Pairwise.nil

theorem Coins.nonZero_nil : Coins.NonZero [] := fun _ h => by cases h

/-! ## Amounts held by the state -/

theorem entriesAmount_assocSet (l : List (Bytes × Account)) (a : Bytes) (v : Account)
    (d : String) :
    entriesAmount (assocSet l a v) d =
      entriesAmount l d - Coins.amountOf ((assocGet l a).getD freshAccount).Balance d
        + Coins.amountOf v.Balance d := by
  induction l with
  | nil => simp [assocSet, assocGet, entriesAmount, freshAccount, Coins.amountOf]
  | cons e t ih =>
    obtain ⟨k, w⟩ := e
    by_cases hk : k = a
    · simp only [assocSet, assocGet, hk, if_true, entriesAmount, List.map_cons, List.sum_cons,
        Option.getD_some]
      omega
    · simp only [assocSet, assocGet, hk, if_false, entriesAmount, List.map_cons,
        List.sum_cons] at ih ⊢
      rw [ih]
      omega

theorem mem_assocSet {α : Type} (l : List (Bytes × α)) (a : Bytes) (v : α) (e : Bytes × α)
    (h : e ∈ assocSet l a v) : e ∈ l ∨ e = (a, v) := by
  induction l with
  | nil =>
    simp only [assocSet, List.mem_singleton] at h
    right; exact h
  | cons x t ih =>
    obtain ⟨k, w⟩ := x
    simp only [assocSet] at h
    split_ifs at h
    · rcases List.mem_cons.mp h with h | h
      · right; exact h
      · left; exact List.mem_cons_of_mem _ h
    · rcases List.mem_cons.mp h with h | h
      · left; rw [h]; exact List.mem_cons_self _ _
      · rcases ih h with h | h
        · left; exact List.mem_cons_of_mem _ h
        · right; exact h

theorem mem_of_assocGet {α : Type} (l : List (Bytes × α)) (a : Bytes) (v : α)
    (h : assocGet l a = some v) : (a, v) ∈ l := by
  induction l with
  | nil => simp [assocGet] at h
  | cons x t ih =>
    obtain ⟨k, w⟩ := x
    simp only [assocGet] at h
    split_ifs at h with hk
    · cases h; rw [hk]; exact List.mem_cons_self _ _
    · exact List.mem_cons_of_mem _ (ih h)

theorem applyUpdates_nil (state : State) : applyUpdates state [] = state := rfl

theorem applyUpdates_cons (state : State) (u : Bytes × Account) (t : List (Bytes × Account)) :
    applyUpdates state (u :: t) = applyUpdates (state.SetAccount u.1 u.2) t := rfl

theorem applyUpdates_append (state : State) (a b : List (Bytes × Account)) :
    applyUpdates state (a ++ b) = applyUpdates (applyUpdates state a) b := by
  simp only [applyUpdates, List.foldl_append]

theorem applyUpdates_amount (state : State) (ups : List (Bytes × Account))
    (hn : (ups.map Prod.fst).Nodup) (d : String) :
    entriesAmount (applyUpdates state ups).store.accounts.entries d =
      entriesAmount state.store.accounts.entries d +
        (ups.map fun u => Coins.amountOf u.2.Balance d -
          Coins.amountOf ((state.GetAccount u.1).getD freshAccount).Balance d).sum := by
  induction ups generalizing state with
  | nil => simp [applyUpdates]
  | cons u t ih =>
    rw [List.map_cons, List.nodup_cons] at hn
    rw [applyUpdates_cons, ih _ hn.2]
    have hcongr : (t.map fun v => Coins.amountOf v.2.Balance d -
          Coins.amountOf (((state.SetAccount u.1 u.2).GetAccount v.1).getD freshAccount).Balance
            d) =
        (t.map fun v => Coins.amountOf v.2.Balance d -
          Coins.amountOf ((state.GetAccount v.1).getD freshAccount).Balance d) := by
      apply List.map_congr_left
      intro v hv
      have hne : u.1 ≠ v.1 := by
        intro e
        exact hn.1 (List.mem_map.mpr ⟨v, hv, e.symm⟩)
      rw [State.GetAccount_SetAccount]
      simp [hne]
    rw [hcongr]
    have hset : entriesAmount (state.SetAccount u.1 u.2).store.accounts.entries d =
        entriesAmount state.store.accounts.entries d
          - Coins.amountOf ((state.GetAccount u.1).getD freshAccount).Balance d
          + Coins.amountOf u.2.Balance d :=
      entriesAmount_assocSet _ _ _ _
    rw [hset]
    simp only [List.map_cons, List.sum_cons]
    omega

theorem applyUpdates_mem (state : State) (ups : List (Bytes × Account)) (e : Bytes × Account)
    (h : e ∈ (applyUpdates state ups).store.accounts.entries) :
    e ∈ state.store.accounts.entries ∨ e ∈ ups := by
  induction ups generalizing state with
  | nil => left; exact h
  | cons u t ih =>
    rw [applyUpdates_cons] at h
    rcases ih _ h with h1 | h1
    · rcases mem_assocSet _ _ _ _ h1 with h2 | h2
      · left; exact h2
      · right; rw [h2]; exact List.mem_cons_self _ _
    · right; exact List.mem_cons_of_mem _ h1

theorem State.mem_of_GetAccount (state : State) (a : Bytes) (acc : Account)
    (h : state.GetAccount a = some acc) : (a, acc) ∈ state.store.accounts.entries :=
  mem_of_assocGet _ _ _ h

theorem State.GetAccount_of_mem (state : State) (e : Bytes × Account)
    (h : e ∈ state.store.accounts.entries) : state.GetAccount e.1 = some e.2 := by
  have hn := state.store.accounts.nodup
  unfold State.GetAccount ByteMap.get
  generalize state.store.accounts.entries = l at h hn
  induction l with
  | nil => cases h
  | cons x t ih =>
    obtain ⟨k, w⟩ := x
    rw [List.map_cons, List.nodup_cons] at hn
    rcases List.mem_cons.mp h with rfl | h'
    · simp [assocGet]
    · have hne : ¬ k = e.1 := by
        intro hk
        exact hn.1 (List.mem_map.mpr ⟨e, h', hk.symm⟩)
      simp only [assocGet, hne, if_false]
      exact ih h' hn.2

theorem State.sumBalances_eq (s : State) :
    s.sumBalances = (s.store.accounts.entries.map fun e => e.2.Balance).foldl Coins.Plus [] := by
  unfold State.sumBalances
  rw [List.foldl_map]

theorem State.amountOf_sumBalances (s : State)
    (h : ∀ e ∈ s.store.accounts.entries, Coins.Sorted e.2.Balance) (d : String) :
    Coins.amountOf s.sumBalances d = wrap64 (entriesAmount s.store.accounts.entries d) := by
  rw [State.sumBalances_eq, Coins.amountOf_foldl_Plus _ Coins.sorted_nil]
  · simp only [Coins.amountOf, zero_add, entriesAmount, List.map_map]
    rfl
  · intro b hb
    obtain ⟨e, he, rfl⟩ := List.mem_map.mp hb
    exact h e he

theorem execSendTx_err_state (E : Ext) (state : State) (tx : SendTx) (isCheckTx : Bool)
    (res : Result) (state' : State)
    (h : execSendTx E state tx isCheckTx = .ret (res, state')) (herr : res.IsErr = true) :
    state' = state := by
  have heq := execSendTx_eq E state tx isCheckTx
  rw [h] at heq
  cases h1 : (validateInputsBasic tx.Inputs).IsErr
  swap
  · simp only [h1, if_true, Outcome.ret.injEq, Prod.mk.injEq] at heq
    exact heq.2
  cases h2 : (validateOutputsBasic tx.Outputs).IsErr
  swap
  · simp only [h1, h2, Bool.false_eq_true, if_false, if_true, Outcome.ret.injEq,
      Prod.mk.injEq] at heq
    exact heq.2
  cases h3 : (getInputs state tx.Inputs).2.IsErr
  swap
  · simp only [h1, h2, h3, Bool.false_eq_true, if_false, if_true, Outcome.ret.injEq,
      Prod.mk.injEq] at heq
    exact heq.2
  cases h4 : (getOrMakeOutputs state (getInputs state tx.Inputs).1 tx.Outputs).2.IsErr
  swap
  · simp only [h1, h2, h3, h4, Bool.false_eq_true, if_false, if_true, Outcome.ret.injEq,
      Prod.mk.injEq] at heq
    exact heq.2
  simp only [h1, h2, h3, h4, Bool.false_eq_true, if_false] at heq
  cases hv : validateInputsAdvanced E
      (getOrMakeOutputs state (getInputs state tx.Inputs).1 tx.Outputs).1
      (tx.SignBytes E state.chainID).1 tx.Inputs with
  | panic e => simp [hv] at heq
  | ret p =>
    obtain ⟨inTotal, r⟩ := p
    simp only [hv] at heq
    cases h5 : r.IsErr
    swap
    · simp only [h5, if_true, Outcome.ret.injEq, Prod.mk.injEq] at heq
      exact heq.2
    obtain ⟨-, hne, heq'⟩ := execSendTx_stages E state tx isCheckTx h1 h2 h3 h4 inTotal r hv h5
    cases h6 : inTotal.IsEqual ((sumOutputs tx.Outputs).Plus [tx.Fee])
    · rw [hne h6] at h
      simp only [Outcome.ret.injEq, Prod.mk.injEq] at h
      exact h.2.symm
    · obtain ⟨st2, hret, -⟩ := heq' h6
      rw [hret] at h
      simp only [Outcome.ret.injEq, Prod.mk.injEq] at h
      rw [← h.1] at herr
      cases herr

theorem GoInt.add_one_val (a b : GoInt) (h : GoInt.add a GoInt.one = b) (hb : 1 ≤ b.val) :
    b.val = a.val + 1 := by
  have h' := congrArg Subtype.val h
  simp only [GoInt.add, GoInt.ofInt, GoInt.one, wrap64] at h'
  have ha := a.property
  omega

theorem Result.IsOK_iff (r : Result) : r.IsOK = true ↔ r.IsErr = false := by
  simp [Result.IsOK, Result.IsErr]

/-! ## Claims on send transactions -/

/-- C1. When `ExecTx` in deliver mode returns OK on a send transaction, each
input address stores its previous account with the balance reduced by the
coins of the input, the sequence increased by exactly 1 and the pub_key of
the input when the input carries one; each output address stores its previous
account (or a fresh account with sequence 0, no pub_key and empty balance)
with the balance increased by the coins of the output; every account at
another address is unchanged. -/
theorem ExecTx_send_deliver_effect (E : Ext) (state : State) (pgz : Plugins) (tx : SendTx)
    (res : Result) (state' : State)
    (h : ExecTx E state pgz (.send tx) false = .ret (res, state'))
    (hok : res.IsOK = true) :
    (∀ i ∈ tx.Inputs, ∃ acc acc', state.GetAccount i.Address = some acc ∧
      state'.GetAccount i.Address = some acc' ∧
      acc'.Balance = acc.Balance.Minus i.Coins ∧
      acc'.Sequence.val = acc.Sequence.val + 1 ∧
      acc'.PubKey = (if i.PubKey.isSome = true then i.PubKey else acc.PubKey)) ∧
    (∀ o ∈ tx.Outputs, ∃ acc', state'.GetAccount o.Address = some acc' ∧
      acc'.Balance = ((state.GetAccount o.Address).getD freshAccount).Balance.Plus o.Coins ∧
      acc'.Sequence = ((state.GetAccount o.Address).getD freshAccount).Sequence ∧
      acc'.PubKey = ((state.GetAccount o.Address).getD freshAccount).PubKey) ∧
    (∀ a, (∀ i ∈ tx.Inputs, i.Address ≠ a) → (∀ o ∈ tx.Outputs, o.Address ≠ a) →
      state'.GetAccount a = state.GetAccount a) := by
  obtain ⟨-, hacc⟩ := execSendTx_accepted E state tx false res state' h
    ((Result.IsOK_iff res).mp hok)
  refine ⟨?_, ?_, ?_⟩
  · intro i hi
    obtain ⟨acc, hget, hseq, -, -⟩ := hacc.advanced i hi
    refine ⟨acc, _, hget, hacc.atInputs i hi acc hget, ?_, ?_, ?_⟩
    · simp only [inputAdjusted, installPubKey_Balance]
    · have hb := ((TxInput.ValidateBasic_input_OK_iff i).mp (hacc.inputsBasic i hi)).2.2.2.1
      simp only [inputAdjusted, installPubKey_Sequence, hseq]
      exact GoInt.add_one_val _ _ hseq hb
    · simp only [inputAdjusted, installPubKey]
      cases hp : i.PubKey <;> simp
  · intro o ho
    refine ⟨outputAdjusted o ((state.GetAccount o.Address).getD freshAccount), ?_, rfl, rfl,
      rfl⟩
    rw [hacc.atOutputs o ho]
    simp
  · intro a ha1 ha2
    apply hacc.elsewhere
    · intro hmem
      obtain ⟨i, hi, e⟩ := List.mem_map.mp hmem
      exact ha1 i hi e
    · intro hmem
      obtain ⟨o, ho, e⟩ := List.mem_map.mp hmem
      exact ha2 o ho e

/-- C1, on the transfer of 10 with fee 1 from the account of `exState` to a
new address, which leads to `exStateAfter`: the sender keeps 989 and has
sequence 1, the recipient holds 10. -/
theorem ExecTx_send_deliver_effect_witness :
    (∀ i ∈ (exSendTx GoInt.one (some exKey)).Inputs, ∃ acc acc',
      exState.GetAccount i.Address = some acc ∧
      exStateAfter.GetAccount i.Address = some acc' ∧
      acc'.Balance = acc.Balance.Minus i.Coins ∧
      acc'.Sequence.val = acc.Sequence.val + 1 ∧
      acc'.PubKey = (if i.PubKey.isSome = true then i.PubKey else acc.PubKey)) ∧
    (∀ o ∈ (exSendTx GoInt.one (some exKey)).Outputs, ∃ acc',
      exStateAfter.GetAccount o.Address = some acc' ∧
      acc'.Balance = ((exState.GetAccount o.Address).getD freshAccount).Balance.Plus o.Coins ∧
      acc'.Sequence = ((exState.GetAccount o.Address).getD freshAccount).Sequence ∧
      acc'.PubKey = ((exState.GetAccount o.Address).getD freshAccount).PubKey) ∧
    (∀ a, (∀ i ∈ (exSendTx GoInt.one (some exKey)).Inputs, i.Address ≠ a) →
      (∀ o ∈ (exSendTx GoInt.one (some exKey)).Outputs, o.Address ≠ a) →
      exStateAfter.GetAccount a = exState.GetAccount a) :=
  ExecTx_send_deliver_effect refExt exState NewPlugins (exSendTx GoInt.one (some exKey)) OK
    exStateAfter (by decide) (by decide)

/-- C2. When `ExecTx`, in check mode or in deliver mode, returns an error
result on a send transaction, the state after the call is the state before
the call. -/
theorem ExecTx_send_error_keeps_state (E : Ext) (state : State) (pgz : Plugins)
    (tx : SendTx) (isCheckTx : Bool) (res : Result) (state' : State)
    (h : ExecTx E state pgz (.send tx) isCheckTx = .ret (res, state'))
    (herr : res.IsErr = true) : state' = state :=
  execSendTx_err_state E state tx isCheckTx res state' h herr

/-- C2, on the transfer of `exSendTx` sent with sequence 2 to an account of
sequence 0: the result is `BaseInvalidSequence` (got 2, expected 1) behind the
prefix of the stage, and the state returned is `exState`. -/
theorem ExecTx_send_error_keeps_state_witness :
    ExecTx refExt exState NewPlugins (.send (exSendTx ⟨2, by decide⟩ none)) false =
      .ret ((ErrBaseInvalidSequence.AppendLog
        (.fmt "Got %v, expected %v. (acc.seq=%v)" [.int 2, .int 1, .int 0])).PrependLog
          (.text "in validateInputsAdvanced()"), exState) ∧
    exState = exState :=
  ⟨by decide,
    ExecTx_send_error_keeps_state refExt exState NewPlugins (exSendTx ⟨2, by decide⟩ none)
      false _ exState (show _ = Outcome.ret ((ErrBaseInvalidSequence.AppendLog
        (.fmt "Got %v, expected %v. (acc.seq=%v)" [.int 2, .int 1, .int 0])).PrependLog
          (.text "in validateInputsAdvanced()"), exState) from by decide) (by decide)⟩

/-- C5. For a send transaction that passes `validateInputsBasic`,
`validateOutputsBasic`, `getInputs`, `getOrMakeOutputs` and
`validateInputsAdvanced`, `ExecTx` returns OK when the sum of the input coins
(folded with `Plus` in input order) `IsEqual` the sum of the output coins
plus the one-coin vector of the fee, and otherwise returns
`ErrBaseInvalidOutput` with "Input total != output total + fees" appended to
its log, leaving the state as it was. -/
theorem ExecTx_send_totals_check (E : Ext) (state : State) (pgz : Plugins) (tx : SendTx)
    (isCheckTx : Bool) (inTotal : Coins) (r : Result)
    (h1 : (validateInputsBasic tx.Inputs).IsErr = false)
    (h2 : (validateOutputsBasic tx.Outputs).IsErr = false)
    (h3 : (getInputs state tx.Inputs).2.IsErr = false)
    (h4 : (getOrMakeOutputs state (getInputs state tx.Inputs).1 tx.Outputs).2.IsErr = false)
    (h5 : validateInputsAdvanced E
      (getOrMakeOutputs state (getInputs state tx.Inputs).1 tx.Outputs).1
      (tx.SignBytes E state.GetChainID).1 tx.Inputs = .ret (inTotal, r))
    (h6 : r.IsErr = false) :
    ((∃ state', ExecTx E state pgz (.send tx) isCheckTx = .ret (OK, state')) ↔
      (tx.Inputs.foldl (fun t i => Coins.Plus t i.Coins) []).IsEqual
        ((tx.Outputs.foldl (fun t o => Coins.Plus t o.Coins) []).Plus [tx.Fee]) = true) ∧
    ((tx.Inputs.foldl (fun t i => Coins.Plus t i.Coins) []).IsEqual
        ((tx.Outputs.foldl (fun t o => Coins.Plus t o.Coins) []).Plus [tx.Fee]) = false →
      ExecTx E state pgz (.send tx) isCheckTx =
        .ret (ErrBaseInvalidOutput.AppendLog (.text "Input total != output total + fees"),
          state)) := by
  obtain ⟨htot, hne, heq⟩ := execSendTx_stages E state tx isCheckTx h1 h2 h3 h4 inTotal r h5 h6
  have hsum : sumOutputs tx.Outputs = tx.Outputs.foldl (fun t o => Coins.Plus t o.Coins) [] :=
    sumOutputsLoop_eq tx.Outputs []
  rw [htot, hsum] at hne heq
  refine ⟨⟨?_, ?_⟩, hne⟩
  · rintro ⟨state', hret⟩
    cases hb : (tx.Inputs.foldl (fun t i => Coins.Plus t i.Coins) []).IsEqual
        ((tx.Outputs.foldl (fun t o => Coins.Plus t o.Coins) []).Plus [tx.Fee])
    · have := hne hb
      simp only [ExecTx] at hret
      rw [this] at hret
      simp only [Outcome.ret.injEq, Prod.mk.injEq] at hret
      exact absurd hret.1 (Result.AppendLog_ne_OK _ _)
    · rfl
  · intro hb
    obtain ⟨state', hret, -⟩ := heq hb
    exact ⟨state', hret⟩

/-- C5, on the transfer of `exSendTx`, whose input total 11 is the output
total 10 plus the fee 1. -/
theorem ExecTx_send_totals_check_witness :
    ∃ state', ExecTx refExt exState NewPlugins (.send (exSendTx GoInt.one (some exKey))) true =
      .ret (OK, state') :=
  (ExecTx_send_totals_check refExt exState NewPlugins (exSendTx GoInt.one (some exKey)) true
    [⟨"", 11⟩] OK (by decide) (by decide) (by decide) (by decide) (by decide)
    (by decide)).1.mpr (by decide)

/-- C10. For a send transaction that passes basic validation and whose input
accounts all load, two outputs with the same address make `ExecTx` return
`ErrBaseDuplicateAddress` with the prefix of the `getOrMakeOutputs` stage,
and the state is kept. -/
theorem ExecTx_send_duplicate_output (E : Ext) (state : State) (pgz : Plugins) (tx : SendTx)
    (isCheckTx : Bool)
    (h1 : (validateInputsBasic tx.Inputs).IsErr = false)
    (h2 : (validateOutputsBasic tx.Outputs).IsErr = false)
    (h3 : (getInputs state tx.Inputs).2.IsErr = false)
    (hdup : ¬ (tx.Outputs.map fun o => o.Address).Nodup) :
    ExecTx E state pgz (.send tx) isCheckTx =
      .ret (ErrBaseDuplicateAddress.PrependLog (.text "in getOrMakeOutputs()"), state) := by
  have h4 := getOrMakeOutputs_dup state (getInputs state tx.Inputs).1 tx.Outputs hdup
  simp only [ExecTx]
  rw [execSendTx_eq]
  simp only [h1, h2, h3, h4, Bool.false_eq_true, if_false]
  rfl

/-- C10, on the transfer of `exSendTx` with two outputs to the same address. -/
theorem ExecTx_send_duplicate_output_witness :
    ExecTx refExt exState NewPlugins
      (.send { Gas := 0, Fee := ⟨"", 1⟩,
               Inputs := (exSendTx GoInt.one (some exKey)).Inputs,
               Outputs := [{ Address := exAddrB, Coins := [⟨"", 5⟩] },
                           { Address := exAddrB, Coins := [⟨"", 5⟩] }] }) false =
      .ret (ErrBaseDuplicateAddress.PrependLog (.text "in getOrMakeOutputs()"), exState) :=
  ExecTx_send_duplicate_output refExt exState NewPlugins _ false (by decide) (by decide)
    (by decide) (by decide)

/-! ## Conservation -/

theorem State.balancesValid_getD (state : State) (hv : state.balancesValid) (a : Bytes) :
    Coins.IsValid ((state.GetAccount a).getD freshAccount).Balance = true := by
  cases hacc : state.GetAccount a with
  | none => rfl
  | some acc => exact hv (a, acc) (State.mem_of_GetAccount state a acc hacc)

theorem SendAccepted.input_valid {E : Ext} {state : State} {tx : SendTx} {isCheckTx : Bool}
    {state' : State} (A : SendAccepted E state tx isCheckTx state') (i : TxInput)
    (hi : i ∈ tx.Inputs) :
    Coins.IsValid i.Coins = true ∧
      Coins.IsGTE ((state.GetAccount i.Address).getD freshAccount).Balance i.Coins = true := by
  obtain ⟨acc, hacc, -, hgte, -⟩ := A.advanced i hi
  have hb := ((TxInput.ValidateBasic_input_OK_iff i).mp (A.inputsBasic i hi)).2.1
  rw [hacc]
  exact ⟨hb, hgte⟩

theorem SendAccepted.output_valid {E : Ext} {state : State} {tx : SendTx} {isCheckTx : Bool}
    {state' : State} (A : SendAccepted E state tx isCheckTx state') (o : TxOutput)
    (ho : o ∈ tx.Outputs) : Coins.IsValid o.Coins = true :=
  ((TxOutput.ValidateBasic_output_OK_iff o).mp (A.outputsBasic o ho)).2.1

theorem SendAccepted.keys_nodup {E : Ext} {state : State} {tx : SendTx} {isCheckTx : Bool}
    {state' : State} (A : SendAccepted E state tx isCheckTx state') :
    ((sendUpdates state tx).map Prod.fst).Nodup := by
  have hk : (sendUpdates state tx).map Prod.fst =
      (tx.Inputs.map fun i => i.Address) ++ (tx.Outputs.map fun o => o.Address) := by
    simp only [sendUpdates, List.map_append, List.map_map]
    rfl
  rw [hk]
  refine List.Nodup.append A.inputsGood.1 A.outputsNodup ?_
  intro a ha1 ha2
  obtain ⟨o, ho, rfl⟩ := List.mem_map.mp ha2
  exact A.disjoint o ho ha1

theorem SendAccepted.updates_canonical {E : Ext} {state : State} {tx : SendTx}
    {isCheckTx : Bool} {state' : State} (A : SendAccepted E state tx isCheckTx state')
    (hv : state.balancesValid) :
    ∀ u ∈ sendUpdates state tx, Coins.Sorted u.2.Balance ∧ Coins.NonZero u.2.Balance := by
  intro u hu
  rcases List.mem_append.mp hu with hu | hu
  · obtain ⟨i, hi, rfl⟩ := List.mem_map.mp hu
    obtain ⟨h1, h2⟩ := A.input_valid i hi
    simp only [inputAdjusted, installPubKey_Balance]
    have := Coins.IsValid_Minus (State.balancesValid_getD state hv _) h1 h2
    exact ⟨Coins.sorted_of_IsValid this, Coins.nonZero_of_IsValid this⟩
  · obtain ⟨o, ho, rfl⟩ := List.mem_map.mp hu
    exact ⟨Coins.Sorted.plusSorted _
        (Coins.sorted_of_IsValid (State.balancesValid_getD state hv _)),
      Coins.NonZero.of_Plus_valid (State.balancesValid_getD state hv _)
        (A.output_valid o ho)⟩

theorem wrap64_sum_congr {α : Type} (l : List α) (f g : α → Int)
    (h : ∀ x ∈ l, wrap64 (f x) = wrap64 (g x)) :
    wrap64 (l.map f).sum = wrap64 (l.map g).sum := by
  induction l with
  | nil => rfl
  | cons x t ih =>
    have h1 := h x (List.mem_cons_self _ _)
    have h2 := ih fun y hy => h y (List.mem_cons_of_mem _ hy)
    simp only [List.map_cons, List.sum_cons]
    unfold wrap64 at h1 h2 ⊢
    omega

theorem SendAccepted.updates_amount {E : Ext} {state : State} {tx : SendTx}
    {isCheckTx : Bool} {state' : State} (A : SendAccepted E state tx isCheckTx state')
    (hv : state.balancesValid) (d : String) :
    wrap64 ((sendUpdates state tx).map fun u => Coins.amountOf u.2.Balance d -
        Coins.amountOf ((state.GetAccount u.1).getD freshAccount).Balance d).sum =
      wrap64 ((tx.Outputs.map fun o => Coins.amountOf o.Coins d).sum -
        (tx.Inputs.map fun i => Coins.amountOf i.Coins d).sum) := by
  have hin : wrap64 (tx.Inputs.map fun i =>
      Coins.amountOf (inputAdjusted i (installPubKey i
          ((state.GetAccount i.Address).getD freshAccount))).Balance d -
        Coins.amountOf ((state.GetAccount i.Address).getD freshAccount).Balance d).sum =
      wrap64 (tx.Inputs.map fun i => - Coins.amountOf i.Coins d).sum := by
    apply wrap64_sum_congr
    intro i hi
    obtain ⟨h1, -⟩ := A.input_valid i hi
    simp only [inputAdjusted, installPubKey_Balance]
    rw [Coins.amountOf_Minus (Coins.sorted_of_IsValid (State.balancesValid_getD state hv _))
      (Coins.sorted_of_IsValid h1)]
    unfold wrap64
    omega
  have hout : wrap64 (tx.Outputs.map fun o =>
      Coins.amountOf (outputAdjusted o
          ((state.GetAccount o.Address).getD freshAccount)).Balance d -
        Coins.amountOf ((state.GetAccount o.Address).getD freshAccount).Balance d).sum =
      wrap64 (tx.Outputs.map fun o => Coins.amountOf o.Coins d).sum := by
    apply wrap64_sum_congr
    intro o ho
    simp only [outputAdjusted]
    rw [Coins.amountOf_Plus (Coins.sorted_of_IsValid (State.balancesValid_getD state hv _))
      (Coins.sorted_of_IsValid (A.output_valid o ho))]
    unfold wrap64
    omega
  have hneg : (tx.Inputs.map fun i => - Coins.amountOf i.Coins d).sum =
      - (tx.Inputs.map fun i => Coins.amountOf i.Coins d).sum := by
    induction tx.Inputs with
    | nil => simp
    | cons i t ih => simp only [List.map_cons, List.sum_cons, ih]; omega
  simp only [sendUpdates, List.map_append, List.map_map, List.sum_append, Function.comp_def]
  rw [hneg] at hin
  unfold wrap64 at hin hout ⊢
  omega

theorem SendAccepted.totals_eq {E : Ext} {state : State} {tx : SendTx}
    {isCheckTx : Bool} {state' : State} (A : SendAccepted E state tx isCheckTx state') :
    (tx.Inputs.map fun i => i.Coins).foldl Coins.Plus [] =
      ((tx.Outputs.map fun o => o.Coins).foldl Coins.Plus []).Plus [tx.Fee] := by
  have heq : tx.Inputs.foldl (fun t i => Coins.Plus t i.Coins) [] =
      (tx.Outputs.foldl (fun t o => Coins.Plus t o.Coins) []).Plus [tx.Fee] := by
    have := A.totals
    simpa [Coins.IsEqual] using this
  rw [List.foldl_map, List.foldl_map]
  exact heq

theorem SendAccepted.inputs_sorted {E : Ext} {state : State} {tx : SendTx}
    {isCheckTx : Bool} {state' : State} (A : SendAccepted E state tx isCheckTx state') :
    ∀ b ∈ (tx.Inputs.map fun i => i.Coins), Coins.Sorted b := by
  intro b hb
  obtain ⟨i, hi, rfl⟩ := List.mem_map.mp hb
  exact Coins.sorted_of_IsValid (A.input_valid i hi).1

theorem SendAccepted.outputs_sorted {E : Ext} {state : State} {tx : SendTx}
    {isCheckTx : Bool} {state' : State} (A : SendAccepted E state tx isCheckTx state') :
    ∀ b ∈ (tx.Outputs.map fun o => o.Coins), Coins.Sorted b := by
  intro b hb
  obtain ⟨o, ho, rfl⟩ := List.mem_map.mp hb
  exact Coins.sorted_of_IsValid (A.output_valid o ho)

theorem SendAccepted.totals_amount {E : Ext} {state : State} {tx : SendTx}
    {isCheckTx : Bool} {state' : State} (A : SendAccepted E state tx isCheckTx state')
    (d : String) :
    wrap64 (tx.Inputs.map fun i => Coins.amountOf i.Coins d).sum =
      wrap64 ((tx.Outputs.map fun o => Coins.amountOf o.Coins d).sum +
        (if tx.Fee.Denom = d then tx.Fee.Amount.val else 0)) := by
  have h1 := congrArg (fun c => Coins.amountOf c d) A.totals_eq
  simp only at h1
  rw [Coins.amountOf_foldl_Plus _ Coins.sorted_nil A.inputs_sorted,
    Coins.amountOf_Plus (Coins.foldl_Plus_sorted _ Coins.sorted_nil)
      (List.pairwise_singleton _ _),
    Coins.amountOf_foldl_Plus _ Coins.sorted_nil A.outputs_sorted] at h1
  simp only [Coins.amountOf, zero_add, List.map_map, Function.comp_def] at h1
  unfold wrap64 at h1 ⊢
  omega

theorem SendAccepted.fee_denom_in_inputs {E : Ext} {state : State} {tx : SendTx}
    {isCheckTx : Bool} {state' : State} (A : SendAccepted E state tx isCheckTx state')
    (hfee : tx.Fee.Amount.val = 0) :
    ∃ i ∈ tx.Inputs, 0 < Coins.amountOf i.Coins tx.Fee.Denom := by
  have heq := A.totals_eq
  have hInz : Coins.NonZero ((tx.Inputs.map fun i => i.Coins).foldl Coins.Plus []) := by
    apply Coins.foldl_Plus_nonZero _ Coins.nonZero_nil
    intro b hb
    obtain ⟨i, hi, rfl⟩ := List.mem_map.mp hb
    exact Coins.nonZero_of_IsValid (A.input_valid i hi).1
  have hOnz : Coins.NonZero ((tx.Outputs.map fun o => o.Coins).foldl Coins.Plus []) := by
    apply Coins.foldl_Plus_nonZero _ Coins.nonZero_nil
    intro b hb
    obtain ⟨o, ho, rfl⟩ := List.mem_map.mp hb
    exact Coins.nonZero_of_IsValid (A.output_valid o ho)
  have hOsorted : Coins.Sorted ((tx.Outputs.map fun o => o.Coins).foldl Coins.Plus []) :=
    Coins.foldl_Plus_sorted _ Coins.sorted_nil
  have hIsorted : Coins.Sorted ((tx.Inputs.map fun i => i.Coins).foldl Coins.Plus []) :=
    Coins.foldl_Plus_sorted _ Coins.sorted_nil
  have hplus : ((tx.Outputs.map fun o => o.Coins).foldl Coins.Plus []).Plus [tx.Fee] =
      Coins.addCoin tx.Fee ((tx.Outputs.map fun o => o.Coins).foldl Coins.Plus []) := rfl
  have hmem : ∃ y ∈ (tx.Outputs.map fun o => o.Coins).foldl Coins.Plus [],
      y.Denom = tx.Fee.Denom := by
    by_contra hn
    push_neg at hn
    have := Coins.mem_addCoin_of_not_mem tx.Fee _ hn
    rw [← hplus, ← heq] at this
    exact hInz _ this hfee
  have hsame : (tx.Inputs.map fun i => i.Coins).foldl Coins.Plus [] =
      (tx.Outputs.map fun o => o.Coins).foldl Coins.Plus [] := by
    rw [heq, hplus]
    exact Coins.NonZero.addCoin_of_mem hOnz hOsorted hmem hfee
  obtain ⟨y, hy, hyd⟩ := hmem
  rw [← hsame] at hy
  have hamt : Coins.amountOf ((tx.Inputs.map fun i => i.Coins).foldl Coins.Plus [])
      tx.Fee.Denom ≠ 0 := by
    rw [← hyd, Coins.amountOf_mem hIsorted hy]
    exact hInz y hy
  rw [Coins.amountOf_foldl_Plus _ Coins.sorted_nil A.inputs_sorted] at hamt
  simp only [Coins.amountOf, zero_add, List.map_map, Function.comp_def] at hamt
  by_contra hn
  push_neg at hn
  apply hamt
  have hz : (tx.Inputs.map fun i => Coins.amountOf i.Coins tx.Fee.Denom).sum = 0 := by
    apply List.sum_eq_zero
    intro x hx
    obtain ⟨i, hi, rfl⟩ := List.mem_map.mp hx
    have h1 := hn i hi
    have h2 := Coins.amountOf_nonneg_of_IsValid (A.input_valid i hi).1 tx.Fee.Denom
    omega
  rw [hz]
  rfl

theorem entriesAmount_nonneg (l : List (Bytes × Account))
    (hv : ∀ e ∈ l, e.2.Balance.IsValid = true) (d : String) : 0 ≤ entriesAmount l d := by
  unfold entriesAmount
  apply List.sum_nonneg
  intro x hx
  obtain ⟨e, he, rfl⟩ := List.mem_map.mp hx
  exact Coins.amountOf_nonneg_of_IsValid (hv e he) d

theorem entriesAmount_ge (l : List (Bytes × Account))
    (hv : ∀ e ∈ l, e.2.Balance.IsValid = true) (d : String) (e : Bytes × Account)
    (he : e ∈ l) : Coins.amountOf e.2.Balance d ≤ entriesAmount l d := by
  unfold entriesAmount
  apply List.single_le_sum
  · intro x hx
    obtain ⟨e, he, rfl⟩ := List.mem_map.mp hx
    exact Coins.amountOf_nonneg_of_IsValid (hv e he) d
  · exact List.mem_map.mpr ⟨e, he, rfl⟩

theorem State.totalsFit_held (state : State) (hv : state.balancesValid)
    (hfit : state.totalsFit) (e : Bytes × Account) (he : e ∈ state.store.accounts.entries)
    (d : String) (hd : 0 < Coins.amountOf e.2.Balance d) :
    0 < entriesAmount state.store.accounts.entries d ∧
      entriesAmount state.store.accounts.entries d < 9223372036854775808 := by
  obtain ⟨c, hc, rfl⟩ := Coins.mem_of_amountOf_ne_zero e.2.Balance d (ne_of_gt hd)
  have h1 := entriesAmount_ge _ hv c.Denom e he
  exact ⟨by omega, hfit e he c hc⟩

/-- C4, amended. When `ExecTx` in deliver mode returns OK on a send
transaction, in a state whose stored balances are valid coin sequences and
whose total of every denom over all accounts fits in a signed 64-bit word,
the Coins sum of all balances before the call equals the Coins sum of all
balances after the call plus the one-coin vector of the fee. -/
theorem ExecTx_send_conservation (E : Ext) (state : State) (pgz : Plugins) (tx : SendTx)
    (res : Result) (state' : State) (hv : state.balancesValid) (hfit : state.totalsFit)
    (h : ExecTx E state pgz (.send tx) false = .ret (res, state'))
    (hok : res.IsOK = true) :
    state.sumBalances = state'.sumBalances.Plus [tx.Fee] := by
  obtain ⟨-, A⟩ := execSendTx_accepted E state tx false res state' h
    ((Result.IsOK_iff res).mp hok)
  have hw := A.writes rfl
  have hc' : ∀ e ∈ state'.store.accounts.entries,
      Coins.Sorted e.2.Balance ∧ Coins.NonZero e.2.Balance := by
    intro e he
    rw [hw] at he
    rcases applyUpdates_mem state _ e he with h1 | h1
    · exact ⟨Coins.sorted_of_IsValid (hv e h1), Coins.nonZero_of_IsValid (hv e h1)⟩
    · exact A.updates_canonical hv e h1
  have hs : ∀ e ∈ state.store.accounts.entries, Coins.Sorted e.2.Balance :=
    fun e he => Coins.sorted_of_IsValid (hv e he)
  have hs' : ∀ e ∈ state'.store.accounts.entries, Coins.Sorted e.2.Balance :=
    fun e he => (hc' e he).1
  -- amounts, denom by denom, as 64-bit words
  have hamount : ∀ d, wrap64 (entriesAmount state.store.accounts.entries d) =
      wrap64 (entriesAmount state'.store.accounts.entries d +
        (if tx.Fee.Denom = d then tx.Fee.Amount.val else 0)) := by
    intro d
    have h1 := applyUpdates_amount state (sendUpdates state tx) A.keys_nodup d
    rw [← hw] at h1
    have h2 := A.updates_amount hv d
    have h3 := A.totals_amount d
    rw [h1]
    unfold wrap64 at h2 h3 ⊢
    omega
  have hT : Coins.Sorted state.sumBalances := by
    rw [State.sumBalances_eq]
    exact Coins.foldl_Plus_sorted _ Coins.sorted_nil
  have hT' : Coins.Sorted state'.sumBalances := by
    rw [State.sumBalances_eq]
    exact Coins.foldl_Plus_sorted _ Coins.sorted_nil
  have hTz : Coins.NonZero state.sumBalances := by
    rw [State.sumBalances_eq]
    apply Coins.foldl_Plus_nonZero _ Coins.nonZero_nil
    intro b hb
    obtain ⟨e, he, rfl⟩ := List.mem_map.mp hb
    exact Coins.nonZero_of_IsValid (hv e he)
  have hTz' : Coins.NonZero state'.sumBalances := by
    rw [State.sumBalances_eq]
    apply Coins.foldl_Plus_nonZero _ Coins.nonZero_nil
    intro b hb
    obtain ⟨e, he, rfl⟩ := List.mem_map.mp hb
    exact (hc' e he).2
  have hR : Coins.Sorted (state'.sumBalances.Plus [tx.Fee]) := Coins.Sorted.plusSorted _ hT'
  have hRz : Coins.NonZero (state'.sumBalances.Plus [tx.Fee]) := by
    by_cases hfee : tx.Fee.Amount.val = 0
    · -- a fee of amount zero names a denom that the accounts hold
      obtain ⟨i, hi, hpos⟩ := A.fee_denom_in_inputs hfee
      obtain ⟨acc, hacc, -, hgte, -⟩ := A.advanced i hi
      have hmem := State.mem_of_GetAccount state _ _ hacc
      have hle := Coins.IsGTE_amountOf hgte tx.Fee.Denom
      obtain ⟨h1, h2⟩ := State.totalsFit_held state hv hfit _ hmem tx.Fee.Denom
        (lt_of_lt_of_le hpos hle)
      have h3 := hamount tx.Fee.Denom
      simp only [if_true, hfee, add_zero] at h3
      have hne : Coins.amountOf state'.sumBalances tx.Fee.Denom ≠ 0 := by
        rw [State.amountOf_sumBalances state' hs', ← h3]
        unfold wrap64
        omega
      obtain ⟨y, hy, hyd⟩ := Coins.mem_of_amountOf_ne_zero _ _ hne
      have : state'.sumBalances.Plus [tx.Fee] = state'.sumBalances :=
        Coins.NonZero.addCoin_of_mem hTz' hT' ⟨y, hy, hyd⟩ hfee
      rw [this]
      exact hTz'
    · exact Coins.NonZero.addCoinNonZero hTz' hfee
  apply Coins.ext_of_amountOf hT hR hTz hRz
  intro d
  rw [Coins.amountOf_Plus hT' (List.pairwise_singleton _ _),
    State.amountOf_sumBalances state hs, State.amountOf_sumBalances state' hs', hamount d]
  simp only [Coins.amountOf]
  unfold wrap64
  omega

/-- C4, amended, on the transfer of `exSendTx` from `exState`, which leads to
`exStateAfter`: 1000 of the denom "" before, 999 after plus the fee 1. -/
theorem ExecTx_send_conservation_witness :
    exState.sumBalances = exStateAfter.sumBalances.Plus [⟨"", 1⟩] :=
  ExecTx_send_conservation refExt exState NewPlugins (exSendTx GoInt.one (some exKey)) OK
    exStateAfter (by unfold State.balancesValid; decide) (by unfold State.totalsFit; decide)
    (by decide) (by decide)

/-- C4, as stated, fails on two accepted transfers with a fee of amount zero
in the denom "a". In `exStateNegative`, where the totals fit in 64 bits and a
stored balance is not a valid coin sequence (-5 of "a"), the balances sum to
the empty sequence before, and after the transfer plus the fee to the
sequence holding the zero-amount fee. In `exStateFull`, where the stored
balances are valid and their total of "a" is 2^64, the same holds: the 64-bit
sum wraps to zero. -/
theorem ExecTx_send_conservation_fails :
    (ExecTx refExt exStateNegative NewPlugins
        (.send (transferTx 0 ⟨"a", 0⟩ exAddrA exAddrC [⟨"a", 5⟩] [⟨"a", 5⟩] GoInt.one
          (some exSig) (some exKey))) false = .ret (OK, exStateNegativeAfter) ∧
      exStateNegative.totalsFit ∧
      exStateNegative.sumBalances = [] ∧
      exStateNegativeAfter.sumBalances.Plus [⟨"a", 0⟩] = [⟨"a", 0⟩] ∧
      ¬ exStateNegative.sumBalances = exStateNegativeAfter.sumBalances.Plus [⟨"a", 0⟩]) ∧
    (exStateFull.balancesValid ∧
      ExecTx refExt exStateFull NewPlugins
        (.send (transferTx 0 ⟨"a", 0⟩ exAddrA (List.replicate 20 5) [⟨"a", 1⟩] [⟨"a", 1⟩]
          GoInt.one (some exSig) (some exKey))) false = .ret (OK, exStateFullAfter) ∧
      exStateFull.sumBalances = [] ∧
      exStateFullAfter.sumBalances.Plus [⟨"a", 0⟩] = [⟨"a", 0⟩] ∧
      ¬ exStateFull.sumBalances = exStateFullAfter.sumBalances.Plus [⟨"a", 0⟩]) := by
  refine ⟨⟨by decide, ?_, by decide, by decide, by decide⟩,
    ⟨?_, by decide, by decide, by decide, by decide⟩⟩
  · unfold State.totalsFit
    decide
  · unfold State.balancesValid
    decide


/-- When `ExecTx` in deliver mode returns OK on a send transaction, in a state
whose stored balances are valid coin sequences, every balance stored after
the call has its denoms in strictly ascending order and holds no coin of
amount zero: no accepted transfer leaves a zero-amount coin behind. -/
theorem ExecTx_send_keeps_balances_canonical (E : Ext) (state : State) (pgz : Plugins)
    (tx : SendTx) (res : Result) (state' : State) (hv : state.balancesValid)
    (h : ExecTx E state pgz (.send tx) false = .ret (res, state'))
    (hok : res.IsOK = true) :
    ∀ e ∈ state'.store.accounts.entries,
      Coins.Sorted e.2.Balance ∧ Coins.NonZero e.2.Balance := by
  obtain ⟨-, A⟩ := execSendTx_accepted E state tx false res state' h
    ((Result.IsOK_iff res).mp hok)
  intro e he
  rw [A.writes rfl] at he
  rcases applyUpdates_mem state _ e he with h1 | h1
  · exact ⟨Coins.sorted_of_IsValid (hv e h1), Coins.nonZero_of_IsValid (hv e h1)⟩
  · exact A.updates_canonical hv e h1

/-- The balances of `exStateAfter`, reached from `exState` by the transfer
`exSendTx`, are in ascending order of denom without zero amounts. -/
theorem ExecTx_send_keeps_balances_canonical_witness :
    ∀ e ∈ exStateAfter.store.accounts.entries,
      Coins.Sorted e.2.Balance ∧ Coins.NonZero e.2.Balance :=
  ExecTx_send_keeps_balances_canonical refExt exState NewPlugins
    (exSendTx GoInt.one (some exKey)) OK exStateAfter
    (by unfold State.balancesValid; decide) (by decide) (by decide)

/-! ## The key of an input is not checked against its address -/

/-- C3, evaluated on the transfer `exSendTx` from `exState`: every account of
`exState` that has a pub_key is stored under the address of that key (its one
account has none); the input names the address `exAddrA` and carries the key
`exKey`, whose address is not `exAddrA`, with a signature of that key;
`ExecTx` returns OK, and afterwards `exAddrA` stores an account whose pub_key
is `exKey`. -/
theorem ExecTx_send_installs_foreign_pub_key :
    (∀ a acc pubKey, exState.GetAccount a = some acc → acc.PubKey = some pubKey →
      pubKey.Address refExt = a) ∧
    exKey.Address refExt ≠ exAddrA ∧
    ExecTx refExt exState NewPlugins (.send (exSendTx GoInt.one (some exKey))) false =
      .ret (OK, exStateAfter) ∧
    exStateAfter.GetAccount exAddrA =
      some { PubKey := some exKey, Sequence := GoInt.one,
             Balance := [⟨"", 989⟩, ⟨"gold", 1000⟩] } ∧
    ¬ (∀ a acc pubKey, exStateAfter.GetAccount a = some acc → acc.PubKey = some pubKey →
      pubKey.Address refExt = a) := by
  refine ⟨?_, by decide, by decide, by decide, ?_⟩
  · intro a acc pubKey h1 h2
    have hmem := State.mem_of_GetAccount exState a acc h1
    have hacc : acc.PubKey = none := by
      simp only [exState, ByteMap.set, ByteMap.empty, assocSet, List.mem_singleton,
        Prod.mk.injEq] at hmem
      rw [hmem.2]
    rw [hacc] at h2
    cases h2
  · intro hall
    have := hall exAddrA
      { PubKey := some exKey, Sequence := GoInt.one, Balance := [⟨"", 989⟩, ⟨"gold", 1000⟩] }
      exKey (by decide) rfl
    revert this
    decide

/-- Whatever the primitives: an account of sequence 0 with sufficient funds is
debited by a one-input transfer that names its address and carries any
pub_key with a signature of that key, and afterwards stores that pub_key; no
premise relates the address of the key to the address of the account. -/
theorem ExecTx_send_any_key_accepted (E : Ext) (state : State) (pgz : Plugins) (a b : Bytes)
    (acc : Account) (pubKey : PubKey) (sig : Option Signature) (coinsIn coinsOut : Coins)
    (fee : Coin) (gas : Int)
    (ha : a.length = 20) (hb : b.length = 20) (hab : a ≠ b)
    (hacc : state.GetAccount a = some acc) (hseq : acc.Sequence = GoInt.zero)
    (hin : coinsIn.IsValid = true) (hinz : coinsIn.IsZero = false)
    (hout : coinsOut.IsValid = true) (houtz : coinsOut.IsZero = false)
    (hgte : acc.Balance.IsGTE coinsIn = true)
    (hsig : pubKey.VerifyBytes E
      (SendTx.SignBytes E
        (transferTx gas fee a b coinsIn coinsOut GoInt.one sig (some pubKey))
        state.GetChainID).1 sig = true)
    (htot : (Coins.Plus [] coinsIn).IsEqual ((Coins.Plus [] coinsOut).Plus [fee]) = true) :
    ∃ state', ExecTx E state pgz
        (.send (transferTx gas fee a b coinsIn coinsOut GoInt.one sig (some pubKey))) false =
        .ret (OK, state') ∧
      state'.GetAccount a =
        some { PubKey := some pubKey, Sequence := GoInt.one,
               Balance := acc.Balance.Minus coinsIn } := by
  have hi : TxInput.ValidateBasic ⟨a, coinsIn, GoInt.one, sig, some pubKey⟩ = OK :=
    (TxInput.ValidateBasic_input_OK_iff _).mpr
      ⟨ha, hin, hinz, by simp [GoInt.one], by simp [GoInt.one]⟩
  have ho : TxOutput.ValidateBasic ⟨b, coinsOut⟩ = OK :=
    (TxOutput.ValidateBasic_output_OK_iff _).mpr ⟨hb, hout, houtz⟩
  have hgi : getInputs state [⟨a, coinsIn, GoInt.one, sig, some pubKey⟩] =
      (some (ByteMap.empty.set a ⟨some pubKey, acc.Sequence, acc.Balance⟩), OK) := by
    simp [getInputs, getInputsLoop_cons, ByteMap.get_empty, hacc, getInputsLoop, installPubKey]
  have hgo : getOrMakeOutputs state
      (some (ByteMap.empty.set a ⟨some pubKey, acc.Sequence, acc.Balance⟩)) [⟨b, coinsOut⟩] =
      (some ((ByteMap.empty.set a ⟨some pubKey, acc.Sequence, acc.Balance⟩).set b
        ((state.GetAccount b).getD freshAccount)), OK) := by
    rw [getOrMakeOutputs_some_eq, getOrMakeOutputsLoop_cons]
    simp [ByteMap.get_set, ByteMap.get_empty, hab, getOrMakeOutputsLoop]
  have hva : validateInputsAdvanced E
      (some ((ByteMap.empty.set a ⟨some pubKey, acc.Sequence, acc.Balance⟩).set b
        ((state.GetAccount b).getD freshAccount)))
      (SendTx.SignBytes E
        (transferTx gas fee a b coinsIn coinsOut GoInt.one sig (some pubKey))
        state.chainID).1
      [⟨a, coinsIn, GoInt.one, sig, some pubKey⟩] = .ret (Coins.Plus [] coinsIn, OK) := by
    have hget : ((ByteMap.empty.set a ⟨some pubKey, acc.Sequence, acc.Balance⟩).set b
        ((state.GetAccount b).getD freshAccount)).get a =
        some ⟨some pubKey, acc.Sequence, acc.Balance⟩ := by
      simp [ByteMap.get_set, ByteMap.get_empty, hab, Ne.symm hab]
    have hone : GoInt.add GoInt.zero GoInt.one = GoInt.one := by decide
    simp only [validateInputsAdvanced, validateInputsAdvancedLoop, Option.some_bind, hget]
    rw [validateInputAdvanced_eq E _ _ _ pubKey rfl]
    have hsig' := hsig
    simp only [State.GetChainID] at hsig'
    simp [hseq, hone, hgte, hsig', Result.IsErr_OK]
  obtain ⟨-, -, hok⟩ := execSendTx_stages E state
    (transferTx gas fee a b coinsIn coinsOut GoInt.one sig (some pubKey)) false
    (by simp [transferTx, validateInputsBasic, hi, Result.IsErr_OK])
    (by simp [transferTx, validateOutputsBasic, ho, Result.IsErr_OK])
    (by simp only [transferTx]; rw [hgi]; rfl)
    (by simp only [transferTx]; rw [hgi, hgo]; rfl) (Coins.Plus [] coinsIn) OK
    (by
      have := hva
      simp only [transferTx] at this ⊢
      rw [hgi, hgo]; exact this) rfl
  obtain ⟨state', hret, A⟩ := hok (by simpa [transferTx, sumOutputs, sumOutputsLoop] using htot)
  refine ⟨state', hret, ?_⟩
  have := A.atInputs ⟨a, coinsIn, GoInt.one, sig, some pubKey⟩ (List.mem_cons_self _ _) acc hacc
  rw [this]
  simp [inputAdjusted, installPubKey, hseq]
  decide

/-- The transfer `exSendTx`, whose input carries `exKey`, is such a transfer:
it is accepted from `exState` and `exAddrA` then stores `exKey`. -/
theorem ExecTx_send_any_key_accepted_witness :
    ∃ state', ExecTx refExt exState NewPlugins
        (.send (transferTx 0 ⟨"", 1⟩ exAddrA exAddrB [⟨"", 11⟩] [⟨"", 10⟩] GoInt.one
          (some exSig) (some exKey))) false = .ret (OK, state') ∧
      state'.GetAccount exAddrA =
        some { PubKey := some exKey, Sequence := GoInt.one,
               Balance := Coins.Minus [⟨"", 1000⟩, ⟨"gold", 1000⟩] [⟨"", 11⟩] } :=
  ExecTx_send_any_key_accepted refExt exState NewPlugins exAddrA exAddrB
    { PubKey := none, Sequence := GoInt.zero, Balance := [⟨"", 1000⟩, ⟨"gold", 1000⟩] }
    exKey (some exSig) [⟨"", 11⟩] [⟨"", 10⟩] ⟨"", 1⟩ 0 (by decide) (by decide) (by decide)
    (by decide) rfl (by decide) (by decide) (by decide) (by decide) (by decide) (by decide)
    (by decide)

/-! ## The stages of an application transaction -/

theorem execAppTx_eq (E : Ext) (state : State) (pgz : Plugins) (tx : AppTx)
    (isCheckTx : Bool) :
    execAppTx E state pgz tx isCheckTx =
      if tx.Input.ValidateBasic.IsErr = true then .ret (tx.Input.ValidateBasic, state)
      else
        match state.GetAccount tx.Input.Address with
        | none => .ret (ErrBaseUnknownAddress, state)
        | some acc =>
          match validateInputAdvanced E (installPubKey tx.Input acc)
              (tx.SignBytes E state.GetChainID).1 tx.Input with
          | .panic e => .panic e
          | .ret res =>
            if res.IsErr = true then
              .ret (res.PrependLog (.text "in validateInputAdvanced()"), state)
            else if tx.Input.Coins.IsGTE [tx.Fee] = false then
              .ret (ErrBaseInsufficientFunds, state)
            else
              match pgz.GetByName tx.Name with
              | none =>
                .ret (ErrBaseUnknownAddress.AppendLog
                  (.fmt "Unrecognized plugin name%v" [.str tx.Name]), state)
              | some plugin =>
                if isCheckTx = true then
                  .ret (OK, state.SetAccount tx.Input.Address (appDebited tx acc))
                else if (plugin.RunTx (appCache state tx acc).store (appContext tx acc)
                    tx.Data).1.IsOK = true then
                  .ret ((plugin.RunTx (appCache state tx acc).store (appContext tx acc)
                    tx.Data).1,
                    state.CacheSync
                      { chainID := (appCache state tx acc).chainID
                        store := (plugin.RunTx (appCache state tx acc).store
                          (appContext tx acc) tx.Data).2 })
                else
                  .ret ((plugin.RunTx (appCache state tx acc).store (appContext tx acc)
                    tx.Data).1,
                    state.SetAccount tx.Input.Address (appRefunded tx acc)) := by
  unfold execAppTx
  simp only [AppTx.SignBytes_keeps]
  cases h1 : tx.Input.ValidateBasic.IsErr
  swap
  · simp only [h1, if_true]
  simp only [h1, Bool.false_eq_true, if_false]
  cases hacc : state.GetAccount tx.Input.Address with
  | none => rfl
  | some acc =>
    simp only []
    have hinst : (if tx.Input.PubKey ≠ none then
        ({ acc with PubKey := tx.Input.PubKey } : Account) else acc) =
        installPubKey tx.Input acc := rfl
    rw [hinst]
    cases hv : validateInputAdvanced E (installPubKey tx.Input acc)
        (tx.SignBytes E state.GetChainID).1 tx.Input with
    | panic e => rfl
    | ret res =>
      simp only []
      cases h2 : res.IsErr
      swap
      · simp only [if_true]
      simp only [Bool.false_eq_true, if_false]
      cases h3 : tx.Input.Coins.IsGTE [tx.Fee]
      · simp
      simp only [Bool.not_true, Bool.false_eq_true, Bool.true_eq_false, if_false]
      cases hp : pgz.GetByName tx.Name with
      | none => rfl
      | some plugin =>
        simp only []
        cases isCheckTx
        · simp only [Bool.false_eq_true, if_false, installPubKey_Balance, installPubKey_Sequence]
          rfl
        · simp only [if_true, appDebited, installPubKey_Balance, installPubKey_Sequence]

/-- The application branch once every check before the plugin has passed. -/
theorem execAppTx_reached {E : Ext} {state : State} {pgz : Plugins} {tx : AppTx}
    {acc : Account} {plugin : Plugin} (h : AppReaches E state pgz tx acc plugin)
    (isCheckTx : Bool) :
    execAppTx E state pgz tx isCheckTx =
      if isCheckTx = true then
        .ret (OK, state.SetAccount tx.Input.Address (appDebited tx acc))
      else if (plugin.RunTx (appCache state tx acc).store (appContext tx acc)
          tx.Data).1.IsOK = true then
        .ret ((plugin.RunTx (appCache state tx acc).store (appContext tx acc) tx.Data).1,
          state.CacheSync
            { chainID := (appCache state tx acc).chainID
              store := (plugin.RunTx (appCache state tx acc).store
                (appContext tx acc) tx.Data).2 })
      else
        .ret ((plugin.RunTx (appCache state tx acc).store (appContext tx acc) tx.Data).1,
          state.SetAccount tx.Input.Address (appRefunded tx acc)) := by
  obtain ⟨res, hv, hres⟩ := h.advanced
  rw [execAppTx_eq]
  simp only [h.basic, Bool.false_eq_true, if_false, h.account, hv, hres, h.fee,
    Bool.true_eq_false, h.registered]

/-- The application branch when a check before the plugin fails, stage by
stage: the call returns an error and the state it was given. -/
theorem execAppTx_early_ret {E : Ext} {state : State} {pgz : Plugins} {tx : AppTx}
    (hfail : tx.Input.ValidateBasic.IsErr = true ∨
      state.GetAccount tx.Input.Address = none ∨
      ∃ acc r, state.GetAccount tx.Input.Address = some acc ∧
        validateInputAdvanced E (installPubKey tx.Input acc)
          (tx.SignBytes E state.GetChainID).1 tx.Input = .ret r ∧
        (r.IsErr = true ∨ tx.Input.Coins.IsGTE [tx.Fee] = false ∨
          pgz.GetByName tx.Name = none))
    (isCheckTx : Bool) :
    ∃ res, execAppTx E state pgz tx isCheckTx = .ret (res, state) ∧ res.IsErr = true := by
  rw [execAppTx_eq]
  cases h1 : tx.Input.ValidateBasic.IsErr
  swap
  · simp only [if_true]
    exact ⟨_, rfl, h1⟩
  simp only [Bool.false_eq_true, if_false]
  cases hacc : state.GetAccount tx.Input.Address with
  | none => exact ⟨ErrBaseUnknownAddress, rfl, by decide⟩
  | some acc =>
    rcases hfail with hf | hf | ⟨a, r, ha, hv, hf⟩
    · rw [h1] at hf; cases hf
    · rw [hacc] at hf; cases hf
    · rw [hacc] at ha
      cases ha
      simp only [hv]
      cases h2 : r.IsErr
      swap
      · simp only [if_true]
        exact ⟨_, rfl, h2⟩
      simp only [Bool.false_eq_true, if_false]
      cases h3 : tx.Input.Coins.IsGTE [tx.Fee]
      · simp only [if_true]
        exact ⟨ErrBaseInsufficientFunds, rfl, by decide⟩
      simp only [Bool.true_eq_false, if_false]
      cases hp : pgz.GetByName tx.Name with
      | none =>
        exact ⟨ErrBaseUnknownAddress.AppendLog (.fmt "Unrecognized plugin name%v" [.str tx.Name]),
          rfl, by rw [Result.IsErr_AppendLog]; decide⟩
      | some plugin =>
        rcases hf with hf | hf | hf
        · rw [h2] at hf; cases hf
        · rw [h3] at hf; cases hf
        · rw [hp] at hf; cases hf

theorem AppReaches.input_OK {E : Ext} {state : State} {pgz : Plugins} {tx : AppTx}
    {acc : Account} {plugin : Plugin} (h : AppReaches E state pgz tx acc plugin) :
    tx.Input.ValidateBasic = OK :=
  TxInput.ValidateBasic_input_not_err tx.Input h.basic

theorem AppReaches.coins_valid {E : Ext} {state : State} {pgz : Plugins} {tx : AppTx}
    {acc : Account} {plugin : Plugin} (h : AppReaches E state pgz tx acc plugin) :
    tx.Input.Coins.IsValid = true :=
  ((TxInput.ValidateBasic_input_OK_iff tx.Input).mp h.input_OK).2.1

theorem AppReaches.balance_covers {E : Ext} {state : State} {pgz : Plugins} {tx : AppTx}
    {acc : Account} {plugin : Plugin} (h : AppReaches E state pgz tx acc plugin) :
    acc.Balance.IsGTE tx.Input.Coins = true := by
  obtain ⟨res, hv, hres⟩ := h.advanced
  have := (validateInputAdvanced_not_err E _ _ _ res hv hres).2.1
  rwa [installPubKey_Balance] at this

theorem AppReaches.sequence_next {E : Ext} {state : State} {pgz : Plugins} {tx : AppTx}
    {acc : Account} {plugin : Plugin} (h : AppReaches E state pgz tx acc plugin) :
    (appDebited tx acc).Sequence = tx.Input.Sequence ∧
      tx.Input.Sequence.val = acc.Sequence.val + 1 := by
  obtain ⟨res, hv, hres⟩ := h.advanced
  have hs := (validateInputAdvanced_not_err E _ _ _ res hv hres).1
  rw [installPubKey_Sequence] at hs
  exact ⟨hs, GoInt.add_one_val _ _ hs
    ((TxInput.ValidateBasic_input_OK_iff tx.Input).mp h.input_OK).2.2.2.1⟩

theorem appDebited_PubKey (tx : AppTx) (acc : Account) :
    (appDebited tx acc).PubKey =
      if tx.Input.PubKey ≠ none then tx.Input.PubKey else acc.PubKey := by
  unfold appDebited installPubKey
  split_ifs <;> rfl

/-- The transaction `exAppTx` for the plugin "ok", with 11 of the denom "" and
fee 1, reaches the plugin from `exState`. -/
theorem exAppTx_reaches_ok :
    AppReaches refExt exState exPlugins (exAppTx "ok" [⟨"", 11⟩] ⟨"", 1⟩) exAccount
      exPluginOK :=
  ⟨by decide, by decide, ⟨OK, by decide, by decide⟩, by decide, rfl⟩

/-- The transaction `exAppTx` for the plugin "fail", with 11 of the denom ""
and fee 1, reaches the plugin from `exState`. -/
theorem exAppTx_reaches_fail :
    AppReaches refExt exState exPlugins (exAppTx "fail" [⟨"", 11⟩] ⟨"", 1⟩) exAccount
      exPluginFail :=
  ⟨by decide, by decide, ⟨OK, by decide, by decide⟩, by decide, rfl⟩

/-! ## Application transactions -/

/-- C14. When `ExecTx` on an application transaction fails before the plugin
is invoked, that is when the input fails `ValidateBasic`, or the input account
is missing, or `validateInputAdvanced` returns an error, or the input coins do
not cover the fee, or no plugin is registered under the name, it returns an
error result together with the state it was given, in check mode and in
deliver mode: no account is written, so the sequence and the balance of the
input account are what they were. -/
theorem ExecTx_app_early_failure_keeps_state (E : Ext) (state : State) (pgz : Plugins)
    (tx : AppTx) (isCheckTx : Bool)
    (hfail : tx.Input.ValidateBasic.IsErr = true ∨
      state.GetAccount tx.Input.Address = none ∨
      ∃ acc r, state.GetAccount tx.Input.Address = some acc ∧
        validateInputAdvanced E (installPubKey tx.Input acc)
          (tx.SignBytes E state.GetChainID).1 tx.Input = .ret r ∧
        (r.IsErr = true ∨ tx.Input.Coins.IsGTE [tx.Fee] = false ∨
          pgz.GetByName tx.Name = none)) :
    ∃ res, ExecTx E state pgz (.app tx) isCheckTx = .ret (res, state) ∧
      res.IsErr = true :=
  execAppTx_early_ret hfail isCheckTx

/-- C14, on a transaction from `exState` that covers its fee of 1 with 11 of
the denom "" and names a plugin that is not registered. -/
theorem ExecTx_app_early_failure_keeps_state_witness :
    exPlugins.GetByName "nosuch" = none ∧
    ∃ res, ExecTx refExt exState exPlugins (.app (exAppTx "nosuch" [⟨"", 11⟩] ⟨"", 1⟩))
        false = .ret (res, exState) ∧
      res.IsErr = true :=
  ⟨rfl, ExecTx_app_early_failure_keeps_state refExt exState exPlugins
    (exAppTx "nosuch" [⟨"", 11⟩] ⟨"", 1⟩) false
    (Or.inr (Or.inr ⟨exAccount, OK, by decide, by decide, Or.inr (Or.inr rfl)⟩))⟩

/-- C16. When an application transaction passes basic validation, the account
lookup, advanced validation and the fee-coverage check and no plugin is
registered under its name, `ExecTx` returns, in both modes and with the state
it was given, the result of code `BaseUnknownAddress` whose log is that of the
error constant with "Unrecognized plugin name" appended, the name following
with nothing in between. -/
theorem ExecTx_app_unknown_plugin (E : Ext) (state : State) (pgz : Plugins) (tx : AppTx)
    (isCheckTx : Bool) (acc : Account) (r : Result)
    (hbasic : tx.Input.ValidateBasic.IsErr = false)
    (hacc : state.GetAccount tx.Input.Address = some acc)
    (hadv : validateInputAdvanced E (installPubKey tx.Input acc)
      (tx.SignBytes E state.GetChainID).1 tx.Input = .ret r)
    (hr : r.IsErr = false)
    (hfee : tx.Input.Coins.IsGTE [tx.Fee] = true)
    (hname : pgz.GetByName tx.Name = none) :
    ExecTx E state pgz (.app tx) isCheckTx =
      .ret ({ Code := .BaseUnknownAddress, Data := [],
              Log := [.canned .BaseUnknownAddress,
                .fmt "Unrecognized plugin name%v" [.str tx.Name]] }, state) := by
  show execAppTx E state pgz tx isCheckTx = _
  rw [execAppTx_eq]
  simp only [hbasic, Bool.false_eq_true, if_false, hacc, hadv, hr, hfee,
    Bool.true_eq_false, hname]
  rfl

/-- C16, on a transaction from `exState` for the name "nosuch". -/
theorem ExecTx_app_unknown_plugin_witness :
    ExecTx refExt exState exPlugins (.app (exAppTx "nosuch" [⟨"", 11⟩] ⟨"", 1⟩)) true =
      .ret ({ Code := .BaseUnknownAddress, Data := [],
              Log := [.canned .BaseUnknownAddress,
                .fmt "Unrecognized plugin name%v" [.str "nosuch"]] }, exState) :=
  ExecTx_app_unknown_plugin refExt exState exPlugins (exAppTx "nosuch" [⟨"", 11⟩] ⟨"", 1⟩)
    true exAccount OK (by decide) (by decide) (by decide) (by decide) (by decide) rfl

/-- C17. When an application transaction passes all validation and names a
registered plugin, `ExecTx` in check mode returns OK, and the state it leaves
is the state it was given with one write: the input account stored under the
input address with balance reduced by the full input coins, sequence
increased by 1 and the pub_key of the input when the input carries one. The
`RunTx` of the plugin is not applied: the outcome is the same whatever plugin
is registered under the name. -/
theorem ExecTx_app_check_mode (E : Ext) (state : State) (pgz : Plugins) (tx : AppTx)
    (acc : Account) (plugin : Plugin) (h : AppReaches E state pgz tx acc plugin) :
    ExecTx E state pgz (.app tx) true =
      .ret (OK, state.SetAccount tx.Input.Address (appDebited tx acc)) ∧
    (appDebited tx acc).Balance = acc.Balance.Minus tx.Input.Coins ∧
    (appDebited tx acc).Sequence.val = acc.Sequence.val + 1 ∧
    (appDebited tx acc).PubKey =
      (if tx.Input.PubKey ≠ none then tx.Input.PubKey else acc.PubKey) ∧
    ∀ (pgz' : Plugins) (plugin' : Plugin), pgz'.GetByName tx.Name = some plugin' →
      ExecTx E state pgz' (.app tx) true = ExecTx E state pgz (.app tx) true := by
  have hrun : ∀ (pgz' : Plugins) (plugin' : Plugin), pgz'.GetByName tx.Name = some plugin' →
      ExecTx E state pgz' (.app tx) true =
        .ret (OK, state.SetAccount tx.Input.Address (appDebited tx acc)) := by
    intro pgz' plugin' hp
    have h' : AppReaches E state pgz' tx acc plugin' :=
      ⟨h.basic, h.account, h.advanced, h.fee, hp⟩
    show execAppTx E state pgz' tx true = _
    rw [execAppTx_reached h']
    rfl
  refine ⟨hrun pgz plugin h.registered, rfl, ?_, appDebited_PubKey tx acc, ?_⟩
  · rw [h.sequence_next.1]; exact h.sequence_next.2
  · intro pgz' plugin' hp
    rw [hrun pgz' plugin' hp, hrun pgz plugin h.registered]

/-- C17, on the transaction `exAppTx` from `exState` for the plugin "fail",
which rejects every transaction it is run on. -/
theorem ExecTx_app_check_mode_witness :
    ExecTx refExt exState exPlugins (.app (exAppTx "fail" [⟨"", 11⟩] ⟨"", 1⟩)) true =
      .ret (OK, exState.SetAccount exAddrA
        { PubKey := some exKey, Sequence := GoInt.one,
          Balance := [⟨"", 989⟩, ⟨"gold", 1000⟩] }) :=
  (ExecTx_app_check_mode refExt exState exPlugins (exAppTx "fail" [⟨"", 11⟩] ⟨"", 1⟩)
    exAccount exPluginFail exAppTx_reaches_fail).1.trans (by decide)

/-- C19. When `ExecTx` in deliver mode reaches the plugin of an application
transaction, its outcome is that of one application of the `RunTx` of the
plugin to the transaction data, with a call context whose caller address is
the input address, whose coins are the input coins minus the fee, and whose
caller account has the stored balance minus the full input coins and the
stored sequence plus 1; the store given to the plugin is that of a cache of
the state in which this account is written under the input address. -/
theorem ExecTx_app_plugin_call (E : Ext) (state : State) (pgz : Plugins) (tx : AppTx)
    (acc : Account) (plugin : Plugin) (h : AppReaches E state pgz tx acc plugin) :
    (∃ out, out = plugin.RunTx (appCache state tx acc).store (appContext tx acc) tx.Data ∧
      ExecTx E state pgz (.app tx) false =
        if out.1.IsOK = true then
          .ret (out.1, state.CacheSync { appCache state tx acc with store := out.2 })
        else .ret (out.1, state.SetAccount tx.Input.Address (appRefunded tx acc))) ∧
    (appContext tx acc).CallerAddress = tx.Input.Address ∧
    (appContext tx acc).Coins = tx.Input.Coins.Minus [tx.Fee] ∧
    (appContext tx acc).CallerAccount.Balance = acc.Balance.Minus tx.Input.Coins ∧
    (appContext tx acc).CallerAccount.Sequence.val = acc.Sequence.val + 1 ∧
    (appCache state tx acc).GetAccount tx.Input.Address =
      some (appContext tx acc).CallerAccount ∧
    (∀ a, a ≠ tx.Input.Address → (appCache state tx acc).GetAccount a = state.GetAccount a) ∧
    (appCache state tx acc).store.data = state.store.data ∧
    (appCache state tx acc).GetChainID = state.GetChainID := by
  refine ⟨⟨_, rfl, ?_⟩, rfl, rfl, rfl, ?_, ?_, ?_, rfl, rfl⟩
  · show execAppTx E state pgz tx false = _
    rw [execAppTx_reached h]
    rfl
  · show (appDebited tx acc).Sequence.val = _
    rw [h.sequence_next.1]; exact h.sequence_next.2
  · exact ByteMap.get_set_self _ _ _
  · intro a ha
    exact ByteMap.get_set_ne _ _ (Ne.symm ha)

/-- C19, on the transaction `exAppTx` from `exState` for the plugin "ok": the
plugin is given the coins 10 of the denom "" and the caller account holding
989 at sequence 1. -/
theorem ExecTx_app_plugin_call_witness :
    appContext (exAppTx "ok" [⟨"", 11⟩] ⟨"", 1⟩) exAccount =
      { CallerAddress := exAddrA,
        CallerAccount := { PubKey := some exKey, Sequence := GoInt.one,
                           Balance := [⟨"", 989⟩, ⟨"gold", 1000⟩] },
        Coins := [⟨"", 10⟩] } ∧
    (appContext (exAppTx "ok" [⟨"", 11⟩] ⟨"", 1⟩) exAccount).CallerAccount.Sequence.val =
      exAccount.Sequence.val + 1 :=
  ⟨by decide, (ExecTx_app_plugin_call refExt exState exPlugins
    (exAppTx "ok" [⟨"", 11⟩] ⟨"", 1⟩) exAccount exPluginOK exAppTx_reaches_ok).2.2.2.2.1⟩

/-- C13. When `ExecTx` in deliver mode reaches the plugin of an application
transaction and `RunTx` returns OK, `ExecTx` returns the result of the plugin
as it is, and the store of the state it leaves is the store the plugin left,
so every write of the plugin is published; if the plugin left the record of
the caller as it was given, the caller is stored with its balance minus the
full input coins, nothing of the forwarded coins being refunded, and its
sequence plus 1. -/
theorem ExecTx_app_plugin_ok (E : Ext) (state : State) (pgz : Plugins) (tx : AppTx)
    (acc : Account) (plugin : Plugin) (h : AppReaches E state pgz tx acc plugin)
    (hok : (plugin.RunTx (appCache state tx acc).store (appContext tx acc) tx.Data).1.IsOK =
      true) :
    ∃ state', ExecTx E state pgz (.app tx) false =
        .ret ((plugin.RunTx (appCache state tx acc).store (appContext tx acc) tx.Data).1,
          state') ∧
      state'.store =
        (plugin.RunTx (appCache state tx acc).store (appContext tx acc) tx.Data).2 ∧
      state'.GetChainID = state.GetChainID ∧
      ((plugin.RunTx (appCache state tx acc).store (appContext tx acc)
          tx.Data).2.accounts.get tx.Input.Address =
          (appCache state tx acc).store.accounts.get tx.Input.Address →
        ∃ acc', state'.GetAccount tx.Input.Address = some acc' ∧
          acc'.Balance = acc.Balance.Minus tx.Input.Coins ∧
          acc'.Sequence.val = acc.Sequence.val + 1) := by
  have hrun := execAppTx_reached h false
  simp only [Bool.false_eq_true, if_false, hok, if_true] at hrun
  refine ⟨_, hrun, rfl, rfl, ?_⟩
  intro hkeep
  refine ⟨appDebited tx acc, ?_, rfl, ?_⟩
  · show (plugin.RunTx (appCache state tx acc).store (appContext tx acc)
      tx.Data).2.accounts.get tx.Input.Address = _
    rw [hkeep]
    exact ByteMap.get_set_self _ _ _
  · rw [h.sequence_next.1]; exact h.sequence_next.2

/-- C13, on the transaction `exAppTx` from `exState` for the plugin "ok",
which stores the transaction data under the key `[0]`: the record is in the
state afterwards, and the caller holds 989 of the denom "", nothing of the 10
forwarded coming back. -/
theorem ExecTx_app_plugin_ok_witness :
    ∃ state', ExecTx refExt exState exPlugins (.app (exAppTx "ok" [⟨"", 11⟩] ⟨"", 1⟩))
        false = .ret (OK, state') ∧
      state'.store.data.get [0] = some [1, 1] ∧
      ∃ acc', state'.GetAccount exAddrA = some acc' ∧
        acc'.Balance = [⟨"", 989⟩, ⟨"gold", 1000⟩] ∧ acc'.Sequence.val = 1 := by
  obtain ⟨state', h1, h2, -, h4⟩ := ExecTx_app_plugin_ok refExt exState exPlugins
    (exAppTx "ok" [⟨"", 11⟩] ⟨"", 1⟩) exAccount exPluginOK exAppTx_reaches_ok (by decide)
  obtain ⟨acc', ha, hb, hs⟩ := h4 (by decide)
  refine ⟨state', h1, ?_, acc', ha, hb.trans (by decide), hs⟩
  rw [h2]
  decide

/-- C15. When the input of an application transaction passes `ValidateBasic`,
its account exists and it passes `validateInputAdvanced`: if the input coins
are not `IsGTE` the one-coin sequence of the fee, `ExecTx` returns
`ErrBaseInsufficientFunds` with the state it was given, in check mode and in
deliver mode, whatever the plugin name; if the input coins are exactly the
one-coin sequence of the fee, the check passes and the plugin, in deliver
mode, is run with a call context whose coins are empty. -/
theorem ExecTx_app_fee_coverage (E : Ext) (state : State) (pgz : Plugins) (tx : AppTx)
    (acc : Account) (r : Result)
    (hbasic : tx.Input.ValidateBasic.IsErr = false)
    (hacc : state.GetAccount tx.Input.Address = some acc)
    (hadv : validateInputAdvanced E (installPubKey tx.Input acc)
      (tx.SignBytes E state.GetChainID).1 tx.Input = .ret r)
    (hr : r.IsErr = false) :
    (tx.Input.Coins.IsGTE [tx.Fee] = false →
      ∀ isCheckTx, ExecTx E state pgz (.app tx) isCheckTx =
        .ret (ErrBaseInsufficientFunds, state)) ∧
    (tx.Input.Coins = [tx.Fee] →
      tx.Input.Coins.IsGTE [tx.Fee] = true ∧
      tx.Input.Coins.Minus [tx.Fee] = [] ∧
      ∀ plugin, pgz.GetByName tx.Name = some plugin →
        ∃ out, out = plugin.RunTx (appCache state tx acc).store
            (NewCallContext tx.Input.Address (appDebited tx acc) []) tx.Data ∧
          ExecTx E state pgz (.app tx) false =
            if out.1.IsOK = true then
              .ret (out.1, state.CacheSync { appCache state tx acc with store := out.2 })
            else .ret (out.1, state.SetAccount tx.Input.Address (appRefunded tx acc))) := by
  constructor
  · intro hfee isCheckTx
    show execAppTx E state pgz tx isCheckTx = _
    rw [execAppTx_eq]
    simp only [hbasic, Bool.false_eq_true, if_false, hacc, hadv, hr, hfee, if_true]
  · intro hc
    have hgte : tx.Input.Coins.IsGTE [tx.Fee] = true := by
      rw [hc]
      simp [Coins.IsGTE]
    have hminus : tx.Input.Coins.Minus [tx.Fee] = [] := by
      rw [hc]
      exact Coins.Minus_self_singleton tx.Fee
    refine ⟨hgte, hminus, ?_⟩
    intro plugin hp
    have hreach : AppReaches E state pgz tx acc plugin := ⟨hbasic, hacc, ⟨r, hadv, hr⟩, hgte, hp⟩
    have hctx : NewCallContext tx.Input.Address (appDebited tx acc) [] = appContext tx acc := by
      unfold appContext appForwarded
      rw [hminus]
    refine ⟨_, rfl, ?_⟩
    rw [hctx]
    show execAppTx E state pgz tx false = _
    rw [execAppTx_reached hreach]
    rfl

/-- C15, on two transactions from `exState` for the plugin "ok": with 1 of
the denom "" against a fee of 2 the result is `ErrBaseInsufficientFunds`; with
1 against a fee of 1 the check passes and nothing is forwarded. -/
theorem ExecTx_app_fee_coverage_witness :
    ExecTx refExt exState exPlugins (.app (exAppTx "ok" [⟨"", 1⟩] ⟨"", 2⟩)) false =
      .ret (ErrBaseInsufficientFunds, exState) ∧
    Coins.Minus (exAppTx "ok" [⟨"", 1⟩] ⟨"", 1⟩).Input.Coins
      [(exAppTx "ok" [⟨"", 1⟩] ⟨"", 1⟩).Fee] = [] :=
  ⟨(ExecTx_app_fee_coverage refExt exState exPlugins (exAppTx "ok" [⟨"", 1⟩] ⟨"", 2⟩)
      exAccount OK (by decide) (by decide) (by decide) (by decide)).1 (by decide) false,
    ((ExecTx_app_fee_coverage refExt exState exPlugins (exAppTx "ok" [⟨"", 1⟩] ⟨"", 1⟩)
      exAccount OK (by decide) (by decide) (by decide) (by decide)).2 rfl).2.1⟩

/-! ## The denoms of a coin sequence -/

theorem Coins.hasDenom_nil (d : String) : ¬ Coins.hasDenom [] d := by
  rintro ⟨c, hc, -⟩
  cases hc

theorem Coins.hasDenom_cons (c : Coin) (l : Coins) (d : String) :
    Coins.hasDenom (c :: l) d ↔ c.Denom = d ∨ Coins.hasDenom l d := by
  unfold Coins.hasDenom
  simp only [List.mem_cons, exists_eq_or_imp]

theorem Coins.not_hasDenom_of_lt {l : Coins} {d : String} (h : ∀ c ∈ l, d < c.Denom) :
    ¬ Coins.hasDenom l d := by
  rintro ⟨c, hc, rfl⟩
  exact lt_irrefl _ (h c hc)

theorem Coins.Sorted.not_hasDenom_tail {x : Coin} {t : Coins} (h : Coins.Sorted (x :: t)) :
    ¬ Coins.hasDenom t x.Denom :=
  Coins.not_hasDenom_of_lt (h.head_lt)

theorem Coins.amountOf_of_not_hasDenom {l : Coins} {d : String} (h : ¬ Coins.hasDenom l d) :
    Coins.amountOf l d = 0 :=
  Coins.amountOf_eq_zero_of_not_mem l d (fun c hc e => h ⟨c, hc, e⟩)

theorem Coins.hasDenom_of_amountOf_ne_zero {l : Coins} {d : String}
    (h : Coins.amountOf l d ≠ 0) : Coins.hasDenom l d :=
  Coins.mem_of_amountOf_ne_zero l d h

theorem Coins.hasDenom_addCoin (c : Coin) {l : Coins} (h : Coins.Sorted l) (d : String) :
    Coins.hasDenom (Coins.addCoin c l) d ↔
      (c.Denom = d ∧
        (¬ Coins.hasDenom l d ∨ wrap64 (Coins.amountOf l d + c.Amount.val) ≠ 0)) ∨
      (c.Denom ≠ d ∧ Coins.hasDenom l d) := by
  induction l with
  | nil =>
    simp only [Coins.addCoin, Coins.hasDenom_cons, Coins.hasDenom_nil, or_false, not_false_eq_true,
      true_or, and_true, and_false]
  | cons x t ih =>
    simp only [Coins.addCoin]
    by_cases h1 : denomLt c.Denom x.Denom
    · simp only [h1, if_true]
      rw [denomLt_iff] at h1
      have hno : ¬ Coins.hasDenom (x :: t) c.Denom :=
        Coins.not_hasDenom_of_lt (fun y hy => by
          rcases List.mem_cons.mp hy with rfl | hy
          · exact h1
          · exact lt_trans h1 (h.head_lt y hy))
      rw [Coins.hasDenom_cons c (x :: t)]
      by_cases h2 : c.Denom = d
      · subst h2
        simp only [hno, not_false_eq_true, true_or, and_true, or_false, ne_eq, not_true,
          false_and]
      · simp only [h2, false_or, false_and, ne_eq, not_false_eq_true, true_and]
    · simp only [h1, if_false]
      by_cases h2 : c.Denom = x.Denom
      · simp only [h2, if_true]
        have hno := h.not_hasDenom_tail
        by_cases h3 : (GoInt.add x.Amount c.Amount).val = 0
        · simp only [h3, if_true]
          rw [GoInt.add_val] at h3
          by_cases h4 : x.Denom = d
          · subst h4
            simp only [hno, Coins.hasDenom_cons, true_or, not_true, false_or, Coins.amountOf,
              if_true, h3, ne_eq, and_false, true_and, false_and]
          · simp only [h4, Coins.hasDenom_cons, false_or, false_and, ne_eq, not_false_eq_true,
              true_and]
        · simp only [h3, if_false]
          rw [GoInt.add_val] at h3
          by_cases h4 : x.Denom = d
          · subst h4
            simp only [Coins.hasDenom_cons, true_or, Coins.amountOf, if_true, ne_eq, h3,
              not_false_eq_true, or_true, and_self, not_true, false_and, or_false]
          · simp only [h4, Coins.hasDenom_cons, false_or, false_and, ne_eq, not_false_eq_true,
              true_and]
      · simp only [h2, if_false]
        rw [Coins.hasDenom_cons, ih h.tail]
        by_cases h4 : x.Denom = d
        · have hcd : ¬ c.Denom = d := fun e => h2 (e.trans h4.symm)
          simp only [h4, true_or, hcd, false_and, ne_eq, not_false_eq_true, Coins.hasDenom_cons,
            and_self, or_true]
        · simp only [h4, false_or, Coins.hasDenom_cons, Coins.amountOf, if_false]

/-- Two denom-ordered coin sequences with the same denoms and the same amount
of every denom are equal. -/
theorem Coins.ext_of_denoms {a b : Coins} (ha : Coins.Sorted a) (hb : Coins.Sorted b)
    (hden : ∀ d, Coins.hasDenom a d ↔ Coins.hasDenom b d)
    (hamt : ∀ d, Coins.amountOf a d = Coins.amountOf b d) : a = b := by
  induction a generalizing b with
  | nil =>
    cases b with
    | nil => rfl
    | cons y tb =>
      exact absurd ((hden y.Denom).mpr ⟨y, List.mem_cons_self _ _, rfl⟩)
        (Coins.hasDenom_nil _)
  | cons x ta ih =>
    cases b with
    | nil =>
      exact absurd ((hden x.Denom).mp ⟨x, List.mem_cons_self _ _, rfl⟩)
        (Coins.hasDenom_nil _)
    | cons y tb =>
      have hd : x.Denom = y.Denom := by
        rcases lt_trichotomy x.Denom y.Denom with h1 | h1 | h1
        · refine absurd ((hden x.Denom).mp ⟨x, List.mem_cons_self _ _, rfl⟩)
            (Coins.not_hasDenom_of_lt (fun z hz => ?_))
          rcases List.mem_cons.mp hz with rfl | hz
          · exact h1
          · exact lt_trans h1 (hb.head_lt z hz)
        · exact h1
        · refine absurd ((hden y.Denom).mpr ⟨y, List.mem_cons_self _ _, rfl⟩)
            (Coins.not_hasDenom_of_lt (fun z hz => ?_))
          rcases List.mem_cons.mp hz with rfl | hz
          · exact h1
          · exact lt_trans h1 (ha.head_lt z hz)
      have hxy : x = y := by
        have hval : x.Amount = y.Amount := by
          have := hamt x.Denom
          exact Subtype.ext (by simpa [Coins.amountOf, hd] using this)
        cases x; cases y
        simp only [Coin.mk.injEq]
        exact ⟨hd, hval⟩
      subst hxy
      have hden' : ∀ d, Coins.hasDenom ta d ↔ Coins.hasDenom tb d := by
        intro d
        by_cases hdx : x.Denom = d
        · subst hdx
          simp only [ha.not_hasDenom_tail, hb.not_hasDenom_tail]
        · have := hden d
          simpa [Coins.hasDenom_cons, hdx] using this
      have hamt' : ∀ d, Coins.amountOf ta d = Coins.amountOf tb d := by
        intro d
        by_cases hdx : x.Denom = d
        · subst hdx
          rw [Coins.amountOf_tail_head ha, Coins.amountOf_tail_head hb]
        · have := hamt d
          simpa [Coins.amountOf, hdx] using this
      rw [ih ha.tail hb.tail hden' hamt']

theorem Coins.hasDenom_Plus {a b : Coins} (ha : Coins.Sorted a) (hb : Coins.Sorted b)
    (d : String) :
    Coins.hasDenom (Coins.Plus a b) d ↔
      (Coins.hasDenom b d ∧
        (¬ Coins.hasDenom a d ∨ wrap64 (Coins.amountOf a d + Coins.amountOf b d) ≠ 0)) ∨
      (¬ Coins.hasDenom b d ∧ Coins.hasDenom a d) := by
  induction b generalizing a with
  | nil =>
    have hstep : Coins.Plus a [] = a := rfl
    simp only [hstep, Coins.hasDenom_nil, false_and, not_false_eq_true, true_and, false_or]
  | cons c t ih =>
    have hstep : Coins.Plus a (c :: t) = Coins.Plus (Coins.addCoin c a) t := rfl
    rw [hstep, ih (Coins.Sorted.addCoinSorted c ha) hb.tail, Coins.hasDenom_addCoin c ha,
      Coins.amountOf_addCoin c ha, Coins.hasDenom_cons]
    by_cases hc : c.Denom = d
    · subst hc
      have hno := hb.not_hasDenom_tail
      simp only [hno, false_and, not_false_eq_true, true_and, false_or, true_or, ne_eq,
        not_true, or_false, Coins.amountOf, if_true]
    · simp only [hc, false_and, false_or, ne_eq, not_false_eq_true, true_and, if_false,
        add_zero, Coins.amountOf, Coins.wrap64_amountOf]

theorem Coins.hasDenom_Negative (l : Coins) (d : String) :
    Coins.hasDenom (Coins.Negative l) d ↔ Coins.hasDenom l d := by
  unfold Coins.hasDenom Coins.Negative
  simp only [List.mem_map, exists_exists_and_eq_and]

theorem Coins.hasDenom_iff_pos {l : Coins} (h : Coins.IsValid l = true) (d : String) :
    Coins.hasDenom l d ↔ 0 < Coins.amountOf l d := by
  obtain ⟨hs, hp⟩ := (Coins.IsValid_iff l).mp h
  constructor
  · rintro ⟨c, hc, rfl⟩
    rw [Coins.amountOf_mem hs hc]
    exact hp c hc
  · intro hpos
    exact Coins.hasDenom_of_amountOf_ne_zero (ne_of_gt hpos)

/-- Taking coins from a balance and giving back the coins less a fee leaves
the balance less the fee, also for a fee of amount zero. -/
theorem Coins.Minus_Plus_refund {bal coins : Coins} (fee : Coin)
    (hbal : Coins.IsValid bal = true) (hcoins : Coins.IsValid coins = true)
    (hgte : Coins.IsGTE bal coins = true) (hfee : Coins.IsGTE coins [fee] = true) :
    (bal.Minus coins).Plus (coins.Minus [fee]) = bal.Minus [fee] := by
  have hsb := Coins.sorted_of_IsValid hbal
  have hsc := Coins.sorted_of_IsValid hcoins
  have hsf : Coins.Sorted (Coins.Negative [fee]) := List.pairwise_singleton _ _
  have hsx : Coins.Sorted (bal.Minus coins) := Coins.Sorted.plusSorted _ hsb
  have hsy : Coins.Sorted (coins.Minus [fee]) := Coins.Sorted.plusSorted _ hsc
  have hamt : ∀ d, Coins.amountOf ((bal.Minus coins).Plus (coins.Minus [fee])) d =
      Coins.amountOf (bal.Minus [fee]) d := by
    intro d
    rw [Coins.amountOf_Plus hsx hsy, Coins.amountOf_Minus hsb hsc,
      Coins.amountOf_Minus hsc (List.pairwise_singleton _ _),
      Coins.amountOf_Minus hsb (List.pairwise_singleton _ _)]
    unfold wrap64
    omega
  refine Coins.ext_of_denoms (Coins.Sorted.plusSorted _ hsx) (Coins.Sorted.plusSorted _ hsb)
    ?_ hamt
  intro d
  have hA := Coins.hasDenom_iff_pos hbal d
  have hC := Coins.hasDenom_iff_pos hcoins d
  have hA0 := Coins.amountOf_nonneg_of_IsValid hbal d
  have hC0 := Coins.amountOf_nonneg_of_IsValid hcoins d
  have hCA := Coins.IsGTE_amountOf hgte d
  have hF := Coins.IsGTE_amountOf hfee d
  have hAr := Coins.amountOf_range bal d
  have hFr := fee.Amount.property
  rw [Coins.hasDenom_Plus hsx hsy]
  unfold Coins.Minus at hsx hsy ⊢
  simp only [Coins.hasDenom_Plus hsb hsc.negSorted, Coins.hasDenom_Plus hsc hsf,
    Coins.hasDenom_Plus hsb hsf, Coins.amountOf_Plus hsb hsc.negSorted,
    Coins.amountOf_Plus hsc hsf, Coins.hasDenom_Negative, Coins.amountOf_Negative,
    Coins.hasDenom_cons, Coins.hasDenom_nil, or_false, hA, hC]
  by_cases hd : fee.Denom = d
  · have hfd : Coins.amountOf [fee] d = fee.Amount.val := by
      simp only [Coins.amountOf, hd, if_true]
    rw [hfd] at hF ⊢
    simp only [hd, true_and, not_true, false_and, or_false]
    unfold wrap64
    omega
  · have hfd : Coins.amountOf [fee] d = 0 := by
      simp only [Coins.amountOf, hd, if_false]
    rw [hfd]
    simp only [hd, false_and, not_false_eq_true, true_and, false_or]
    unfold wrap64
    omega

/-! ## A plugin that returns an error -/

theorem appRefunded_Balance {E : Ext} {state : State} {pgz : Plugins} {tx : AppTx}
    {acc : Account} {plugin : Plugin} (h : AppReaches E state pgz tx acc plugin)
    (hbal : acc.Balance.IsValid = true) :
    (appRefunded tx acc).Balance = acc.Balance.Minus [tx.Fee] :=
  Coins.Minus_Plus_refund tx.Fee hbal h.coins_valid h.balance_covers h.fee

/-- C12, amended. When `ExecTx` in deliver mode reaches the plugin of an
application transaction from an account whose stored balance is a valid coin
sequence, and `RunTx` returns an error, `ExecTx` returns the result of the
plugin, and the state it leaves is the state it was given with one write, that
of the caller: its balance is the balance before minus the one-coin sequence
of the fee, the forwarded coins being refunded in full, and its sequence is
the sequence before plus 1. Nothing the plugin wrote to its cache store is in
that state: the other accounts and the other records are those of the state
before. -/
theorem ExecTx_app_plugin_error (E : Ext) (state : State) (pgz : Plugins) (tx : AppTx)
    (acc : Account) (plugin : Plugin) (h : AppReaches E state pgz tx acc plugin)
    (hbal : acc.Balance.IsValid = true)
    (herr : (plugin.RunTx (appCache state tx acc).store (appContext tx acc) tx.Data).1.IsErr =
      true) :
    ∃ state' acc', ExecTx E state pgz (.app tx) false =
        .ret ((plugin.RunTx (appCache state tx acc).store (appContext tx acc) tx.Data).1,
          state') ∧
      state' = state.SetAccount tx.Input.Address acc' ∧
      state'.GetAccount tx.Input.Address = some acc' ∧
      acc'.Balance = acc.Balance.Minus [tx.Fee] ∧
      acc'.Sequence.val = acc.Sequence.val + 1 ∧
      (∀ a, a ≠ tx.Input.Address → state'.GetAccount a = state.GetAccount a) ∧
      state'.store.data = state.store.data ∧
      state'.GetChainID = state.GetChainID := by
  have hnok : ¬ (plugin.RunTx (appCache state tx acc).store (appContext tx acc)
      tx.Data).1.IsOK = true := by
    intro hok
    rw [(Result.IsOK_iff _).mp hok] at herr
    cases herr
  have hrun := execAppTx_reached h false
  simp only [Bool.false_eq_true, if_false, hnok] at hrun
  refine ⟨_, appRefunded tx acc, hrun, rfl, ByteMap.get_set_self _ _ _,
    appRefunded_Balance h hbal, ?_, ?_, rfl, rfl⟩
  · show (appDebited tx acc).Sequence.val = _
    rw [h.sequence_next.1]; exact h.sequence_next.2
  · intro a ha
    exact ByteMap.get_set_ne _ _ (Ne.symm ha)

/-- C12, amended, on the transaction `exAppTx` from `exState` for the plugin "fail",
which stores the transaction data under the key `[0]` and returns an error:
the caller keeps 999 of the denom "", the fee of 1 being all it lost, and the
record of the plugin is not in the state. -/
theorem ExecTx_app_plugin_error_witness :
    ∃ state' acc',
      ExecTx refExt exState exPlugins (.app (exAppTx "fail" [⟨"", 11⟩] ⟨"", 1⟩)) false =
        .ret (ErrBaseInvalidInput, state') ∧
      state'.GetAccount exAddrA = some acc' ∧
      acc'.Balance = [⟨"", 999⟩, ⟨"gold", 1000⟩] ∧
      acc'.Sequence.val = 1 ∧
      state'.store.data = exState.store.data := by
  obtain ⟨state', acc', h1, -, h3, h4, h5, -, h7, -⟩ := ExecTx_app_plugin_error refExt exState
    exPlugins (exAppTx "fail" [⟨"", 11⟩] ⟨"", 1⟩) exAccount exPluginFail exAppTx_reaches_fail
    (by decide) (by decide)
  exact ⟨state', acc', h1, h3, h4.trans (by decide), h5, h7⟩

/-- C12, as stated, fails on a stored balance that is not a valid coin
sequence. From `exStateUnsorted`, whose account holds 5 of "b" then 5 of
"a", the transaction `exAppTx` for the plugin "fail" with 1 of "a" and a fee
of amount zero reaches the plugin, which returns an error; the balance stored
afterwards is the balance before, and it is not the balance before minus the
fee, which starts with the zero-amount coin of the fee. -/
theorem ExecTx_app_plugin_error_unsorted_balance :
    AppReaches refExt exStateUnsorted exPlugins (exAppTx "fail" [⟨"a", 1⟩] ⟨"a", 0⟩)
      { PubKey := none, Sequence := GoInt.zero, Balance := [⟨"b", 5⟩, ⟨"a", 5⟩] }
      exPluginFail ∧
    ExecTx refExt exStateUnsorted exPlugins (.app (exAppTx "fail" [⟨"a", 1⟩] ⟨"a", 0⟩))
        false =
      .ret (ErrBaseInvalidInput, exStateUnsorted.SetAccount exAddrA
        { PubKey := some exKey, Sequence := GoInt.one,
          Balance := [⟨"b", 5⟩, ⟨"a", 5⟩] }) ∧
    Coins.Minus [⟨"b", 5⟩, ⟨"a", 5⟩] [⟨"a", 0⟩] = [⟨"a", 0⟩, ⟨"b", 5⟩, ⟨"a", 5⟩] ∧
    ¬ ([⟨"b", 5⟩, ⟨"a", 5⟩] : Coins) = Coins.Minus [⟨"b", 5⟩, ⟨"a", 5⟩] [⟨"a", 0⟩] :=
  ⟨⟨by decide, by decide, ⟨OK, by decide, by decide⟩, by decide, rfl⟩, by decide, by decide,
    by decide⟩

/-! ## Check mode against deliver mode -/

/-- A send transaction accepted in one mode is accepted in the other. -/
theorem execSendTx_ok_any_mode (E : Ext) (state : State) (tx : SendTx) (b b' : Bool)
    (res : Result) (state' : State)
    (h : execSendTx E state tx b = .ret (res, state')) (hok : res.IsErr = false) :
    ∃ state'', execSendTx E state tx b' = .ret (OK, state'') := by
  have heq := execSendTx_eq E state tx b
  rw [h] at heq
  cases h1 : (validateInputsBasic tx.Inputs).IsErr
  swap
  · simp only [h1, if_true, Outcome.ret.injEq, Prod.mk.injEq] at heq
    rw [heq.1, Result.IsErr_PrependLog, h1] at hok; cases hok
  cases h2 : (validateOutputsBasic tx.Outputs).IsErr
  swap
  · simp only [h1, h2, Bool.false_eq_true, if_false, if_true, Outcome.ret.injEq,
      Prod.mk.injEq] at heq
    rw [heq.1, Result.IsErr_PrependLog, h2] at hok; cases hok
  cases h3 : (getInputs state tx.Inputs).2.IsErr
  swap
  · simp only [h1, h2, h3, Bool.false_eq_true, if_false, if_true, Outcome.ret.injEq,
      Prod.mk.injEq] at heq
    rw [heq.1, Result.IsErr_PrependLog, h3] at hok; cases hok
  cases h4 : (getOrMakeOutputs state (getInputs state tx.Inputs).1 tx.Outputs).2.IsErr
  swap
  · simp only [h1, h2, h3, h4, Bool.false_eq_true, if_false, if_true, Outcome.ret.injEq,
      Prod.mk.injEq] at heq
    rw [heq.1, Result.IsErr_PrependLog, h4] at hok; cases hok
  simp only [h1, h2, h3, h4, Bool.false_eq_true, if_false] at heq
  cases hv : validateInputsAdvanced E
      (getOrMakeOutputs state (getInputs state tx.Inputs).1 tx.Outputs).1
      (tx.SignBytes E state.chainID).1 tx.Inputs with
  | panic e => simp [hv] at heq
  | ret p =>
    obtain ⟨inTotal, r⟩ := p
    simp only [hv] at heq
    cases h5 : r.IsErr
    swap
    · simp only [h5, if_true, Outcome.ret.injEq, Prod.mk.injEq] at heq
      rw [heq.1, Result.IsErr_PrependLog, h5] at hok; cases hok
    obtain ⟨-, hne, -⟩ := execSendTx_stages E state tx b h1 h2 h3 h4 inTotal r hv h5
    obtain ⟨-, -, heq'⟩ := execSendTx_stages E state tx b' h1 h2 h3 h4 inTotal r hv h5
    cases h6 : inTotal.IsEqual ((sumOutputs tx.Outputs).Plus [tx.Fee])
    · rw [hne h6] at h
      simp only [Outcome.ret.injEq, Prod.mk.injEq] at h
      rw [← h.1] at hok
      cases hok
    · obtain ⟨st2, hret, -⟩ := heq' h6
      exact ⟨st2, hret⟩

/-- An application transaction accepted in deliver mode passed every check
before the plugin. -/
theorem execAppTx_ok_reaches (E : Ext) (state : State) (pgz : Plugins) (tx : AppTx)
    (isCheckTx : Bool) (res : Result) (state' : State)
    (h : execAppTx E state pgz tx isCheckTx = .ret (res, state'))
    (hok : res.IsErr = false) :
    ∃ acc plugin, AppReaches E state pgz tx acc plugin := by
  rw [execAppTx_eq] at h
  cases h1 : tx.Input.ValidateBasic.IsErr
  swap
  · simp only [h1, if_true, Outcome.ret.injEq, Prod.mk.injEq] at h
    rw [← h.1, h1] at hok; cases hok
  simp only [h1, Bool.false_eq_true, if_false] at h
  cases hacc : state.GetAccount tx.Input.Address with
  | none =>
    simp only [hacc, Outcome.ret.injEq, Prod.mk.injEq] at h
    rw [← h.1] at hok; exact absurd hok (by decide)
  | some acc =>
    simp only [hacc] at h
    cases hv : validateInputAdvanced E (installPubKey tx.Input acc)
        (tx.SignBytes E state.GetChainID).1 tx.Input with
    | panic e => simp only [hv] at h; cases h
    | ret r =>
      simp only [hv] at h
      cases h2 : r.IsErr
      swap
      · simp only [h2, if_true, Outcome.ret.injEq, Prod.mk.injEq] at h
        rw [← h.1, Result.IsErr_PrependLog, h2] at hok; cases hok
      simp only [h2, Bool.false_eq_true, if_false] at h
      cases h3 : tx.Input.Coins.IsGTE [tx.Fee]
      · simp only [h3, if_true, Outcome.ret.injEq, Prod.mk.injEq] at h
        rw [← h.1] at hok; exact absurd hok (by decide)
      simp only [h3, Bool.true_eq_false, if_false] at h
      cases hp : pgz.GetByName tx.Name with
      | none =>
        simp only [hp, Outcome.ret.injEq, Prod.mk.injEq] at h
        rw [← h.1, Result.IsErr_AppendLog] at hok; exact absurd hok (by decide)
      | some plugin => exact ⟨acc, plugin, h1, hacc, ⟨r, hv, h2⟩, h3, hp⟩

theorem accepts_app_check {E : Ext} {state : State} {pgz : Plugins} {tx : AppTx}
    {acc : Account} {plugin : Plugin} (h : AppReaches E state pgz tx acc plugin) :
    accepts E state pgz (.app tx) true :=
  ⟨OK, state.SetAccount tx.Input.Address (appDebited tx acc),
    (execAppTx_reached h true).trans (by simp only [if_true]), rfl⟩

theorem accepts_app_deliver {E : Ext} {state : State} {pgz : Plugins} {tx : AppTx}
    {acc : Account} {plugin : Plugin} (h : AppReaches E state pgz tx acc plugin) :
    accepts E state pgz (.app tx) false ↔
      (plugin.RunTx (appCache state tx acc).store (appContext tx acc) tx.Data).1.IsOK =
        true := by
  have hrun := execAppTx_reached h false
  simp only [Bool.false_eq_true, if_false] at hrun
  constructor
  · rintro ⟨res, state', hret, hok⟩
    have hret' : execAppTx E state pgz tx false = .ret (res, state') := hret
    cases hk : (plugin.RunTx (appCache state tx acc).store (appContext tx acc) tx.Data).1.IsOK
    · rw [hrun] at hret'
      simp only [hk, Bool.false_eq_true, if_false, Outcome.ret.injEq, Prod.mk.injEq] at hret'
      rw [← hret'.1, hk] at hok
      cases hok
    · rfl
  · intro hk
    rw [if_pos hk] at hrun
    exact ⟨_, _, hrun, hk⟩

/-- C18, amended. A transaction that `ExecTx` accepts in deliver
mode is accepted in check mode from the same state with the same registry;
for a send transaction the converse holds as well; an application transaction
that reaches its plugin is always accepted in check mode, and accepted in
deliver mode exactly when the `RunTx` of the plugin returns OK. -/
theorem ExecTx_check_of_deliver (E : Ext) (state : State) (pgz : Plugins) (tx : Tx) :
    (accepts E state pgz tx false → accepts E state pgz tx true) ∧
    (∀ s, tx = .send s → accepts E state pgz tx true → accepts E state pgz tx false) ∧
    (∀ a acc plugin, tx = .app a → AppReaches E state pgz a acc plugin →
      accepts E state pgz tx true ∧
        (accepts E state pgz tx false ↔
          (plugin.RunTx (appCache state a acc).store (appContext a acc) a.Data).1.IsOK =
            true)) := by
  refine ⟨?_, ?_, ?_⟩
  · rintro ⟨res, state', h, hok⟩
    have herr := (Result.IsOK_iff res).mp hok
    cases tx with
    | send s =>
      obtain ⟨st, hst⟩ := execSendTx_ok_any_mode E state s false true res state' h herr
      exact ⟨OK, st, hst, rfl⟩
    | app a =>
      obtain ⟨acc, plugin, hr⟩ := execAppTx_ok_reaches E state pgz a false res state' h herr
      exact accepts_app_check hr
    | nil =>
      simp only [ExecTx, Outcome.ret.injEq, Prod.mk.injEq] at h
      rw [← h.1] at hok
      exact absurd hok (by decide)
  · rintro s rfl ⟨res, state', h, hok⟩
    obtain ⟨st, hst⟩ := execSendTx_ok_any_mode E state s true false res state' h
      ((Result.IsOK_iff res).mp hok)
    exact ⟨OK, st, hst, rfl⟩
  · rintro a acc plugin rfl hr
    exact ⟨accepts_app_check hr, accepts_app_deliver hr⟩

/-- C18, amended: on the transfer `exSendTx` from `exState`, accepted in check mode and
so in deliver mode, and on the transaction `exAppTx` for the plugin "ok",
accepted in deliver mode. -/
theorem ExecTx_check_of_deliver_witness :
    accepts refExt exState NewPlugins (.send (exSendTx GoInt.one (some exKey))) false ∧
    accepts refExt exState exPlugins (.app (exAppTx "ok" [⟨"", 11⟩] ⟨"", 1⟩)) false :=
  ⟨(ExecTx_check_of_deliver refExt exState NewPlugins
      (.send (exSendTx GoInt.one (some exKey)))).2.1 _ rfl
      ⟨OK, exState.SetAccount exAddrA
        { PubKey := some exKey, Sequence := GoInt.one,
          Balance := [⟨"", 989⟩, ⟨"gold", 1000⟩] }, by decide, by decide⟩,
    ((ExecTx_check_of_deliver refExt exState exPlugins
      (.app (exAppTx "ok" [⟨"", 11⟩] ⟨"", 1⟩))).2.2 _ exAccount exPluginOK rfl
      exAppTx_reaches_ok).2.mpr (by decide)⟩

/-- C18 fails on an application transaction whose plugin rejects it: from
`exState`, the transaction `exAppTx` for the plugin "fail" is accepted in
check mode, where the plugin is not run, and in deliver mode `ExecTx` returns
the error result of the plugin. -/
theorem ExecTx_check_accepts_deliver_rejects :
    ExecTx refExt exState exPlugins (.app (exAppTx "fail" [⟨"", 11⟩] ⟨"", 1⟩)) true =
      .ret (OK, exState.SetAccount exAddrA
        { PubKey := some exKey, Sequence := GoInt.one,
          Balance := [⟨"", 989⟩, ⟨"gold", 1000⟩] }) ∧
    ExecTx refExt exState exPlugins (.app (exAppTx "fail" [⟨"", 11⟩] ⟨"", 1⟩)) false =
      .ret (ErrBaseInvalidInput, exState.SetAccount exAddrA
        { PubKey := some exKey, Sequence := GoInt.one,
          Balance := [⟨"", 999⟩, ⟨"gold", 1000⟩] }) ∧
    accepts refExt exState exPlugins (.app (exAppTx "fail" [⟨"", 11⟩] ⟨"", 1⟩)) true ∧
    ¬ accepts refExt exState exPlugins (.app (exAppTx "fail" [⟨"", 11⟩] ⟨"", 1⟩)) false := by
  refine ⟨by decide, by decide, accepts_app_check exAppTx_reaches_fail, ?_⟩
  rintro ⟨res, state', h, hok⟩
  have h' : ExecTx refExt exState exPlugins (.app (exAppTx "fail" [⟨"", 11⟩] ⟨"", 1⟩)) false =
      .ret (ErrBaseInvalidInput, exState.SetAccount exAddrA
        { PubKey := some exKey, Sequence := GoInt.one,
          Balance := [⟨"", 999⟩, ⟨"gold", 1000⟩] }) := by decide
  rw [h'] at h
  simp only [Outcome.ret.injEq, Prod.mk.injEq] at h
  rw [← h.1] at hok
  exact absurd hok (by decide)

/-! ## An output address shared with an input -/

theorem getOrMakeOutputsLoop_good (state : State) (outs : List TxOutput)
    (m0 : ByteMap Account) (hn : (outs.map fun o => o.Address).Nodup)
    (hd : ∀ o ∈ outs, m0.get o.Address = none) :
    ∃ m, getOrMakeOutputsLoop state outs m0 = (some m, OK) := by
  induction outs generalizing m0 with
  | nil => exact ⟨m0, rfl⟩
  | cons o t ih =>
    rw [List.map_cons, List.nodup_cons] at hn
    rw [getOrMakeOutputsLoop_cons]
    simp only [hd o (List.mem_cons_self _ _), Option.isSome_none, Bool.false_eq_true, if_false]
    apply ih _ hn.2
    intro j hj
    have hne : o.Address ≠ j.Address := by
      intro e
      exact hn.1 (List.mem_map.mpr ⟨j, hj, e.symm⟩)
    rw [ByteMap.get_set_ne _ _ hne]
    exact hd j (List.mem_cons_of_mem _ hj)

theorem getOrMakeOutputsLoop_taken (state : State) (outs : List TxOutput)
    (m0 : ByteMap Account) (h : ∃ o ∈ outs, (m0.get o.Address).isSome = true) :
    getOrMakeOutputsLoop state outs m0 = (none, ErrBaseDuplicateAddress) := by
  cases hr : getOrMakeOutputsLoop state outs m0 with
  | mk om r =>
    cases om with
    | none => rw [getOrMakeOutputsLoop_none state outs m0 r hr]
    | some m =>
      obtain ⟨o, ho, hs⟩ := h
      rw [(getOrMakeOutputsLoop_some state outs m0 m r hr).2.2.1 o ho] at hs
      cases hs

/-- The map `getInputs` returns holds an account under an address exactly
when the address is that of an input. -/
theorem getInputs_get_isSome (state : State) (ins : List TxInput) (m : ByteMap Account)
    (h : getInputs state ins = (some m, OK)) (a : Bytes) :
    (m.get a).isSome = true ↔ a ∈ (ins.map fun i => i.Address) := by
  obtain ⟨hg, m', hm', hin, hout⟩ := getInputs_not_err state ins (by rw [h]; rfl)
  rw [h] at hm'
  simp only [Prod.mk.injEq, Option.some.injEq, and_true] at hm'
  subst hm'
  constructor
  · intro hs
    by_contra hne
    rw [hout a hne] at hs
    cases hs
  · intro hmem
    obtain ⟨i, hi, rfl⟩ := List.mem_map.mp hmem
    obtain ⟨acc, hacc⟩ := Option.isSome_iff_exists.mp (hg.2 i hi)
    rw [hin i hi, hacc]
    rfl

/-- C11, amended. Called with the map `getInputs` returned,
`getOrMakeOutputs` returns OK exactly when the output addresses are pairwise
distinct and none of them is the address of an input; when an output address
is the address of an input it fails with `BaseDuplicateAddress` and returns
no map: the account loaded for the input is not reused for the output. -/
theorem getOrMakeOutputs_shared_address (state : State) (ins : List TxInput)
    (outs : List TxOutput) (m : ByteMap Account)
    (hin : getInputs state ins = (some m, OK)) :
    ((getOrMakeOutputs state (getInputs state ins).1 outs).2 = OK ↔
      (outs.map fun o => o.Address).Nodup ∧
        ∀ o ∈ outs, o.Address ∉ (ins.map fun i => i.Address)) ∧
    ((∃ o ∈ outs, o.Address ∈ (ins.map fun i => i.Address)) →
      getOrMakeOutputs state (getInputs state ins).1 outs =
        (none, ErrBaseDuplicateAddress)) := by
  rw [hin]
  simp only [getOrMakeOutputs_some_eq]
  have htaken : (∃ o ∈ outs, o.Address ∈ (ins.map fun i => i.Address)) →
      getOrMakeOutputsLoop state outs m = (none, ErrBaseDuplicateAddress) := by
    rintro ⟨o, ho, hmem⟩
    exact getOrMakeOutputsLoop_taken state outs m
      ⟨o, ho, (getInputs_get_isSome state ins m hin o.Address).mpr hmem⟩
  refine ⟨⟨?_, ?_⟩, htaken⟩
  · intro hok
    cases hr : getOrMakeOutputsLoop state outs m with
    | mk om r =>
      cases om with
      | none =>
        rw [hr, getOrMakeOutputsLoop_none state outs m r hr] at hok
        exact absurd hok (by decide)
      | some m2 =>
        obtain ⟨-, hn, hd, -⟩ := getOrMakeOutputsLoop_some state outs m m2 r hr
        refine ⟨hn, ?_⟩
        intro o ho hmem
        have := (getInputs_get_isSome state ins m hin o.Address).mpr hmem
        rw [hd o ho] at this
        cases this
  · rintro ⟨hn, hd⟩
    obtain ⟨m2, hm2⟩ := getOrMakeOutputsLoop_good state outs m hn (by
      intro o ho
      cases hg : m.get o.Address with
      | none => rfl
      | some x =>
        exact absurd ((getInputs_get_isSome state ins m hin o.Address).mp (by rw [hg]; rfl))
          (hd o ho))
    rw [hm2]

/-- C11, amended: on the input of `exSendTx` from `exState`: an output to the new
address `exAddrB` is accepted. -/
theorem getOrMakeOutputs_shared_address_witness :
    (getOrMakeOutputs exState
      (getInputs exState (exSendTx GoInt.one (some exKey)).Inputs).1
      [{ Address := exAddrB, Coins := [⟨"", 10⟩] }]).2 = OK :=
  (getOrMakeOutputs_shared_address exState (exSendTx GoInt.one (some exKey)).Inputs
    [{ Address := exAddrB, Coins := [⟨"", 10⟩] }]
    (ByteMap.empty.set exAddrA
      { PubKey := some exKey, Sequence := GoInt.zero,
        Balance := [⟨"", 1000⟩, ⟨"gold", 1000⟩] }) (by decide)).1.mpr
    ⟨by decide, by decide⟩

/-- C11 fails on the code: with the input of `exSendTx` from `exState`, whose
address is `exAddrA`, and the single output to `exAddrA`, the output addresses
are pairwise distinct, `getInputs` returns OK, and `getOrMakeOutputs`, called
with the map `getInputs` returned, fails with `BaseDuplicateAddress`. -/
theorem getOrMakeOutputs_shared_address_rejected :
    ([({ Address := exAddrA, Coins := [⟨"", 10⟩] } : TxOutput)].map
      fun o => o.Address).Nodup ∧
    (getInputs exState (exSendTx GoInt.one (some exKey)).Inputs).2 = OK ∧
    getOrMakeOutputs exState
      (getInputs exState (exSendTx GoInt.one (some exKey)).Inputs).1
      [{ Address := exAddrA, Coins := [⟨"", 10⟩] }] = (none, ErrBaseDuplicateAddress) := by
  refine ⟨by decide, by decide, by decide⟩

/-! ## The plugin registry -/

/-- C20. `RegisterPlugin` panics exactly when the name of the plugin is
empty or a plugin is already registered under that name, and a registration
that panics leaves the registry, its name map and its ordered list, as it
was; a registration that returns records the plugin under its name and at
the end of the list. -/
theorem RegisterPlugin_spec (pgz : Plugins) (plugin : Plugin) :
    ((∃ msg, (pgz.RegisterPlugin plugin).2 = .panic msg) ↔
      plugin.Name = "" ∨ (pgz.GetByName plugin.Name).isSome = true) ∧
    ((∃ msg, (pgz.RegisterPlugin plugin).2 = .panic msg) →
      (pgz.RegisterPlugin plugin).1 = pgz) ∧
    ((pgz.RegisterPlugin plugin).2 = .ret () →
      (pgz.RegisterPlugin plugin).1.byName = assignName pgz.byName plugin.Name plugin ∧
        (pgz.RegisterPlugin plugin).1.GetList = pgz.GetList ++ [plugin]) := by
  unfold Plugins.RegisterPlugin Plugins.GetByName Plugins.GetList
  by_cases h1 : plugin.Name = ""
  · simp [h1]
  · cases h2 : (lookupName pgz.byName plugin.Name).isSome
    · simp [h1, h2]
    · simp [h1, h2]

/-- C20, on the registry `exPlugins`: registering `exPluginOK` a second time
panics and leaves the list of the two plugins as it was. -/
theorem RegisterPlugin_spec_witness :
    (∃ msg, (exPlugins.RegisterPlugin exPluginOK).2 = .panic msg) ∧
    ((exPlugins.RegisterPlugin exPluginOK).1.GetList.map fun p => p.Name) =
      ["ok", "fail"] :=
  ⟨(RegisterPlugin_spec exPlugins exPluginOK).1.mpr (Or.inr rfl),
    by rw [(RegisterPlugin_spec exPlugins exPluginOK).2.1
      ((RegisterPlugin_spec exPlugins exPluginOK).1.mpr (Or.inr rfl))]; rfl⟩

/-! ## The registry after a sequence of registrations -/

theorem lookupName_assignName (l : List (String × Plugin)) (name n : String) (p : Plugin) :
    lookupName (assignName l name p) n = if name = n then some p else lookupName l n := by
  induction l with
  | nil => simp [assignName, lookupName]
  | cons h t ih =>
    obtain ⟨k, q⟩ := h
    by_cases h1 : k = name
    · subst h1
      by_cases h2 : k = n
      · simp [assignName, lookupName, h2]
      · simp [assignName, lookupName, h2]
    · by_cases h2 : k = n
      · subst h2
        simp [assignName, lookupName, h1, Ne.symm h1]
      · simp [assignName, lookupName, h1, h2, ih]

/-- A registration that returns: the name is not empty and not yet taken, and
the plugin is recorded under its name and at the end of the list. -/
theorem Plugins.RegisterPlugin_ret (pgz pgz' : Plugins) (plugin : Plugin) (u : Unit)
    (h : pgz.RegisterPlugin plugin = (pgz', .ret u)) :
    plugin.Name ≠ "" ∧ lookupName pgz.byName plugin.Name = none ∧
      pgz' = { byName := assignName pgz.byName plugin.Name plugin,
               plist := pgz.plist ++ [plugin] } := by
  unfold Plugins.RegisterPlugin at h
  by_cases h1 : plugin.Name = ""
  · simp [h1] at h
  · cases h2 : lookupName pgz.byName plugin.Name with
    | some q => simp [h1, h2] at h
    | none =>
      simp only [h1, h2, if_false, Option.isSome_none, Bool.false_eq_true, Prod.mk.injEq] at h
      exact ⟨h1, rfl, h.1.symm⟩

theorem Plugins.RegisterPlugin_fresh (pgz : Plugins) (plugin : Plugin)
    (h1 : plugin.Name ≠ "") (h2 : lookupName pgz.byName plugin.Name = none) :
    pgz.RegisterPlugin plugin =
      ({ byName := assignName pgz.byName plugin.Name plugin,
         plist := pgz.plist ++ [plugin] }, .ret ()) := by
  unfold Plugins.RegisterPlugin
  simp [h1, h2]

theorem Plugins.registerAll_cons (pgz : Plugins) (plugin : Plugin) (rest : List Plugin) :
    pgz.registerAll (plugin :: rest) =
      match pgz.RegisterPlugin plugin with
      | (pgz, .ret _) => Plugins.registerAll pgz rest
      | (pgz, .panic e) => (pgz, .panic e) := rfl

theorem pluginNamed_append_singleton (l : List Plugin) (p : Plugin) (n : String) :
    pluginNamed (l ++ [p]) n =
      (pluginNamed l n).or (if p.Name = n then some p else none) := by
  unfold pluginNamed
  rw [List.find?_append]
  by_cases h : p.Name = n
  · simp [List.find?, h]
  · simp [List.find?, h]

theorem pluginNamed_eq_none (l : List Plugin) (n : String) :
    pluginNamed l n = none ↔ n ∉ l.map fun p => p.Name := by
  unfold pluginNamed
  simp only [List.find?_eq_none, decide_eq_true_eq, List.mem_map, not_exists, not_and]

theorem Registered.register {pgz pgz' : Plugins} {plugins : List Plugin} {plugin : Plugin}
    {u : Unit} (hr : Registered pgz plugins)
    (h : pgz.RegisterPlugin plugin = (pgz', .ret u)) :
    Registered pgz' (plugins ++ [plugin]) := by
  obtain ⟨h1, h2, rfl⟩ := Plugins.RegisterPlugin_ret pgz pgz' plugin u h
  have hnot : plugin.Name ∉ plugins.map fun p => p.Name := by
    rw [← pluginNamed_eq_none, ← hr.lookup]
    exact h2
  refine ⟨?_, ?_, ?_, ?_⟩
  · show pgz.plist ++ [plugin] = plugins ++ [plugin]
    rw [show pgz.plist = plugins from hr.list]
  · intro p hp
    rcases List.mem_append.mp hp with hp | hp
    · exact hr.named p hp
    · rw [List.mem_singleton.mp hp]; exact h1
  · rw [List.map_append, List.nodup_append]
    refine ⟨hr.distinct, List.nodup_singleton _, ?_⟩
    intro a ha hb
    rw [List.map_singleton, List.mem_singleton] at hb
    rw [hb] at ha
    exact hnot ha
  · intro n
    show lookupName (assignName pgz.byName plugin.Name plugin) n = _
    rw [lookupName_assignName, pluginNamed_append_singleton]
    have hl : lookupName pgz.byName n = pluginNamed plugins n := hr.lookup n
    by_cases hn : plugin.Name = n
    · subst hn
      rw [← hl, h2]
      simp
    · simp only [hn, if_false, hl, Option.or_none]

theorem Registered.registerAll {pgz pgz' : Plugins} {plugins : List Plugin}
    (more : List Plugin) {u : Unit} (hr : Registered pgz plugins)
    (h : pgz.registerAll more = (pgz', .ret u)) :
    Registered pgz' (plugins ++ more) := by
  induction more generalizing pgz plugins with
  | nil =>
    simp only [Plugins.registerAll, Prod.mk.injEq] at h
    rw [List.append_nil, ← h.1]
    exact hr
  | cons p t ih =>
    rw [Plugins.registerAll_cons] at h
    cases hreg : pgz.RegisterPlugin p with
    | mk pgz1 o =>
      cases o with
      | panic e => simp [hreg] at h
      | ret v =>
        simp only [hreg] at h
        have := ih (hr.register hreg) h
        rwa [List.append_assoc, List.singleton_append] at this

theorem Registered.empty : Registered NewPlugins [] :=
  ⟨rfl, by simp, by simp, fun _ => rfl⟩

theorem Plugins.registerAll_ret (pgz : Plugins) (plugins more : List Plugin)
    (hr : Registered pgz plugins) (hn : ∀ p ∈ more, p.Name ≠ "")
    (hd : ((plugins ++ more).map fun p => p.Name).Nodup) :
    ∃ pgz', pgz.registerAll more = (pgz', .ret ()) := by
  induction more generalizing pgz plugins with
  | nil => exact ⟨pgz, rfl⟩
  | cons p t ih =>
    have hfresh : lookupName pgz.byName p.Name = none := by
      have : pgz.GetByName p.Name = pluginNamed plugins p.Name := hr.lookup p.Name
      rw [show lookupName pgz.byName p.Name = pgz.GetByName p.Name from rfl, this,
        pluginNamed_eq_none]
      intro hmem
      rw [List.map_append, List.nodup_append] at hd
      exact hd.2.2 hmem (by simp)
    have hreg := Plugins.RegisterPlugin_fresh pgz p (hn p (List.mem_cons_self _ _)) hfresh
    rw [Plugins.registerAll_cons, hreg]
    apply ih _ (plugins ++ [p]) (hr.register hreg) (fun q hq => hn q (List.mem_cons_of_mem _ hq))
    rwa [List.append_assoc, List.singleton_append]

/-- C21. For a registry built from `NewPlugins` by a sequence of
`RegisterPlugin` calls that all return: `GetList` is the list of the
registered plugins in the order of registration, their names are non-empty
and pairwise distinct, and `GetByName` of a name is the plugin of that list
with this name, or nil when no registered plugin has it. Every list of
plugins with non-empty, pairwise distinct names can be registered so. -/
theorem Plugins_registry_invariants (plugins : List Plugin) :
    (∀ pgz, NewPlugins.registerAll plugins = (pgz, .ret ()) →
      pgz.GetList = plugins ∧
      (∀ p ∈ plugins, p.Name ≠ "") ∧
      (plugins.map fun p => p.Name).Nodup ∧
      (∀ n p, pgz.GetByName n = some p ↔ p ∈ plugins ∧ p.Name = n) ∧
      (∀ n, pgz.GetByName n = none ↔ ∀ p ∈ plugins, p.Name ≠ n)) ∧
    ((∀ p ∈ plugins, p.Name ≠ "") → (plugins.map fun p => p.Name).Nodup →
      ∃ pgz, NewPlugins.registerAll plugins = (pgz, .ret ())) := by
  constructor
  · intro pgz h
    have hr : Registered pgz plugins := by
      have := Registered.empty.registerAll plugins h
      rwa [List.nil_append] at this
    refine ⟨hr.list, hr.named, hr.distinct, ?_, ?_⟩
    · intro n p
      rw [hr.lookup n]
      unfold pluginNamed
      constructor
      · intro hf
        have h1 := List.find?_some hf
        exact ⟨List.mem_of_find?_eq_some hf, by simpa using h1⟩
      · rintro ⟨hp, hn⟩
        cases hf : List.find? (fun p => decide (p.Name = n)) plugins with
        | none =>
          rw [List.find?_eq_none] at hf
          exact absurd (by simpa using hn) (hf p hp)
        | some q =>
          have hq1 : q.Name = n := by simpa using List.find?_some hf
          have hq2 := List.mem_of_find?_eq_some hf
          have heq : q = p :=
            List.inj_on_of_nodup_map hr.distinct hq2 hp (hq1.trans hn.symm)
          rw [heq]
    · intro n
      rw [hr.lookup n, pluginNamed_eq_none]
      simp only [List.mem_map, not_exists, not_and]
  · intro hn hd
    exact Plugins.registerAll_ret NewPlugins [] plugins Registered.empty hn
      (by rwa [List.nil_append])

/-- C21, on the two plugins of `exPlugins`: they register, in this order, and
the name "fail" finds the second. -/
theorem Plugins_registry_invariants_witness :
    (exPlugins.GetList.map fun p => p.Name) = ["ok", "fail"] ∧
    (exPlugins.GetByName "fail").map (fun p => p.Name) = some "fail" ∧
    ∃ pgz, NewPlugins.registerAll [exPluginOK, exPluginFail] = (pgz, .ret ()) :=
  ⟨by rw [((Plugins_registry_invariants [exPluginOK, exPluginFail]).1 exPlugins rfl).1]; rfl,
    by rw [(((Plugins_registry_invariants [exPluginOK, exPluginFail]).1 exPlugins
      rfl).2.2.2.1 "fail" exPluginFail).mpr ⟨by simp, rfl⟩]; rfl,
    (Plugins_registry_invariants [exPluginOK, exPluginFail]).2 (by decide) (by decide)⟩

/-! ## Sign-bytes and keys -/

theorem SendTx.SignBytes_send_bytes (E : Ext) (tx : SendTx) (chainID : String) :
    (tx.SignBytes E chainID).1 = E.wireString chainID ++ E.wireSendTx tx.clearSignatures :=
  rfl

theorem AppTx.SignBytes_app_bytes (E : Ext) (tx : AppTx) (chainID : String) :
    (tx.SignBytes E chainID).1 = E.wireString chainID ++ E.wireAppTx tx.clearSignature :=
  rfl

theorem TxID_send (E : Ext) (chainID : String) (tx : SendTx) :
    TxID E chainID (.send tx) =
      .ret (E.ripemd160 (E.wireByteSlice
        (E.wireString chainID ++ E.wireSendTx tx.clearSignatures)), .send tx) := by
  simp only [TxID, Tx.SignBytes, SendTx.SignBytes_restores, SendTx.SignBytes_send_bytes]

theorem TxID_app (E : Ext) (chainID : String) (tx : AppTx) :
    TxID E chainID (.app tx) =
      .ret (E.ripemd160 (E.wireByteSlice
        (E.wireString chainID ++ E.wireAppTx tx.clearSignature)), .app tx) := by
  simp only [TxID, Tx.SignBytes, AppTx.SignBytes_keeps, AppTx.SignBytes_app_bytes]

/-- C23. The sign-bytes of a send transaction and of an application
transaction are the binary encoding of the chain id followed by the binary
encoding of the transaction with every input signature set to nil; so two
transactions that are equal once their input signatures are set to nil have,
for the same chain id, the same sign-bytes and the same `TxID`. -/
theorem SignBytes_layout (E : Ext) (chainID : String) :
    (∀ tx : SendTx,
      (tx.SignBytes E chainID).1 = E.wireString chainID ++ E.wireSendTx tx.clearSignatures) ∧
    (∀ tx : AppTx,
      (tx.SignBytes E chainID).1 = E.wireString chainID ++ E.wireAppTx tx.clearSignature) ∧
    (∀ tx₁ tx₂ : SendTx, tx₁.clearSignatures = tx₂.clearSignatures →
      (tx₁.SignBytes E chainID).1 = (tx₂.SignBytes E chainID).1 ∧
      ∃ id, TxID E chainID (.send tx₁) = .ret (id, .send tx₁) ∧
        TxID E chainID (.send tx₂) = .ret (id, .send tx₂)) ∧
    (∀ tx₁ tx₂ : AppTx, tx₁.clearSignature = tx₂.clearSignature →
      (tx₁.SignBytes E chainID).1 = (tx₂.SignBytes E chainID).1 ∧
      ∃ id, TxID E chainID (.app tx₁) = .ret (id, .app tx₁) ∧
        TxID E chainID (.app tx₂) = .ret (id, .app tx₂)) := by
  refine ⟨fun tx => rfl, fun tx => rfl, ?_, ?_⟩
  · intro tx₁ tx₂ h
    refine ⟨?_, _, TxID_send E chainID tx₁, ?_⟩
    · rw [SendTx.SignBytes_send_bytes, SendTx.SignBytes_send_bytes, h]
    · rw [TxID_send, h]
  · intro tx₁ tx₂ h
    refine ⟨?_, _, TxID_app E chainID tx₁, ?_⟩
    · rw [AppTx.SignBytes_app_bytes, AppTx.SignBytes_app_bytes, h]
    · rw [TxID_app, h]

/-- C23, on the transfer `exSendTx` with and without the signature of its
input. -/
theorem SignBytes_layout_witness :
    ((transferTx 0 ⟨"", 1⟩ exAddrA exAddrB [⟨"", 11⟩] [⟨"", 10⟩] GoInt.one (some exSig)
        (some exKey)).SignBytes refExt "chain").1 =
      ((transferTx 0 ⟨"", 1⟩ exAddrA exAddrB [⟨"", 11⟩] [⟨"", 10⟩] GoInt.one none
        (some exKey)).SignBytes refExt "chain").1 :=
  ((SignBytes_layout refExt "chain").2.2.1 _ _ (by decide)).1

/-- C24. After `SignBytes` returns, a send transaction, with any number of
inputs, and an application transaction are the transaction before the call:
every input has its signature back, at its index, and no other field has
changed. -/
theorem SignBytes_restores_tx (E : Ext) (chainID : String) :
    (∀ tx : SendTx, (tx.SignBytes E chainID).2 = tx) ∧
    (∀ tx : SendTx, ((tx.SignBytes E chainID).2.Inputs.map fun i => i.Signature) =
      tx.Inputs.map fun i => i.Signature) ∧
    (∀ tx : AppTx, (tx.SignBytes E chainID).2 = tx) :=
  ⟨fun tx => SendTx.SignBytes_restores E tx chainID,
    fun tx => by rw [SendTx.SignBytes_restores],
    fun tx => AppTx.SignBytes_keeps E tx chainID⟩

/-- C25. `PubKeyEd25519.VerifyBytes` returns false for every signature that
is not a `SignatureEd25519`, and `PubKeySecp256k1.VerifyBytes` returns false
for every signature that is not a `SignatureSecp256k1`, whatever the message
and whatever the primitives would give on the bytes; the call returns in
every case. -/
theorem VerifyBytes_variant_mismatch (E : Ext) (key msg : Bytes) (sig_ : Option Signature) :
    ((∀ sig, sig_ ≠ some (.Ed25519 sig)) →
      (PubKey.Ed25519 key).VerifyBytes E msg sig_ = false) ∧
    ((∀ sig, sig_ ≠ some (.Secp256k1 sig)) →
      (PubKey.Secp256k1 key).VerifyBytes E msg sig_ = false) := by
  constructor
  · intro h
    cases sig_ with
    | none => rfl
    | some s =>
      cases s with
      | Ed25519 sig => exact absurd rfl (h sig)
      | Secp256k1 sig => rfl
  · intro h
    cases sig_ with
    | none => rfl
    | some s =>
      cases s with
      | Ed25519 sig => rfl
      | Secp256k1 sig => exact absurd rfl (h sig)

/-- C25, on bytes that the stand-in primitives of `refExt` accept as a
signature of the key over the message: under the other variant they are
refused. -/
theorem VerifyBytes_variant_mismatch_witness :
    (PubKey.Ed25519 [7]).VerifyBytes refExt [9] (some (.Ed25519 [7, 9])) = true ∧
    (PubKey.Ed25519 [7]).VerifyBytes refExt [9] (some (.Secp256k1 [7, 9])) = false ∧
    (PubKey.Secp256k1 [7]).VerifyBytes refExt [9] none = false :=
  ⟨by decide,
    (VerifyBytes_variant_mismatch refExt [7] [9] (some (.Secp256k1 [7, 9]))).1
      (fun _ h => by cases h),
    (VerifyBytes_variant_mismatch refExt [7] [9] none).2 (fun _ h => by cases h)⟩

/-! ## The first failure of a send transaction -/

theorem validateInputsBasic_first (pre : List TxInput) (i : TxInput) (post : List TxInput)
    (hpre : ∀ j ∈ pre, j.ValidateBasic.IsErr = false) (hi : i.ValidateBasic.IsErr = true) :
    validateInputsBasic (pre ++ i :: post) = i.ValidateBasic := by
  induction pre with
  | nil => simp only [List.nil_append, validateInputsBasic, hi, if_true]
  | cons j t ih =>
    simp only [List.cons_append, validateInputsBasic, hpre j (List.mem_cons_self _ _),
      Bool.false_eq_true, if_false]
    exact ih (fun k hk => hpre k (List.mem_cons_of_mem _ hk))

theorem validateOutputsBasic_first (pre : List TxOutput) (o : TxOutput)
    (post : List TxOutput)
    (hpre : ∀ j ∈ pre, j.ValidateBasic.IsErr = false) (ho : o.ValidateBasic.IsErr = true) :
    validateOutputsBasic (pre ++ o :: post) = o.ValidateBasic := by
  induction pre with
  | nil => simp only [List.nil_append, validateOutputsBasic, ho, if_true]
  | cons j t ih =>
    simp only [List.cons_append, validateOutputsBasic, hpre j (List.mem_cons_self _ _),
      Bool.false_eq_true, if_false]
    exact ih (fun k hk => hpre k (List.mem_cons_of_mem _ hk))

theorem getInputs_first (state : State) (pre : List TxInput) (i : TxInput)
    (post : List TxInput) (hg : goodInputs state pre) :
    (i.Address ∈ (pre.map fun j => j.Address) →
      getInputs state (pre ++ i :: post) = (none, ErrBaseDuplicateAddress)) ∧
    (i.Address ∉ (pre.map fun j => j.Address) → state.GetAccount i.Address = none →
      getInputs state (pre ++ i :: post) = (none, ErrBaseUnknownAddress)) := by
  obtain ⟨m, hm, -, hin, hout⟩ := getInputsLoop_good state pre ByteMap.empty hg.1
    (fun _ _ => ByteMap.get_empty _) hg.2
  have hstep : getInputs state (pre ++ i :: post) = getInputsLoop state (i :: post) m := by
    unfold getInputs
    rw [getInputsLoop_append, hm]
  constructor
  · intro hmem
    have hsome : (m.get i.Address).isSome = true := by
      obtain ⟨j, hj, e⟩ := List.mem_map.mp hmem
      obtain ⟨acc, hacc⟩ := Option.isSome_iff_exists.mp (hg.2 j hj)
      have hj' := hin j hj
      rw [hacc] at hj'
      rw [← e, hj']
      rfl
    rw [hstep, getInputsLoop_cons]
    simp only [hsome, if_true]
  · intro hnot hnone
    have hget : m.get i.Address = none := by
      rw [hout _ hnot]
      rfl
    rw [hstep, getInputsLoop_cons]
    simp only [hget, Option.isSome_none, Bool.false_eq_true, if_false, hnone]

theorem getOrMakeOutputs_err (state : State) (accounts : Option (ByteMap Account))
    (outs : List TxOutput) (h : (getOrMakeOutputs state accounts outs).2.IsErr = true) :
    getOrMakeOutputs state accounts outs = (none, ErrBaseDuplicateAddress) := by
  have hloop : ∀ m0, (getOrMakeOutputsLoop state outs m0).2.IsErr = true →
      getOrMakeOutputsLoop state outs m0 = (none, ErrBaseDuplicateAddress) := by
    intro m0 h0
    cases hr : getOrMakeOutputsLoop state outs m0 with
    | mk om r =>
      cases om with
      | none => rw [getOrMakeOutputsLoop_none state outs m0 r hr]
      | some m =>
        rw [hr, (getOrMakeOutputsLoop_some state outs m0 m r hr).1] at h0
        cases h0
  cases accounts with
  | none => exact hloop _ h
  | some m => exact hloop _ h

theorem validateInputsAdvancedLoop_first (E : Ext) (m : ByteMap Account)
    (signBytes : Bytes) (pre : List TxInput) (i : TxInput) (post : List TxInput)
    (total : Coins) (r : Result)
    (hpre : ∀ j ∈ pre, ∃ acc rj, m.get j.Address = some acc ∧
      validateInputAdvanced E acc signBytes j = .ret rj ∧ rj.IsErr = false)
    (hi : ∃ acc, m.get i.Address = some acc ∧
      validateInputAdvanced E acc signBytes i = .ret r)
    (hr : r.IsErr = true) :
    validateInputsAdvancedLoop E (some m) signBytes (pre ++ i :: post) total =
      .ret (pre.foldl (fun t j => Coins.Plus t j.Coins) total, r) := by
  induction pre generalizing total with
  | nil =>
    obtain ⟨acc, hacc, hv⟩ := hi
    simp only [List.nil_append, validateInputsAdvancedLoop, Option.some_bind, hacc, hv, hr,
      if_true, List.foldl_nil]
  | cons j t ih =>
    obtain ⟨acc, rj, hacc, hv, hrj⟩ := hpre j (List.mem_cons_self _ _)
    simp only [List.cons_append, validateInputsAdvancedLoop, Option.some_bind, hacc, hv, hrj,
      Bool.false_eq_true, if_false, List.foldl_cons]
    exact ih _ (fun k hk => hpre k (List.mem_cons_of_mem _ hk))

/-- C27. On a send transaction the result of `ExecTx`, in both modes, is that
of the first failing stage in the order `validateInputsBasic`,
`validateOutputsBasic`, `getInputs`, `getOrMakeOutputs`,
`validateInputsAdvanced`, totals check, returned with the state it was given;
for each of the first five the log is the log of the stage prefixed with
"in <stage>()", under the code of the stage. Within a stage the first failing
input or output, in list order, decides the result of the stage. -/
theorem ExecTx_send_first_failure (E : Ext) (state : State) (pgz : Plugins) (tx : SendTx)
    (isCheckTx : Bool) :
    ((validateInputsBasic tx.Inputs).IsErr = true →
      ExecTx E state pgz (.send tx) isCheckTx =
        .ret ({ Code := (validateInputsBasic tx.Inputs).Code,
                Data := (validateInputsBasic tx.Inputs).Data,
                Log := .text "in validateInputsBasic()" ::
                  (validateInputsBasic tx.Inputs).Log }, state)) ∧
    ((validateInputsBasic tx.Inputs).IsErr = false →
      (validateOutputsBasic tx.Outputs).IsErr = true →
      ExecTx E state pgz (.send tx) isCheckTx =
        .ret ({ Code := (validateOutputsBasic tx.Outputs).Code,
                Data := (validateOutputsBasic tx.Outputs).Data,
                Log := .text "in validateOutputsBasic()" ::
                  (validateOutputsBasic tx.Outputs).Log }, state)) ∧
    ((validateInputsBasic tx.Inputs).IsErr = false →
      (validateOutputsBasic tx.Outputs).IsErr = false →
      (getInputs state tx.Inputs).2.IsErr = true →
      ExecTx E state pgz (.send tx) isCheckTx =
        .ret ({ Code := (getInputs state tx.Inputs).2.Code,
                Data := (getInputs state tx.Inputs).2.Data,
                Log := .text "in getInputs()" :: (getInputs state tx.Inputs).2.Log },
          state)) ∧
    ((validateInputsBasic tx.Inputs).IsErr = false →
      (validateOutputsBasic tx.Outputs).IsErr = false →
      (getInputs state tx.Inputs).2.IsErr = false →
      (getOrMakeOutputs state (getInputs state tx.Inputs).1 tx.Outputs).2.IsErr = true →
      ExecTx E state pgz (.send tx) isCheckTx =
        .ret ({ Code := .BaseDuplicateAddress, Data := [],
                Log := [.text "in getOrMakeOutputs()", .canned .BaseDuplicateAddress] },
          state)) ∧
    ((validateInputsBasic tx.Inputs).IsErr = false →
      (validateOutputsBasic tx.Outputs).IsErr = false →
      (getInputs state tx.Inputs).2.IsErr = false →
      (getOrMakeOutputs state (getInputs state tx.Inputs).1 tx.Outputs).2.IsErr = false →
      ∀ inTotal r, validateInputsAdvanced E
          (getOrMakeOutputs state (getInputs state tx.Inputs).1 tx.Outputs).1
          (tx.SignBytes E state.GetChainID).1 tx.Inputs = .ret (inTotal, r) →
        (r.IsErr = true →
          ExecTx E state pgz (.send tx) isCheckTx =
            .ret ({ Code := r.Code, Data := r.Data,
                    Log := .text "in validateInputsAdvanced()" :: r.Log }, state)) ∧
        (r.IsErr = false →
          inTotal.IsEqual ((sumOutputs tx.Outputs).Plus [tx.Fee]) = false →
          ExecTx E state pgz (.send tx) isCheckTx =
            .ret ({ Code := .BaseInvalidOutput, Data := [],
                    Log := [.canned .BaseInvalidOutput,
                      .text "Input total != output total + fees"] }, state))) ∧
    (∀ pre i post, tx.Inputs = pre ++ i :: post →
      (∀ j ∈ pre, j.ValidateBasic.IsErr = false) → i.ValidateBasic.IsErr = true →
      validateInputsBasic tx.Inputs = i.ValidateBasic) ∧
    (∀ pre o post, tx.Outputs = pre ++ o :: post →
      (∀ j ∈ pre, j.ValidateBasic.IsErr = false) → o.ValidateBasic.IsErr = true →
      validateOutputsBasic tx.Outputs = o.ValidateBasic) ∧
    (∀ pre i post, tx.Inputs = pre ++ i :: post → goodInputs state pre →
      (i.Address ∈ (pre.map fun j => j.Address) →
        getInputs state tx.Inputs = (none, ErrBaseDuplicateAddress)) ∧
      (i.Address ∉ (pre.map fun j => j.Address) → state.GetAccount i.Address = none →
        getInputs state tx.Inputs = (none, ErrBaseUnknownAddress))) ∧
    (∀ accounts, (getOrMakeOutputs state accounts tx.Outputs).2.IsErr = true →
      getOrMakeOutputs state accounts tx.Outputs = (none, ErrBaseDuplicateAddress)) ∧
    (∀ (m : ByteMap Account) (signBytes : Bytes) pre i post r,
      tx.Inputs = pre ++ i :: post →
      (∀ j ∈ pre, ∃ acc rj, m.get j.Address = some acc ∧
        validateInputAdvanced E acc signBytes j = .ret rj ∧ rj.IsErr = false) →
      (∃ acc, m.get i.Address = some acc ∧
        validateInputAdvanced E acc signBytes i = .ret r) →
      r.IsErr = true →
      validateInputsAdvanced E (some m) signBytes tx.Inputs =
        .ret (pre.foldl (fun t j => Coins.Plus t j.Coins) [], r)) := by
  have heq : ExecTx E state pgz (.send tx) isCheckTx = execSendTx E state tx isCheckTx := rfl
  rw [heq, execSendTx_eq]
  refine ⟨?_, ?_, ?_, ?_, ?_, ?_, ?_, ?_, ?_, ?_⟩
  · intro h1
    simp only [h1, if_true]
    rfl
  · intro h1 h2
    simp only [h1, h2, Bool.false_eq_true, if_false, if_true]
    rfl
  · intro h1 h2 h3
    simp only [h1, h2, h3, Bool.false_eq_true, if_false, if_true]
    rfl
  · intro h1 h2 h3 h4
    simp only [h1, h2, h3, h4, Bool.false_eq_true, if_false, if_true]
    rw [getOrMakeOutputs_err state _ tx.Outputs h4]
    rfl
  · intro h1 h2 h3 h4 inTotal r hv
    have hv' : validateInputsAdvanced E
        (getOrMakeOutputs state (getInputs state tx.Inputs).1 tx.Outputs).1
        (tx.SignBytes E state.chainID).1 tx.Inputs = .ret (inTotal, r) := hv
    constructor
    · intro h5
      simp only [h1, h2, h3, h4, Bool.false_eq_true, if_false, hv', h5, if_true]
      rfl
    · intro h5 h6
      have := (execSendTx_stages E state tx isCheckTx h1 h2 h3 h4 inTotal r hv' h5).2.1 h6
      rw [execSendTx_eq] at this
      rw [this]
      rfl
  · intro pre i post hins hpre hi
    rw [hins]
    exact validateInputsBasic_first pre i post hpre hi
  · intro pre o post houts hpre ho
    rw [houts]
    exact validateOutputsBasic_first pre o post hpre ho
  · intro pre i post hins hg
    rw [hins]
    exact getInputs_first state pre i post hg
  · intro accounts h
    exact getOrMakeOutputs_err state accounts tx.Outputs h
  · intro m signBytes pre i post r hins hpre hi hr
    rw [hins]
    exact validateInputsAdvancedLoop_first E m signBytes pre i post [] r hpre hi hr

/-- C27, on the transfer `exSendTx` with a second input that fails
`ValidateBasic` (address of length 1) and a second output to the address of
the first: the input stage decides, under its prefix. -/
theorem ExecTx_send_first_failure_witness :
    ExecTx refExt exState exPlugins
      (.send { Gas := 0, Fee := ⟨"", 1⟩,
               Inputs := (exSendTx GoInt.one (some exKey)).Inputs ++
                 [{ Address := [1], Coins := [], Sequence := GoInt.zero, Signature := none,
                    PubKey := none }],
               Outputs := [{ Address := exAddrB, Coins := [⟨"", 5⟩] },
                           { Address := exAddrB, Coins := [⟨"", 5⟩] }] }) false =
      .ret ({ Code := .BaseInvalidInput, Data := [],
              Log := [.text "in validateInputsBasic()", .canned .BaseInvalidInput,
                .text "Invalid address length"] }, exState) :=
  ((ExecTx_send_first_failure refExt exState exPlugins _ false).1 (by decide)).trans
    (by decide)

/-! ## No panic -/

theorem State.keysKnown_get {state : State} (hk : state.keysKnown) {a : Bytes}
    {acc : Account} (h : state.GetAccount a = some acc) (hs : 1 ≤ acc.Sequence.val) :
    acc.PubKey.isSome = true :=
  hk (a, acc) (State.mem_of_GetAccount state a acc h) hs

/-- The advanced validation of an input that passed `ValidateBasic`, on the
account loaded for it, returns when the account has a pub_key or sequence
below 1. -/
theorem validateInputAdvanced_returns (E : Ext) (acc : Account) (signBytes : Bytes)
    (i : TxInput) (hb : i.ValidateBasic = OK)
    (hk : 1 ≤ acc.Sequence.val → acc.PubKey.isSome = true) :
    ∃ r, validateInputAdvanced E (installPubKey i acc) signBytes i = .ret r := by
  obtain ⟨-, -, -, hseq, hpk⟩ := (TxInput.ValidateBasic_input_OK_iff i).mp hb
  cases hp : (installPubKey i acc).PubKey with
  | some k => exact ⟨_, validateInputAdvanced_eq E _ signBytes i k hp⟩
  | none =>
    have h1 : GoInt.add (installPubKey i acc).Sequence GoInt.one ≠ i.Sequence := by
      intro e
      rw [installPubKey_Sequence] at e
      cases hi : i.PubKey with
      | some k => simp [installPubKey, hi] at hp
      | none =>
        have hne : i.Sequence.val ≠ 1 := by
          intro e1
          have := hpk.mpr e1
          rw [hi] at this
          cases this
        have hval := GoInt.add_one_val _ _ e hseq
        obtain ⟨k, hk'⟩ := Option.isSome_iff_exists.mp (hk (by omega))
        simp [installPubKey, hi, hk'] at hp
    unfold validateInputAdvanced
    simp only [h1, ne_eq, not_false_eq_true, if_true]
    exact ⟨_, rfl⟩

theorem validateInputsAdvancedLoop_returns (E : Ext) (m : ByteMap Account)
    (signBytes : Bytes) (ins : List TxInput) (total : Coins)
    (hb : ∀ i ∈ ins, i.ValidateBasic = OK)
    (hm : ∀ i ∈ ins, ∃ acc, m.get i.Address = some (installPubKey i acc) ∧
      (1 ≤ acc.Sequence.val → acc.PubKey.isSome = true)) :
    ∃ p, validateInputsAdvancedLoop E (some m) signBytes ins total = .ret p := by
  induction ins generalizing total with
  | nil => exact ⟨_, rfl⟩
  | cons i rest ih =>
    obtain ⟨acc, hacc, hk⟩ := hm i (List.mem_cons_self _ _)
    obtain ⟨r, hr⟩ := validateInputAdvanced_returns E acc signBytes i
      (hb i (List.mem_cons_self _ _)) hk
    simp only [validateInputsAdvancedLoop, Option.some_bind, hacc, hr]
    by_cases he : r.IsErr = true
    · rw [if_pos he]
      exact ⟨_, rfl⟩
    · rw [if_neg he]
      exact ih _ (fun j hj => hb j (List.mem_cons_of_mem _ hj))
        (fun j hj => hm j (List.mem_cons_of_mem _ hj))

theorem execSendTx_returns (E : Ext) (state : State) (tx : SendTx) (isCheckTx : Bool)
    (hk : state.keysKnown) :
    ∃ res state', execSendTx E state tx isCheckTx = .ret (res, state') := by
  have heq := execSendTx_eq E state tx isCheckTx
  cases h1 : (validateInputsBasic tx.Inputs).IsErr
  swap
  · simp only [h1, if_true] at heq
    exact ⟨_, _, heq⟩
  cases h2 : (validateOutputsBasic tx.Outputs).IsErr
  swap
  · simp only [h1, h2, Bool.false_eq_true, if_false, if_true] at heq
    exact ⟨_, _, heq⟩
  cases h3 : (getInputs state tx.Inputs).2.IsErr
  swap
  · simp only [h1, h2, h3, Bool.false_eq_true, if_false, if_true] at heq
    exact ⟨_, _, heq⟩
  cases h4 : (getOrMakeOutputs state (getInputs state tx.Inputs).1 tx.Outputs).2.IsErr
  swap
  · simp only [h1, h2, h3, h4, Bool.false_eq_true, if_false, if_true] at heq
    exact ⟨_, _, heq⟩
  simp only [h1, h2, h3, h4, Bool.false_eq_true, if_false] at heq
  obtain ⟨hgood, m1, hm1, hm1in, hm1out⟩ := getInputs_not_err state tx.Inputs h3
  have h4' := h4
  rw [hm1] at h4'
  obtain ⟨m2, hm2, -, hodisj, -, hm2out⟩ := getOrMakeOutputs_not_err state m1 tx.Outputs h4'
  have hret : ∃ p, validateInputsAdvanced E
      (getOrMakeOutputs state (getInputs state tx.Inputs).1 tx.Outputs).1
      (tx.SignBytes E state.chainID).1 tx.Inputs = .ret p := by
    rw [hm1]
    simp only [hm2]
    apply validateInputsAdvancedLoop_returns E m2 _ tx.Inputs []
      (validateInputsBasic_not_err tx.Inputs h1)
    intro i hi
    obtain ⟨acc, hacc⟩ := Option.isSome_iff_exists.mp (hgood.2 i hi)
    have hin : m1.get i.Address = some (installPubKey i acc) := by
      rw [hm1in i hi, hacc]; rfl
    have hnot : i.Address ∉ tx.Outputs.map fun o => o.Address := by
      intro hmem
      obtain ⟨o, ho, e⟩ := List.mem_map.mp hmem
      rw [← e, hodisj o ho] at hin
      cases hin
    exact ⟨acc, by rw [hm2out _ hnot]; exact hin, fun hs => State.keysKnown_get hk hacc hs⟩
  obtain ⟨⟨inTotal, r⟩, hv⟩ := hret
  simp only [hv] at heq
  cases h5 : r.IsErr
  swap
  · simp only [h5, if_true] at heq
    exact ⟨_, _, heq⟩
  obtain ⟨-, hne, hok⟩ := execSendTx_stages E state tx isCheckTx h1 h2 h3 h4 inTotal r hv h5
  cases h6 : inTotal.IsEqual ((sumOutputs tx.Outputs).Plus [tx.Fee])
  · exact ⟨_, _, hne h6⟩
  · obtain ⟨st, hst, -⟩ := hok h6
    exact ⟨_, _, hst⟩

theorem execAppTx_returns (E : Ext) (state : State) (pgz : Plugins) (tx : AppTx)
    (isCheckTx : Bool) (hk : state.keysKnown) :
    ∃ res state', execAppTx E state pgz tx isCheckTx = .ret (res, state') := by
  rw [execAppTx_eq]
  cases h1 : tx.Input.ValidateBasic.IsErr
  swap
  · simp only [if_true]
    exact ⟨_, _, rfl⟩
  simp only [Bool.false_eq_true, if_false]
  cases hacc : state.GetAccount tx.Input.Address with
  | none => exact ⟨_, _, rfl⟩
  | some acc =>
    obtain ⟨r, hr⟩ := validateInputAdvanced_returns E acc (tx.SignBytes E state.GetChainID).1
      tx.Input (TxInput.ValidateBasic_input_not_err _ h1) (fun hs => State.keysKnown_get hk hacc hs)
    simp only [hr]
    cases r.IsErr
    swap
    · simp only [if_true]
      exact ⟨_, _, rfl⟩
    simp only [Bool.false_eq_true, if_false]
    cases tx.Input.Coins.IsGTE [tx.Fee]
    · simp only [if_true]
      exact ⟨_, _, rfl⟩
    simp only [Bool.true_eq_false, if_false]
    cases pgz.GetByName tx.Name with
    | none => exact ⟨_, _, rfl⟩
    | some plugin =>
      simp only []
      cases isCheckTx
      · simp only [Bool.false_eq_true, if_false]
        cases (plugin.RunTx (appCache state tx acc).store (appContext tx acc) tx.Data).1.IsOK
        · simp only [Bool.false_eq_true, if_false]
          exact ⟨_, _, rfl⟩
        · simp only [if_true]
          exact ⟨_, _, rfl⟩
      · simp only [if_true]
        exact ⟨_, _, rfl⟩

/-- C28. On a state in which every stored account of sequence at least 1 has
a pub_key, `ExecTx` returns a result, for every send transaction and every
application transaction, in check mode and in deliver mode: no `PanicSanity`
branch of `validateInputsAdvanced`, `adjustByInputs` or `adjustByOutputs` is
reached, the balance check of `adjustByInputs` holds for every input, and
`VerifyBytes` is not called on an absent pub_key. -/
theorem ExecTx_no_panic (E : Ext) (state : State) (pgz : Plugins) (tx : Tx)
    (isCheckTx : Bool) (hk : state.keysKnown) :
    ∃ res state', ExecTx E state pgz tx isCheckTx = .ret (res, state') := by
  cases tx with
  | send tx => exact execSendTx_returns E state tx isCheckTx hk
  | app tx => exact execAppTx_returns E state pgz tx isCheckTx hk
  | nil => exact ⟨_, _, rfl⟩

/-- C28, on the state `exState`, whose account has sequence 0 and no
pub_key, and the transfer `exSendTx` with the input sequence 2, which carries
no pub_key: a result is returned. -/
theorem ExecTx_no_panic_witness :
    exState.keysKnown ∧
    ∃ res state', ExecTx refExt exState exPlugins (.send (exSendTx ⟨2, by decide⟩ none))
      false = .ret (res, state') :=
  ⟨by unfold State.keysKnown; decide,
    ExecTx_no_panic refExt exState exPlugins (.send (exSendTx ⟨2, by decide⟩ none)) false
      (by unfold State.keysKnown; decide)⟩

/-! ## A send transaction in check mode -/

/-- C29. When `ExecTx` in check mode returns OK on a send transaction, each
input address stores its previous account with the balance reduced by the
coins of the input and the sequence increased by 1, and every other address
is as before: no output account is written, so an output address without an
account still has none and an account at an output address keeps its
balance; the other records and the chain id are unchanged. -/
theorem ExecTx_send_check_frame (E : Ext) (state : State) (pgz : Plugins) (tx : SendTx)
    (res : Result) (state' : State)
    (h : ExecTx E state pgz (.send tx) true = .ret (res, state'))
    (hok : res.IsOK = true) :
    (∀ i ∈ tx.Inputs, ∃ acc acc', state.GetAccount i.Address = some acc ∧
      state'.GetAccount i.Address = some acc' ∧
      acc'.Balance = acc.Balance.Minus i.Coins ∧
      acc'.Sequence.val = acc.Sequence.val + 1) ∧
    (∀ a, (∀ i ∈ tx.Inputs, i.Address ≠ a) → state'.GetAccount a = state.GetAccount a) ∧
    (∀ o ∈ tx.Outputs, state'.GetAccount o.Address = state.GetAccount o.Address) ∧
    state'.store.data = state.store.data ∧
    state'.GetChainID = state.GetChainID := by
  obtain ⟨-, hacc⟩ := execSendTx_accepted E state tx true res state' h
    ((Result.IsOK_iff res).mp hok)
  have hout : ∀ o ∈ tx.Outputs, state'.GetAccount o.Address = state.GetAccount o.Address := by
    intro o ho
    rw [hacc.atOutputs o ho]
    simp only [if_true]
  refine ⟨?_, ?_, hout, hacc.data, hacc.chainID⟩
  · intro i hi
    obtain ⟨acc, hget, hseq, -, -⟩ := hacc.advanced i hi
    refine ⟨acc, _, hget, hacc.atInputs i hi acc hget, ?_, ?_⟩
    · simp only [inputAdjusted, installPubKey_Balance]
    · have hb := ((TxInput.ValidateBasic_input_OK_iff i).mp (hacc.inputsBasic i hi)).2.2.2.1
      simp only [inputAdjusted, installPubKey_Sequence, hseq]
      exact GoInt.add_one_val _ _ hseq hb
  · intro a ha
    by_cases hmem : a ∈ tx.Outputs.map fun o => o.Address
    · obtain ⟨o, ho, e⟩ := List.mem_map.mp hmem
      rw [← e]
      exact hout o ho
    · apply hacc.elsewhere _ _ hmem
      intro hin
      obtain ⟨i, hi, e⟩ := List.mem_map.mp hin
      exact ha i hi e

/-- C29, on the transfer `exSendTx` from `exState` in check mode: the sender
is debited, and the recipient `exAddrB`, which had no account, has none. -/
theorem ExecTx_send_check_frame_witness :
    ExecTx refExt exState exPlugins (.send (exSendTx GoInt.one (some exKey))) true =
      .ret (OK, exState.SetAccount exAddrA
        ⟨some exKey, GoInt.one, [⟨"", 989⟩, ⟨"gold", 1000⟩]⟩) ∧
    (exState.SetAccount exAddrA
      ⟨some exKey, GoInt.one, [⟨"", 989⟩, ⟨"gold", 1000⟩]⟩).GetAccount exAddrB =
      exState.GetAccount exAddrB ∧
    exState.GetAccount exAddrB = none :=
  ⟨by decide,
    (ExecTx_send_check_frame refExt exState exPlugins (exSendTx GoInt.one (some exKey)) OK
      (exState.SetAccount exAddrA ⟨some exKey, GoInt.one, [⟨"", 989⟩, ⟨"gold", 1000⟩]⟩)
      (by decide) (by decide)).2.2.1 _ (List.mem_singleton.mpr rfl),
    by decide⟩

/-! ## Option keys -/

theorem takeWhile_dropWhile_slash (l : List Char) (h : '/' ∈ l) :
    (l.takeWhile fun c => decide (c ≠ '/')) ++
      '/' :: (l.dropWhile fun c => decide (c ≠ '/')).drop 1 = l := by
  induction l with
  | nil => cases h
  | cons c t ih =>
    by_cases hc : c = '/'
    · subst hc
      simp [List.takeWhile, List.dropWhile]
    · have ht : '/' ∈ t := by
        rcases List.mem_cons.mp h with e | e
        · exact absurd e.symm hc
        · exact e
      have h1 : (List.takeWhile (fun c => decide (c ≠ '/')) (c :: t)) =
          c :: List.takeWhile (fun c => decide (c ≠ '/')) t := by
        simp [List.takeWhile, hc]
      have h2 : (List.dropWhile (fun c => decide (c ≠ '/')) (c :: t)) =
          List.dropWhile (fun c => decide (c ≠ '/')) t := by
        simp [List.dropWhile, hc]
      rw [h1, h2, List.cons_append, ih ht]

/-- The two parts `splitKey` returns: for a key with a '/', the part before
the first '/' and the part after it; for a key without, the key and the empty
string. -/
theorem splitKey_parts (key : String) :
    ('/' ∈ key.toList →
      key = (splitKey key).1 ++ "/" ++ (splitKey key).2 ∧ '/' ∉ (splitKey key).1.toList) ∧
    ('/' ∉ key.toList → splitKey key = (key, "")) := by
  constructor
  · intro h
    unfold splitKey
    simp only [h, if_true]
    constructor
    · apply String.ext
      have := takeWhile_dropWhile_slash key.toList h
      simp only [String.data_append, List.append_assoc]
      exact this.symm
    · intro hmem
      have := List.mem_takeWhile_imp hmem
      simp at this
  · intro h
    unfold splitKey
    simp only [h, if_false]

/-! ## The application -/

theorem decode_error_ne_size_error (err : String) :
    "Error decoding tx: " ++ err ≠ "Tx size exceeds maximum" := by
  intro h
  have := congrArg String.data h
  simp [String.data_append] at this

/-- C22. For a byte string longer than 10240, `DeliverTx` and `CheckTx`
return the result of code `BaseEncodingError` with the log "Tx size exceeds
maximum" and leave the application as it was, whatever the decoder would give
on the bytes; for a byte string of length at most 10240, so of length exactly
10240 too, a result they return is not that one, and a decoding error is
reported as such. -/
theorem DeliverTx_CheckTx_size_limit (E : Ext) (W : Wire) (app : Basecoin) (txBytes : Bytes) :
    (txBytes.length > 10240 → ∀ W' : Wire,
      app.DeliverTx E W' txBytes =
        .ret ({ Code := .BaseEncodingError, Data := [],
                Log := [.text "Tx size exceeds maximum"] }, app) ∧
      app.CheckTx E W' txBytes =
        .ret ({ Code := .BaseEncodingError, Data := [],
                Log := [.text "Tx size exceeds maximum"] }, app)) ∧
    (txBytes.length ≤ 10240 →
      (∀ res app', app.DeliverTx E W txBytes = .ret (res, app') →
        res.Log ≠ [.text "Tx size exceeds maximum"]) ∧
      (∀ res app', app.CheckTx E W txBytes = .ret (res, app') →
        res.Log ≠ [.text "Tx size exceeds maximum"]) ∧
      (∀ err, W.ReadBinaryTx txBytes = .error err →
        app.DeliverTx E W txBytes =
          .ret ({ Code := .BaseEncodingError, Data := [],
                  Log := [.text ("Error decoding tx: " ++ err)] }, app) ∧
        app.CheckTx E W txBytes =
          .ret ({ Code := .BaseEncodingError, Data := [],
                  Log := [.text ("Error decoding tx: " ++ err)] }, app))) := by
  constructor
  · intro h W'
    have h' : txBytes.length > maxTxSize := h
    simp only [Basecoin.DeliverTx, Basecoin.CheckTx, h', if_true, and_self]
  · intro h
    have h' : ¬ txBytes.length > maxTxSize := by
      show ¬ txBytes.length > 10240
      omega
    refine ⟨?_, ?_, ?_⟩
    · intro res app' hres
      simp only [Basecoin.DeliverTx, h', if_false] at hres
      cases hd : W.ReadBinaryTx txBytes with
      | error err =>
        simp only [hd, Outcome.ret.injEq, Prod.mk.injEq] at hres
        rw [← hres.1]
        simp [decode_error_ne_size_error]
      | ok tx =>
        simp only [hd] at hres
        cases hx : ExecTx E app.state app.plugins tx false with
        | panic e => simp [hx] at hres
        | ret p =>
          obtain ⟨r, st⟩ := p
          simp only [hx] at hres
          cases hr : r.IsErr
          · simp only [hr, Bool.false_eq_true, if_false, Outcome.ret.injEq,
              Prod.mk.injEq] at hres
            rw [← hres.1]
            simp
          · simp only [hr, if_true, Outcome.ret.injEq, Prod.mk.injEq] at hres
            rw [← hres.1]
            simp [Result.PrependLog]
    · intro res app' hres
      simp only [Basecoin.CheckTx, h', if_false] at hres
      cases hd : W.ReadBinaryTx txBytes with
      | error err =>
        simp only [hd, Outcome.ret.injEq, Prod.mk.injEq] at hres
        rw [← hres.1]
        simp [decode_error_ne_size_error]
      | ok tx =>
        simp only [hd] at hres
        cases hc : app.cacheState with
        | none => simp [hc] at hres
        | some cs =>
          simp only [hc] at hres
          cases hx : ExecTx E cs app.plugins tx true with
          | panic e => simp [hx] at hres
          | ret p =>
            obtain ⟨r, st⟩ := p
            simp only [hx] at hres
            cases hr : r.IsErr
            · simp only [hr, Bool.false_eq_true, if_false, Outcome.ret.injEq,
                Prod.mk.injEq] at hres
              rw [← hres.1]
              simp
            · simp only [hr, if_true, Outcome.ret.injEq, Prod.mk.injEq] at hres
              rw [← hres.1]
              simp [Result.PrependLog]
    · intro err hd
      simp only [Basecoin.DeliverTx, Basecoin.CheckTx, h', if_false, hd, and_self]

/-- C22, on the byte strings of 10241 and of 10240 zero bytes given to
`exApp`: the first is refused for its size, the second reaches the decoder. -/
theorem DeliverTx_CheckTx_size_limit_witness :
    exApp.DeliverTx refExt refWire (List.replicate 10241 0) =
      .ret ({ Code := .BaseEncodingError, Data := [],
              Log := [.text "Tx size exceeds maximum"] }, exApp) ∧
    exApp.DeliverTx refExt refWire (List.replicate 10240 0) =
      .ret ({ Code := .BaseEncodingError, Data := [],
              Log := [.text ("Error decoding tx: " ++ "unknown type byte")] }, exApp) :=
  ⟨((DeliverTx_CheckTx_size_limit refExt refWire exApp (List.replicate 10241 0)).1
      (by rw [List.length_replicate]; omega) refWire).1,
    ((DeliverTx_CheckTx_size_limit refExt refWire exApp (List.replicate 10240 0)).2
      (by rw [List.length_replicate])).2.2 "unknown type byte" (by
        have h1 : List.replicate 10240 0 ≠ [1] := by
          intro h
          have := congrArg List.length h
          rw [List.length_replicate] at this
          exact absurd this (by decide)
        have h2 : List.replicate 10240 0 ≠ [2] := by
          intro h
          have := congrArg List.length h
          rw [List.length_replicate] at this
          exact absurd this (by decide)
        simp only [refWire, h1, h2, if_false]) |>.1⟩

/-- C26. `SetOption` dispatches on the part of the key before the first '/'
(the whole key when it has no '/'; the remainder is then empty). When that
part is "base": the remainder "chainID" sets the chain id of the state to the
value and the log is "Success"; a remainder other than "chainID" and
"account" gives the log "Unrecognized option key " followed by the remainder
and leaves the application as it was. When that part is not "base": the call
is forwarded to the `SetOption` of the plugin registered under that name,
with the remainder as key, and the log is that of the plugin; when no plugin
is registered under it the log is "Invalid plugin name: " followed by the
name and the application is left as it was. -/
theorem SetOption_dispatch (E : Ext) (W : Wire) (app : Basecoin) (key value : String) :
    (('/' ∈ key.toList →
        key = (splitKey key).1 ++ "/" ++ (splitKey key).2 ∧
          '/' ∉ (splitKey key).1.toList) ∧
      ('/' ∉ key.toList → splitKey key = (key, ""))) ∧
    ((splitKey key).1 = "base" → (splitKey key).2 = "chainID" →
      app.SetOption E W key value =
        .ret ("Success", { app with state := app.state.SetChainID value }) ∧
      (app.state.SetChainID value).GetChainID = value ∧
      (app.state.SetChainID value).store = app.state.store) ∧
    ((splitKey key).1 = "base" → (splitKey key).2 ≠ "chainID" →
      (splitKey key).2 ≠ "account" →
      app.SetOption E W key value =
        .ret ("Unrecognized option key " ++ (splitKey key).2, app)) ∧
    ((splitKey key).1 ≠ "base" →
      (∀ plugin, app.plugins.GetByName (splitKey key).1 = some plugin →
        app.SetOption E W key value =
          .ret ((plugin.SetOption app.state.store (splitKey key).2 value).1,
            { app with state :=
              { app.state with
                store := (plugin.SetOption app.state.store (splitKey key).2 value).2 } })) ∧
      (app.plugins.GetByName (splitKey key).1 = none →
        app.SetOption E W key value =
          .ret ("Invalid plugin name: " ++ (splitKey key).1, app))) := by
  refine ⟨splitKey_parts key, ?_, ?_, ?_⟩
  · intro h1 h2
    refine ⟨?_, rfl, rfl⟩
    unfold Basecoin.SetOption
    simp only [h1, h2, PluginNameBase, ne_eq, not_true, if_false, if_true]
  · intro h1 h2 h3
    unfold Basecoin.SetOption
    simp only [h1, h2, h3, PluginNameBase, ne_eq, not_true, if_false]
  · intro h1
    have h1' : (splitKey key).1 ≠ PluginNameBase := h1
    constructor
    · intro plugin hp
      unfold Basecoin.SetOption
      simp only [h1', ne_eq, not_false_eq_true, if_true, hp]
    · intro hp
      unfold Basecoin.SetOption
      simp only [h1', ne_eq, not_false_eq_true, if_true, hp]

/-- C26, on `exApp`: the key "base/chainID" sets the chain id, and the key
"nosuch/k" names no registered plugin. -/
theorem SetOption_dispatch_witness :
    exApp.SetOption refExt refWire "base/chainID" "test_chain" =
      .ret ("Success", { exApp with state := exApp.state.SetChainID "test_chain" }) ∧
    exApp.SetOption refExt refWire "nosuch/k" "v" =
      .ret ("Invalid plugin name: " ++ (splitKey "nosuch/k").1, exApp) :=
  ⟨((SetOption_dispatch refExt refWire exApp "base/chainID" "test_chain").2.1
      (by decide) (by decide)).1,
    ((SetOption_dispatch refExt refWire exApp "nosuch/k" "v").2.2.2 (by decide)).2 rfl⟩

/-- C30. For a byte string of length at most 10240 that decodes to a
transaction: when `ExecTx` on the live state in deliver mode returns an
error, `DeliverTx` returns the code of that error with its log prefixed by
"Error in DeliverTx", and when it returns without error, `DeliverTx` returns
the code OK with the log "Success"; the live state is as `ExecTx` left it.
`CheckTx` does the same with `ExecTx` on the shadow state in check mode, the
prefix being "Error in CheckTx", and leaves the live state as it was. -/
theorem DeliverTx_CheckTx_wrap (E : Ext) (W : Wire) (app : Basecoin) (txBytes : Bytes)
    (tx : Tx) (hsize : txBytes.length ≤ 10240) (hdec : W.ReadBinaryTx txBytes = .ok tx) :
    (∀ res state', ExecTx E app.state app.plugins tx false = .ret (res, state') →
      (res.IsErr = true →
        app.DeliverTx E W txBytes =
          .ret ({ Code := res.Code, Data := res.Data,
                  Log := .text "Error in DeliverTx" :: res.Log },
            { app with state := state' })) ∧
      (res.IsErr = false →
        app.DeliverTx E W txBytes =
          .ret ({ Code := .OK, Data := [], Log := [.text "Success"] },
            { app with state := state' }))) ∧
    (∀ cacheState res cacheState', app.cacheState = some cacheState →
      ExecTx E cacheState app.plugins tx true = .ret (res, cacheState') →
      (res.IsErr = true →
        app.CheckTx E W txBytes =
          .ret ({ Code := res.Code, Data := res.Data,
                  Log := .text "Error in CheckTx" :: res.Log },
            { app with cacheState := some cacheState' })) ∧
      (res.IsErr = false →
        app.CheckTx E W txBytes =
          .ret ({ Code := .OK, Data := [], Log := [.text "Success"] },
            { app with cacheState := some cacheState' }))) := by
  have h' : ¬ txBytes.length > maxTxSize := by
    show ¬ txBytes.length > 10240
    omega
  constructor
  · intro res state' hx
    constructor
    · intro hr
      simp only [Basecoin.DeliverTx, h', if_false, hdec, hx, hr, if_true, Result.PrependLog]
    · intro hr
      simp only [Basecoin.DeliverTx, h', if_false, hdec, hx, hr, Bool.false_eq_true,
        storeAccounts]
  · intro cs res cs' hc hx
    constructor
    · intro hr
      simp only [Basecoin.CheckTx, h', if_false, hdec, hc, hx, hr, if_true, Result.PrependLog]
    · intro hr
      simp only [Basecoin.CheckTx, h', if_false, hdec, hc, hx, hr, Bool.false_eq_true]

/-- C30, on the byte string `[2]` given to `exApp`, which decodes to the
transaction `exAppTx` for the plugin "fail": `DeliverTx` returns the error of
the plugin under the prefix "Error in DeliverTx", and `CheckTx`, which does
not run the plugin, returns "Success". -/
theorem DeliverTx_CheckTx_wrap_witness :
    exApp.DeliverTx refExt refWire [2] =
      .ret ({ Code := .BaseInvalidInput, Data := [],
              Log := [.text "Error in DeliverTx", .canned .BaseInvalidInput] },
        { exApp with
          state := exState.SetAccount exAddrA
            ⟨some exKey, GoInt.one, [⟨"", 999⟩, ⟨"gold", 1000⟩]⟩ }) ∧
    exApp.CheckTx refExt refWire [2] =
      .ret ({ Code := .OK, Data := [], Log := [.text "Success"] },
        { exApp with
          cacheState := some (exState.SetAccount exAddrA
            ⟨some exKey, GoInt.one, [⟨"", 989⟩, ⟨"gold", 1000⟩]⟩) }) :=
  ⟨((DeliverTx_CheckTx_wrap refExt refWire exApp [2] _ (by decide) rfl).1
      ErrBaseInvalidInput _ (by decide)).1 (by decide),
    ((DeliverTx_CheckTx_wrap refExt refWire exApp [2] _ (by decide) rfl).2
      exState OK _ rfl (by decide)).2 (by decide)⟩

/-! ## Accounts with a pub_key -/

theorem State.keysKnown_of_get {state : State}
    (h : ∀ a acc, state.GetAccount a = some acc → 1 ≤ acc.Sequence.val →
      acc.PubKey.isSome = true) : state.keysKnown :=
  fun e he hs => h e.1 e.2 (State.GetAccount_of_mem state e he) hs

theorem State.keysKnown_SetAccount {state : State} (hk : state.keysKnown) (a : Bytes)
    (acc : Account) (hacc : 1 ≤ acc.Sequence.val → acc.PubKey.isSome = true) :
    (state.SetAccount a acc).keysKnown := by
  apply State.keysKnown_of_get
  intro b acc' hget hs
  rw [State.GetAccount_SetAccount] at hget
  by_cases hab : a = b
  · simp only [hab, if_true, Option.some.injEq] at hget
    rw [← hget] at hs ⊢
    exact hacc hs
  · simp only [hab, if_false] at hget
    exact State.keysKnown_get hk hget hs

/-- An accepted send transaction keeps a pub_key on every stored account of
sequence at least 1. -/
theorem SendAccepted.keys_known {E : Ext} {state : State} {tx : SendTx} {isCheckTx : Bool}
    {state' : State} (A : SendAccepted E state tx isCheckTx state')
    (hk : state.keysKnown) : state'.keysKnown := by
  apply State.keysKnown_of_get
  intro a acc' hget hs
  by_cases hin : a ∈ tx.Inputs.map fun i => i.Address
  · obtain ⟨i, hi, rfl⟩ := List.mem_map.mp hin
    obtain ⟨acc0, hacc0, -, -, pubKey, hpub, -⟩ := A.advanced i hi
    rw [A.atInputs i hi acc0 hacc0] at hget
    cases hget
    simp only [inputAdjusted, hpub, Option.isSome_some]
  · by_cases hout : a ∈ tx.Outputs.map fun o => o.Address
    · obtain ⟨o, ho, rfl⟩ := List.mem_map.mp hout
      rw [A.atOutputs o ho] at hget
      cases isCheckTx
      · simp only [Bool.false_eq_true, if_false, Option.some.injEq] at hget
        rw [← hget] at hs ⊢
        cases hold : state.GetAccount o.Address with
        | none =>
          rw [hold] at hs
          have hz : (outputAdjusted o freshAccount).Sequence.val = 0 := rfl
          have hs' : 1 ≤ (outputAdjusted o freshAccount).Sequence.val := hs
          rw [hz] at hs'
          exact absurd hs' (by decide)
        | some acc0 =>
          rw [hold] at hs
          have hs' : 1 ≤ acc0.Sequence.val := hs
          show acc0.PubKey.isSome = true
          exact State.keysKnown_get hk hold hs'
      · simp only [if_true] at hget
        exact State.keysKnown_get hk hget hs
    · rw [A.elsewhere a hin hout] at hget
      exact State.keysKnown_get hk hget hs

/-- An application transaction leaves the state it was given, unless every
check before the plugin passes. -/
theorem execAppTx_state_or_reaches (E : Ext) (state : State) (pgz : Plugins) (tx : AppTx)
    (isCheckTx : Bool) (res : Result) (state' : State)
    (h : execAppTx E state pgz tx isCheckTx = .ret (res, state')) :
    state' = state ∨ ∃ acc plugin, AppReaches E state pgz tx acc plugin := by
  rw [execAppTx_eq] at h
  cases h1 : tx.Input.ValidateBasic.IsErr
  swap
  · simp only [h1, if_true, Outcome.ret.injEq, Prod.mk.injEq] at h
    exact Or.inl h.2.symm
  simp only [h1, Bool.false_eq_true, if_false] at h
  cases hacc : state.GetAccount tx.Input.Address with
  | none =>
    simp only [hacc, Outcome.ret.injEq, Prod.mk.injEq] at h
    exact Or.inl h.2.symm
  | some acc =>
    simp only [hacc] at h
    cases hv : validateInputAdvanced E (installPubKey tx.Input acc)
        (tx.SignBytes E state.GetChainID).1 tx.Input with
    | panic e => simp only [hv] at h; cases h
    | ret r =>
      simp only [hv] at h
      cases h2 : r.IsErr
      swap
      · simp only [h2, if_true, Outcome.ret.injEq, Prod.mk.injEq] at h
        exact Or.inl h.2.symm
      simp only [h2, Bool.false_eq_true, if_false] at h
      cases h3 : tx.Input.Coins.IsGTE [tx.Fee]
      · simp only [h3, if_true, Outcome.ret.injEq, Prod.mk.injEq] at h
        exact Or.inl h.2.symm
      simp only [h3, Bool.true_eq_false, if_false] at h
      cases hp : pgz.GetByName tx.Name with
      | none =>
        simp only [hp, Outcome.ret.injEq, Prod.mk.injEq] at h
        exact Or.inl h.2.symm
      | some plugin => exact Or.inr ⟨acc, plugin, h1, hacc, ⟨r, hv, h2⟩, h3, hp⟩

theorem AppReaches.debited_key {E : Ext} {state : State} {pgz : Plugins} {tx : AppTx}
    {acc : Account} {plugin : Plugin} (h : AppReaches E state pgz tx acc plugin) :
    (appDebited tx acc).PubKey.isSome = true := by
  obtain ⟨res, hv, hres⟩ := h.advanced
  obtain ⟨-, -, pubKey, hpub, -⟩ := validateInputAdvanced_not_err E _ _ _ res hv hres
  show (installPubKey tx.Input acc).PubKey.isSome = true
  rw [hpub]
  rfl

/-- C32. On a state in which every stored account of sequence at least 1 has
a pub_key, `ExecTx` returns, and the state it leaves has a pub_key on every
stored account of sequence at least 1 again, for every send transaction in
both modes, for every application transaction in check mode, and for every
application transaction on which `ExecTx` returns an error, so one that fails
before the plugin is invoked (one whose plugin fails is covered as well). An
input account stored with a new sequence has the pub_key that verified its
signature. -/
theorem ExecTx_keeps_keys_known (E : Ext) (state : State) (pgz : Plugins) (tx : Tx)
    (isCheckTx : Bool) (hk : state.keysKnown) :
    (∃ res state', ExecTx E state pgz tx isCheckTx = .ret (res, state')) ∧
    ∀ res state', ExecTx E state pgz tx isCheckTx = .ret (res, state') →
      ((∃ s, tx = .send s) ∨ isCheckTx = true ∨ res.IsErr = true) →
      state'.keysKnown := by
  constructor
  · cases tx with
    | send tx => exact execSendTx_returns E state tx isCheckTx hk
    | app tx => exact execAppTx_returns E state pgz tx isCheckTx hk
    | nil => exact ⟨_, _, rfl⟩
  · intro res state' h hcase
    cases tx with
    | send tx =>
      cases herr : res.IsErr
      · exact (execSendTx_accepted E state tx isCheckTx res state' h herr).2.keys_known hk
      · rw [execSendTx_err_state E state tx isCheckTx res state' h herr]
        exact hk
    | nil =>
      simp only [ExecTx, Outcome.ret.injEq, Prod.mk.injEq] at h
      rw [← h.2]
      exact hk
    | app tx =>
      have h' : execAppTx E state pgz tx isCheckTx = .ret (res, state') := h
      rcases execAppTx_state_or_reaches E state pgz tx isCheckTx res state' h' with
        hsame | ⟨acc, plugin, hr⟩
      · rw [hsame]
        exact hk
      · rw [execAppTx_reached hr] at h'
        cases isCheckTx
        · simp only [Bool.false_eq_true, if_false] at h'
          have herr : res.IsErr = true := by
            rcases hcase with ⟨s, hs⟩ | hc | he
            · cases hs
            · cases hc
            · exact he
          by_cases hok : (plugin.RunTx (appCache state tx acc).store (appContext tx acc)
              tx.Data).1.IsOK = true
          · simp only [hok, if_true, Outcome.ret.injEq, Prod.mk.injEq] at h'
            rw [← h'.1, (Result.IsOK_iff _).mp hok] at herr
            cases herr
          · simp only [hok, Bool.false_eq_true, if_false, Outcome.ret.injEq, Prod.mk.injEq] at h'
            rw [← h'.2]
            exact State.keysKnown_SetAccount hk _ _ (fun _ => hr.debited_key)
        · simp only [if_true, Outcome.ret.injEq, Prod.mk.injEq] at h'
          rw [← h'.2]
          exact State.keysKnown_SetAccount hk _ _ (fun _ => hr.debited_key)

/-- C32, on the transfer `exSendTx` delivered from `exState`, which leads to
`exStateAfter`: the sender, now at sequence 1, holds the key of the input. -/
theorem ExecTx_keeps_keys_known_witness : exState.keysKnown ∧ exStateAfter.keysKnown :=
  ⟨by unfold State.keysKnown; decide,
    (ExecTx_keeps_keys_known refExt exState exPlugins
      (.send (exSendTx GoInt.one (some exKey))) false
      (by unfold State.keysKnown; decide)).2 OK exStateAfter (by decide)
      (Or.inl ⟨_, rfl⟩)⟩

/-! ## Splitting a key and making an input -/

/-- C31. For a key without '/', `splitKey` returns the key and the empty
string; for a key with a '/', it returns a prefix and a suffix such that the
prefix, "/" and the suffix make up the key and the prefix has no '/': the
split is at the first '/', and the suffix may have others. -/
theorem splitKey_spec (key : String) :
    ('/' ∉ key.toList → splitKey key = (key, "")) ∧
    ('/' ∈ key.toList →
      (splitKey key).1 ++ "/" ++ (splitKey key).2 = key ∧
        '/' ∉ (splitKey key).1.toList) :=
  ⟨(splitKey_parts key).2,
    fun h => ⟨((splitKey_parts key).1 h).1.symm, ((splitKey_parts key).1 h).2⟩⟩

/-- C31, on the key "ok/a/b", split into "ok" and "a/b", and on the key
"base", which has no '/'. -/
theorem splitKey_spec_witness :
    splitKey "ok/a/b" = ("ok", "a/b") ∧
    (splitKey "ok/a/b").1 ++ "/" ++ (splitKey "ok/a/b").2 = "ok/a/b" ∧
    splitKey "base" = ("base", "") :=
  ⟨by decide, ((splitKey_spec "ok/a/b").2 (by decide)).1,
    (splitKey_spec "base").1 (by decide)⟩

/-- C33. `NewTxInput` returns an input whose address is the address of the
key, whose coins and sequence are the arguments, whose signature is nil, and
whose pub_key is the key for a sequence of at most 1 and nil for a sequence
above 1; so for a sequence of at least 1, valid coins that are not zero and a
key whose address has 20 bytes, the input passes `ValidateBasic`. -/
theorem NewTxInput_spec (E : Ext) (pubKey : PubKey) (coins : Coins) (sequence : GoInt) :
    (NewTxInput E pubKey coins sequence).Address = pubKey.Address E ∧
    (NewTxInput E pubKey coins sequence).Coins = coins ∧
    (NewTxInput E pubKey coins sequence).Sequence = sequence ∧
    (NewTxInput E pubKey coins sequence).Signature = none ∧
    (sequence.val ≤ 1 → (NewTxInput E pubKey coins sequence).PubKey = some pubKey) ∧
    (1 < sequence.val → (NewTxInput E pubKey coins sequence).PubKey = none) ∧
    (1 ≤ sequence.val → coins.IsValid = true → coins.IsZero = false →
      (pubKey.Address E).length = 20 →
      (NewTxInput E pubKey coins sequence).ValidateBasic = OK) := by
  by_cases hs : sequence.val > 1
  · have hnew : NewTxInput E pubKey coins sequence =
        { Address := pubKey.Address E, PubKey := none, Coins := coins,
          Sequence := sequence, Signature := none } := by
      simp only [NewTxInput, hs, if_true]
    rw [hnew]
    refine ⟨rfl, rfl, rfl, rfl, fun h => by omega, fun _ => rfl, ?_⟩
    intro h1 hv hz hlen
    rw [TxInput.ValidateBasic_input_OK_iff]
    refine ⟨hlen, hv, hz, h1, ?_⟩
    simp only [Option.isSome_none, Bool.false_eq_true, false_iff]
    omega
  · have hnew : NewTxInput E pubKey coins sequence =
        { Address := pubKey.Address E, PubKey := some pubKey, Coins := coins,
          Sequence := sequence, Signature := none } := by
      simp only [NewTxInput, hs, if_false]
    rw [hnew]
    refine ⟨rfl, rfl, rfl, rfl, fun _ => rfl, fun h => absurd h hs, ?_⟩
    intro h1 hv hz hlen
    rw [TxInput.ValidateBasic_input_OK_iff]
    refine ⟨hlen, hv, hz, h1, ?_⟩
    simp only [Option.isSome_some, true_iff]
    omega

/-- C33, on the key `exKey`, whose address under `refExt` has 20 bytes, with
11 of the denom "": at sequence 1 the input carries the key, at sequence 2 it
does not, and both pass `ValidateBasic`. -/
theorem NewTxInput_spec_witness :
    (NewTxInput refExt exKey [⟨"", 11⟩] GoInt.one).PubKey = some exKey ∧
    (NewTxInput refExt exKey [⟨"", 11⟩] GoInt.one).ValidateBasic = OK ∧
    (NewTxInput refExt exKey [⟨"", 11⟩] ⟨2, by decide⟩).PubKey = none ∧
    (NewTxInput refExt exKey [⟨"", 11⟩] ⟨2, by decide⟩).ValidateBasic = OK :=
  ⟨(NewTxInput_spec refExt exKey [⟨"", 11⟩] GoInt.one).2.2.2.2.1 (by decide),
    (NewTxInput_spec refExt exKey [⟨"", 11⟩] GoInt.one).2.2.2.2.2.2 (by decide) (by decide)
      (by decide) (by decide),
    (NewTxInput_spec refExt exKey [⟨"", 11⟩] ⟨2, by decide⟩).2.2.2.2.2.1 (by decide),
    (NewTxInput_spec refExt exKey [⟨"", 11⟩] ⟨2, by decide⟩).2.2.2.2.2.2 (by decide)
      (by decide) (by decide) (by decide)⟩

end Basecoin
